import Mathlib

/-!
# Syscall descriptor model (`sys/decl.go`)

A shallow embedding of the type model, the struct layout pass, the resource
producer lookup and the transitive enabling of calls, followed by the
properties proved about them.

Conventions of the embedding:

* `uintptr` is a 64-bit machine word (`ptrSize = 8`): it is a `Nat`, every
  stored `uintptr` field is read modulo `2 ^ 64`, and every addition and
  multiplication of the source is followed by `% 2 ^ 64`.
* The Go types `ResourceKind`, `ResourceSubkind`, `BufferKind`, `IntKind` are
  declared `int`; they are `Int` here, so the `default:` branches of the
  source stay reachable.
* A Go `panic` (also the run-time panic of `%` by zero) is the result `none`.
* `*Call` is an address (`CallPtr`); the calls behind the addresses are given
  by a `Heap`. Addresses are those of allocated calls, `nil` is not an address.
-/

namespace Sys

/-! ## Data model -/

/-- Reduction of a natural number to a `uintptr`. -/
def wrap (n : Nat) : Nat := n % 2 ^ 64

/-- Source: `const ptrSize = 8`. -/
def ptrSize : Nat := 8

abbrev ResourceKind := Int
abbrev ResourceSubkind := Int
abbrev BufferKind := Int
abbrev IntKind := Int

abbrev ResFD : ResourceKind := 0
abbrev ResIOCtx : ResourceKind := 1
abbrev ResIPC : ResourceKind := 2
abbrev ResKey : ResourceKind := 3
abbrev ResInotifyDesc : ResourceKind := 4
abbrev ResPid : ResourceKind := 5
abbrev ResUid : ResourceKind := 6
abbrev ResGid : ResourceKind := 7
abbrev ResTimerid : ResourceKind := 8
abbrev ResIocbPtr : ResourceKind := 9

abbrev ResAny : ResourceSubkind := 0
abbrev FdFile : ResourceSubkind := 1
abbrev FdSock : ResourceSubkind := 2
abbrev FdPipe : ResourceSubkind := 3
abbrev FdSignal : ResourceSubkind := 4
abbrev FdEvent : ResourceSubkind := 5
abbrev FdTimer : ResourceSubkind := 6
abbrev FdEpoll : ResourceSubkind := 7
abbrev FdDir : ResourceSubkind := 8
abbrev FdMq : ResourceSubkind := 9
abbrev FdInotify : ResourceSubkind := 10
abbrev FdFanotify : ResourceSubkind := 11
abbrev FdTty : ResourceSubkind := 12
abbrev FdDRI : ResourceSubkind := 13
abbrev FdFuse : ResourceSubkind := 14
abbrev FdKdbus : ResourceSubkind := 15
abbrev FdBpfMap : ResourceSubkind := 16
abbrev FdBpfProg : ResourceSubkind := 17
abbrev FdPerf : ResourceSubkind := 18
abbrev FdUserFault : ResourceSubkind := 19
abbrev FdAlg : ResourceSubkind := 20
abbrev FdAlgConn : ResourceSubkind := 21
abbrev FdNfcRaw : ResourceSubkind := 22
abbrev FdNfcLlcp : ResourceSubkind := 23
abbrev FdBtHci : ResourceSubkind := 24
abbrev FdBtSco : ResourceSubkind := 25
abbrev FdBtL2cap : ResourceSubkind := 26
abbrev FdBtRfcomm : ResourceSubkind := 27
abbrev FdBtHidp : ResourceSubkind := 28
abbrev FdBtCmtp : ResourceSubkind := 29
abbrev FdBtBnep : ResourceSubkind := 30
abbrev FdUnix : ResourceSubkind := 31
abbrev IPCMsq : ResourceSubkind := 32
abbrev IPCSem : ResourceSubkind := 33
abbrev IPCShm : ResourceSubkind := 34

abbrev BufferBlob : BufferKind := 0
abbrev BufferString : BufferKind := 1
abbrev BufferSockaddr : BufferKind := 2
abbrev BufferFilesystem : BufferKind := 3
abbrev BufferAlgType : BufferKind := 4
abbrev BufferAlgName : BufferKind := 5

abbrev IntPlain : IntKind := 0
abbrev IntSignalno : IntKind := 1
abbrev IntInaddr : IntKind := 2

/-- Source: `InvalidFD = ^uintptr(0)`. -/
def InvalidFD : Nat := 2 ^ 64 - 1

/-- Source: `BogusFD = uintptr(100000 - 1)`. -/
def BogusFD : Nat := 100000 - 1

/-- Source: `type Dir int` with its three constants. -/
inductive Dir where
  | DirIn
  | DirOut
  | DirInOut
deriving DecidableEq, Repr

structure TypeCommon where
  TypeName : String
  IsOptional : Bool
deriving DecidableEq, Repr

/-- Source: `type ResourceType struct { TypeCommon; Kind; Subkind }`. -/
structure ResourceType where
  toTypeCommon : TypeCommon
  Kind : ResourceKind
  Subkind : ResourceSubkind
deriving DecidableEq, Repr

/-- The implementations of the interface `Type`, one constructor for each
struct type of the source; `Elem` is the source's field `Type`. -/
inductive Typ where
  | ResourceType (r : ResourceType)
  | FileoffType (c : TypeCommon) (TypeSize : Nat) (File : String)
  | BufferType (c : TypeCommon) (Kind : BufferKind)
  | VmaType (c : TypeCommon)
  | LenType (c : TypeCommon) (TypeSize : Nat) (Buf : String)
  | FlagsType (c : TypeCommon) (TypeSize : Nat) (Vals : List Nat)
  | ConstType (c : TypeCommon) (TypeSize : Nat) (Val : Nat) (IsPad : Bool)
  | StrConstType (c : TypeCommon) (TypeSize : Nat) (Val : String)
  | IntType (c : TypeCommon) (TypeSize : Nat) (Kind : IntKind)
  | FilenameType (c : TypeCommon)
  | ArrayType (c : TypeCommon) (Elem : Typ) (Len : Nat)
  | PtrType (c : TypeCommon) (Elem : Typ) (D : Dir)
  | StructType (c : TypeCommon) (Fields : List Typ) (padded : Bool)
deriving Repr

/-- Source: `type StructType struct { TypeCommon; Fields []Type; padded bool }`. -/
structure StructType where
  toTypeCommon : TypeCommon
  Fields : List Typ
  padded : Bool

/-- A `StructType` value seen as a `Type`. -/
def StructType.toTyp (t : StructType) : Typ :=
  Typ.StructType t.toTypeCommon t.Fields t.padded

structure Call where
  ID : Int
  NR : Int
  CallID : Int
  Name : String
  CallName : String
  Args : List Typ
  Ret : Option Typ

/-- Source: `func IsPad(t Type) bool`. -/
def IsPad : Typ → Bool
  | Typ.ConstType _ _ _ isPad => isPad
  | _ => false

/-! ## Resource taxonomy -/

def ResourceKinds : List ResourceKind :=
  [ResFD, ResIOCtx, ResIPC, ResKey, ResInotifyDesc, ResPid, ResUid, ResGid, ResTimerid,
    ResIocbPtr]

def ResourceSubkinds (kind : ResourceKind) : Option (List ResourceSubkind) :=
  if kind = ResFD then
    some [ResAny, FdFile, FdSock, FdPipe, FdSignal, FdEvent,
      FdTimer, FdEpoll, FdDir, FdMq, FdInotify, FdFanotify, FdTty,
      FdDRI, FdFuse, FdKdbus, FdBpfMap, FdBpfProg, FdPerf, FdUserFault,
      FdAlg, FdAlgConn, FdNfcRaw, FdNfcLlcp, FdBtHci, FdBtSco, FdBtL2cap,
      FdBtRfcomm, FdBtHidp, FdBtCmtp, FdBtBnep, FdUnix]
  else if kind = ResIPC then
    some [IPCMsq, IPCSem, IPCShm]
  else if kind = ResIOCtx ∨ kind = ResKey ∨ kind = ResInotifyDesc ∨ kind = ResPid ∨
      kind = ResUid ∨ kind = ResGid ∨ kind = ResTimerid ∨ kind = ResIocbPtr then
    some [ResAny]
  else
    none

/-- Source: `func (t ResourceType) Default() uintptr`. -/
def ResourceType.Default (t : ResourceType) : Option Nat :=
  if t.Kind = ResFD then some InvalidFD
  else if t.Kind = ResIOCtx then some 0
  else if t.Kind = ResIPC then some 0
  else if t.Kind = ResKey then some 0
  else if t.Kind = ResInotifyDesc then some 0
  else if t.Kind = ResPid then some 0
  else if t.Kind = ResUid then some 0
  else if t.Kind = ResGid then some 0
  else if t.Kind = ResTimerid then some 0
  else none

/-- Source: `func (t ResourceType) SpecialValues() []uintptr`. -/
def ResourceType.SpecialValues (t : ResourceType) : Option (List Nat) :=
  if t.Kind = ResFD then some [InvalidFD, BogusFD, 2 ^ 64 - 1 - 99]
  else if t.Kind = ResIOCtx then some [0]
  else if t.Kind = ResIPC then some [0, 2 ^ 64 - 1]
  else if t.Kind = ResKey then
    some [0, 2 ^ 64 - 1, 2 ^ 64 - 1 - 1, 2 ^ 64 - 1 - 2, 2 ^ 64 - 1 - 3,
      2 ^ 64 - 1 - 4, 2 ^ 64 - 1 - 5, 2 ^ 64 - 1 - 6, 2 ^ 64 - 1 - 7]
  else if t.Kind = ResInotifyDesc then some [0]
  else if t.Kind = ResPid then some [0, 2 ^ 64 - 1]
  else if t.Kind = ResUid then some [0, 2 ^ 64 - 1]
  else if t.Kind = ResGid then some [0, 2 ^ 64 - 1]
  else if t.Kind = ResTimerid then some [0]
  else none

/-- Source: `func (t ResourceType) Size() uintptr`. -/
def ResourceType.Size (t : ResourceType) : Option Nat :=
  if t.Kind = ResFD then some 4
  else if t.Kind = ResIOCtx then some 8
  else if t.Kind = ResIPC then some 4
  else if t.Kind = ResKey then some 4
  else if t.Kind = ResInotifyDesc then some 4
  else if t.Kind = ResPid then some 4
  else if t.Kind = ResUid then some 4
  else if t.Kind = ResGid then some 4
  else if t.Kind = ResTimerid then some 4
  else none

/-- Source: `func (t ResourceType) Align() uintptr`. -/
def ResourceType.Align (t : ResourceType) : Option Nat := t.Size

/-- Source: `func (t BufferType) Size() uintptr`, on the kind. -/
def bufferSize (kind : BufferKind) : Option Nat :=
  if kind = BufferAlgType then some 14
  else if kind = BufferAlgName then some 64
  else none

/-! ## Size and alignment -/

mutual
/-- The method `Size()` of each implementation of `Type`. -/
def Typ.Size : Typ → Option Nat
  | Typ.ResourceType r => r.Size
  | Typ.FileoffType _ sz _ => some (wrap sz)
  | Typ.BufferType _ kind => bufferSize kind
  | Typ.VmaType _ => some ptrSize
  | Typ.LenType _ sz _ => some (wrap sz)
  | Typ.FlagsType _ sz _ => some (wrap sz)
  | Typ.ConstType _ sz _ _ => some (wrap sz)
  | Typ.StrConstType _ _ _ => some ptrSize
  | Typ.IntType _ sz _ => some (wrap sz)
  | Typ.FilenameType _ => none
  | Typ.ArrayType _ elem len =>
    if wrap len = 0 then some 0
    else (Typ.Size elem).bind fun s => some (wrap (wrap len * s))
  | Typ.PtrType _ _ _ => some ptrSize
  | Typ.StructType _ fields padded =>
    if padded = false then none else Typ.sizeLoop fields 0
/-- The loop `for _, f := range t.Fields { size += f.Size() }` of
`StructType.Size`, from the running value `size`. -/
def Typ.sizeLoop : List Typ → Nat → Option Nat
  | [], size => some size
  | f :: fs, size => (Typ.Size f).bind fun s => Typ.sizeLoop fs (wrap (size + s))
end

mutual
/-- The method `Align()` of each implementation of `Type`. -/
def Typ.Align : Typ → Option Nat
  | Typ.ResourceType r => r.Align
  | Typ.FileoffType _ sz _ => some (wrap sz)
  | Typ.BufferType _ _ => some 1
  | Typ.VmaType _ => some ptrSize
  | Typ.LenType _ sz _ => some (wrap sz)
  | Typ.FlagsType _ sz _ => some (wrap sz)
  | Typ.ConstType _ sz _ _ => some (wrap sz)
  | Typ.StrConstType _ _ _ => some ptrSize
  | Typ.IntType _ sz _ => some (wrap sz)
  | Typ.FilenameType _ => some 1
  | Typ.ArrayType _ elem _ => Typ.Align elem
  | Typ.PtrType _ _ _ => some ptrSize
  | Typ.StructType _ fields _ => Typ.alignLoop fields 0
/-- The loop of `StructType.Align`, from the running value `align`. -/
def Typ.alignLoop : List Typ → Nat → Option Nat
  | [], align => some align
  | f :: fs, align =>
    (Typ.Align f).bind fun a1 => Typ.alignLoop fs (if align < a1 then a1 else align)
end

/-- Source: `func (t StructType) Size() uintptr`. -/
def StructType.Size (t : StructType) : Option Nat := t.toTyp.Size

/-- Source: `func (t StructType) Align() uintptr`. -/
def StructType.Align (t : StructType) : Option Nat := t.toTyp.Align

/-! ## Layout -/

/-- Source: `func makePad(sz uintptr) Type`. -/
def makePad (sz : Nat) : Typ :=
  Typ.ConstType { TypeName := "pad", IsOptional := false } sz 0 true

/-- The test `at, ok := f.(ArrayType); ok && at.Len == 0`. -/
def isVarLenArray : Typ → Bool
  | Typ.ArrayType _ _ len => decide (wrap len = 0)
  | _ => false

/-- The local variables of `addAlignment` that its loop updates. -/
structure LayoutState where
  fields : List Typ
  off : Nat
  align : Nat
  varLen : Bool

/-- One iteration of the loop of `addAlignment` on the field `f` of index `i`
of a struct of `n` fields. -/
def layoutStep (n i : Nat) (f : Typ) (st : LayoutState) : Option LayoutState :=
  (Typ.Align f).bind fun a =>
    let align := if st.align < a then a else st.align
    if a = 0 then none
    else
      let pad := a - st.off % a
      let off1 := if st.off % a ≠ 0 then wrap (st.off + pad) else st.off
      let fields1 := if st.off % a ≠ 0 then st.fields ++ [makePad pad] else st.fields
      (Typ.Size f).bind fun sz =>
        let off2 := wrap (off1 + sz)
        let fields2 := fields1 ++ [f]
        let varLen := st.varLen || isVarLenArray f
        if varLen = true ∧ i ≠ n - 1 then none
        else some { fields := fields2, off := off2, align := align, varLen := varLen }

/-- The loop `for i, f := range t.Fields` of `addAlignment`, from index `i`. -/
def layoutLoop (n : Nat) : List Typ → Nat → LayoutState → Option LayoutState
  | [], _, st => some st
  | f :: fs, i, st => (layoutStep n i f st).bind fun st1 => layoutLoop n fs (i + 1) st1

/-- The statements of `addAlignment` after the loop: the trailing padding. -/
def layoutFinish (st : LayoutState) : List Typ :=
  if st.align ≠ 0 ∧ st.off % st.align ≠ 0 ∧ st.varLen = false then
    st.fields ++ [makePad (st.align - st.off % st.align)]
  else st.fields

/-- Source: `func addAlignment(t StructType) Type`; the result is always a
`StructType`, returned here as such. -/
def addAlignment (t : StructType) : Option StructType :=
  (layoutLoop t.Fields.length t.Fields 0
      { fields := [], off := 0, align := 0, varLen := false }).bind fun st =>
    some { toTypeCommon := t.toTypeCommon, Fields := layoutFinish st, padded := true }

/-! ## Resource graph -/

/-- The address of a `Call` (`*Call`). -/
abbrev CallPtr := Nat

/-- The calls stored at the addresses. -/
abbrev Heap := CallPtr → Call

/-- The condition of the first `if` of `checkArg` in `ResourceCtors`, once
`typ` is known to be the `ResourceType` `resarg`. -/
def ctorMatch (kind : ResourceKind) (sk : ResourceSubkind) (precise : Bool)
    (resarg : ResourceType) (dir : Dir) : Bool :=
  decide (dir ≠ Dir.DirIn) && decide (resarg.Kind = kind) &&
    (decide (sk = resarg.Subkind) || decide (sk = ResAny) ||
      (decide (resarg.Subkind = ResAny) && !precise))

mutual
/-- The closure `checkArg` of `ResourceCtors`. -/
def ctorCheckArg (kind : ResourceKind) (sk : ResourceSubkind) (precise : Bool) :
    Typ → Dir → Bool
  | Typ.ResourceType resarg, dir => ctorMatch kind sk precise resarg dir
  | Typ.ArrayType _ elem _, dir => ctorCheckArg kind sk precise elem dir
  | Typ.StructType _ fields _, dir => ctorCheckFields kind sk precise fields dir
  | Typ.PtrType _ elem d, _ => ctorCheckArg kind sk precise elem d
  | Typ.FileoffType _ _ _, _ => false
  | Typ.BufferType _ _, _ => false
  | Typ.VmaType _, _ => false
  | Typ.LenType _ _ _, _ => false
  | Typ.FlagsType _ _ _, _ => false
  | Typ.ConstType _ _ _ _, _ => false
  | Typ.StrConstType _ _ _, _ => false
  | Typ.IntType _ _ _, _ => false
  | Typ.FilenameType _, _ => false
/-- The loop `for _, fld := range typ1.Fields` of that closure. -/
def ctorCheckFields (kind : ResourceKind) (sk : ResourceSubkind) (precise : Bool) :
    List Typ → Dir → Bool
  | [], _ => false
  | fld :: rest, dir =>
    if ctorCheckArg kind sk precise fld dir then true
    else ctorCheckFields kind sk precise rest dir
end

/-- The loop `for _, arg := range meta.Args` of `ResourceCtors`, giving the
value of `ok` after it. -/
def ctorCheckArgs (kind : ResourceKind) (sk : ResourceSubkind) (precise : Bool) :
    List Typ → Bool
  | [] => false
  | arg :: rest =>
    if ctorCheckArg kind sk precise arg Dir.DirIn then true
    else ctorCheckArgs kind sk precise rest

/-- The value of `ok` for one call `meta` at the end of the body of the loop
over `Calls`. -/
def ctorOk (kind : ResourceKind) (sk : ResourceSubkind) (precise : Bool) (c : Call) : Bool :=
  let ok := ctorCheckArgs kind sk precise c.Args
  if ok = false ∧ c.Ret.isSome ∧
      (match c.Ret with
        | some ret => ctorCheckArg kind sk precise ret Dir.DirOut
        | none => false) = true then true
  else ok

/-- The loop `for _, meta := range Calls` of `ResourceCtors`, from the current
value of `metas`. -/
def ctorsLoop (heap : Heap) (kind : ResourceKind) (sk : ResourceSubkind) (precise : Bool) :
    List CallPtr → List CallPtr → List CallPtr
  | [], metas => metas
  | m :: rest, metas =>
    ctorsLoop heap kind sk precise rest
      (if ctorOk kind sk precise (heap m) then metas ++ [m] else metas)

/-- Source: `func ResourceCtors(kind, sk, precise) []*Call`, over the registry `Calls`. -/
def ResourceCtors (Calls : List CallPtr) (heap : Heap) (kind : ResourceKind)
    (sk : ResourceSubkind) (precise : Bool) : List CallPtr :=
  ctorsLoop heap kind sk precise Calls []

mutual
/-- The closure `checkArg` of `InputResources`; the slice `resources` it
appends to is passed and returned. -/
def inputCheckArg : Typ → Dir → List ResourceType → List ResourceType
  | Typ.ResourceType typ1, dir, resources =>
    if dir ≠ Dir.DirOut ∧ typ1.toTypeCommon.IsOptional = false then resources ++ [typ1]
    else resources
  | Typ.ArrayType _ elem _, dir, resources => inputCheckArg elem dir resources
  | Typ.PtrType _ elem d, _, resources => inputCheckArg elem d resources
  | Typ.StructType _ fields _, dir, resources => inputCheckFields fields dir resources
  | Typ.FileoffType _ _ _, _, resources => resources
  | Typ.BufferType _ _, _, resources => resources
  | Typ.VmaType _, _, resources => resources
  | Typ.LenType _ _ _, _, resources => resources
  | Typ.FlagsType _ _ _, _, resources => resources
  | Typ.ConstType _ _ _ _, _, resources => resources
  | Typ.StrConstType _ _ _, _, resources => resources
  | Typ.IntType _ _ _, _, resources => resources
  | Typ.FilenameType _, _, resources => resources
/-- The loop `for _, fld := range typ1.Fields` of that closure. -/
def inputCheckFields : List Typ → Dir → List ResourceType → List ResourceType
  | [], _, resources => resources
  | fld :: rest, dir, resources =>
    inputCheckFields rest dir (inputCheckArg fld dir resources)
end

/-- The loop `for _, arg := range c.Args` of `InputResources`. -/
def inputCheckArgs : List Typ → List ResourceType → List ResourceType
  | [], resources => resources
  | arg :: rest, resources => inputCheckArgs rest (inputCheckArg arg Dir.DirIn resources)

/-- Source: `func (c *Call) InputResources() []ResourceType`. -/
def Call.InputResources (c : Call) : List ResourceType :=
  inputCheckArgs c.Args []

/-! ## Transitively enabled calls -/

/-- The value of `noctors` after the loop over
`ResourceCtors(res.Kind, res.Subkind, true)`. -/
def noctors (Calls : List CallPtr) (heap : Heap) (supported : Finset CallPtr)
    (res : ResourceType) : Bool :=
  !(ResourceCtors Calls heap res.Kind res.Subkind true).any fun ctor => decide (ctor ∈ supported)

/-- The value of `canCreate` after the loop over `c.InputResources()`. -/
def canCreate (Calls : List CallPtr) (heap : Heap) (supported : Finset CallPtr)
    (c : CallPtr) : Bool :=
  (heap c).InputResources.all fun res => !noctors Calls heap supported res

/-- One execution of `for c := range enabled { ... }` inside the outer loop,
the keys of `enabled` coming in the order `keys`. -/
def prunePass (Calls : List CallPtr) (heap : Heap) :
    List CallPtr → Finset CallPtr → Finset CallPtr
  | [], supported => supported
  | c :: rest, supported =>
    if c ∉ supported then prunePass Calls heap rest supported
    else if canCreate Calls heap supported c = false then
      prunePass Calls heap rest (supported.erase c)
    else prunePass Calls heap rest supported

/-- The outer `for { ... }` of `TransitivelyEnabledCalls`: `orders k` is the
order in which the `k`-th `range enabled` of the function yields the keys, and
`fuel` bounds the number of passes. -/
def pruneLoop (Calls : List CallPtr) (heap : Heap) (orders : Nat → List CallPtr) :
    Nat → Nat → Finset CallPtr → Option (Finset CallPtr)
  | 0, _, _ => none
  | fuel + 1, k, supported =>
    let n := supported.card
    let supported1 := prunePass Calls heap (orders k) supported
    if n = supported1.card then some supported1
    else pruneLoop Calls heap orders fuel (k + 1) supported1

/-- The first loop of `TransitivelyEnabledCalls`: `supported[c] = true` for
every key `c`. -/
def copyKeys : List CallPtr → Finset CallPtr → Finset CallPtr
  | [], supported => supported
  | c :: rest, supported => copyKeys rest (insert c supported)

/-- Source: `func TransitivelyEnabledCalls(enabled map[*Call]bool) map[*Call]bool`.
The map `enabled` is given by its set of keys (its values are never read) and
by `orders`, the key order of each `range enabled`; the result, a map whose
values are all `true`, is given by its set of keys. -/
def TransitivelyEnabledCalls (Calls : List CallPtr) (heap : Heap)
    (enabled : Finset CallPtr) (orders : Nat → List CallPtr) : Option (Finset CallPtr) :=
  pruneLoop Calls heap orders (enabled.card + 1) 1 (copyKeys (orders 0) ∅)

/-- The sequence `orders` lists, for every `range enabled`, each key of
`enabled` exactly once. -/
def RangeOrders (enabled : Finset CallPtr) (orders : Nat → List CallPtr) : Prop :=
  ∀ k, (orders k).Nodup ∧ ∀ c, c ∈ orders k ↔ c ∈ enabled

/-! ## Specification vocabulary -/

/-- Every call of `T` has, for each of its input resources, a precise
constructor inside `T`. -/
def SelfSupported (Calls : List CallPtr) (heap : Heap) (T : Finset CallPtr) : Prop :=
  ∀ c ∈ T, ∀ r ∈ (heap c).InputResources,
    ∃ ctor ∈ ResourceCtors Calls heap r.Kind r.Subkind true, ctor ∈ T

/-- The sum of the sizes of the fields as a natural number, without the
reduction modulo `2 ^ 64` of `StructType.Size`; a field without a size
counts for 0. -/
def natSizeSum (fs : List Typ) : Nat :=
  (fs.map fun f => (Typ.Size f).getD 0).sum

/-- The facts about the state of the loop that hold whatever the sizes: the
offset is the sum of the sizes of the fields so far modulo `2 ^ 64`, every
field so far has a size, `align` is the `Align()` of the fields so far, it
is not 0 once a field is processed, and `varLen` tells whether a
variable-length array was processed. -/
def LayoutBasic (done : List Typ) (st : LayoutState) : Prop :=
  st.off = wrap (natSizeSum st.fields) ∧
  (∀ f ∈ st.fields, (Typ.Size f).isSome = true) ∧
  Typ.alignLoop st.fields 0 = some st.align ∧
  (done ≠ [] → st.align ≠ 0) ∧
  st.varLen = done.any isVarLenArray

/-- A field list with marks: `true` on a padding field that the layout
inserted, `false` on a field of the struct as declared. Starting at offset
`off`, every field marked `false` has a non-zero alignment that divides its
offset, the offset of a field being `off` plus the sizes of the fields before
it. -/
def AlignedFrom : Nat → List (Bool × Typ) → Prop
  | _, [] => True
  | off, p :: rest =>
    (p.1 = false → ∃ a, Typ.Align p.2 = some a ∧ a ≠ 0 ∧ off % a = 0) ∧
      AlignedFrom (off + (Typ.Size p.2).getD 0) rest

/-- The marked field lists that describe the fields `fields` built from the
declared fields `done`: the fields are those of the marked list, the ones
marked `false` are the declared ones in their order, the ones marked `true`
are padding made by `makePad`, and the declared ones are aligned. -/
def MarksOf (done fields : List Typ) (marks : List (Bool × Typ)) : Prop :=
  marks.map Prod.snd = fields ∧
  (marks.filter fun p => !p.1).map Prod.snd = done ∧
  (∀ p ∈ marks, p.1 = true → ∃ sz, p.2 = makePad sz) ∧
  AlignedFrom 0 marks

/-- The invariant of the loop of `addAlignment` on the offsets, as long as the
sizes of the fields so far sum to less than `2 ^ 64`. -/
def LayoutAligned (done : List Typ) (st : LayoutState) : Prop :=
  LayoutBasic done st ∧
    (natSizeSum st.fields < 2 ^ 64 → ∃ marks, MarksOf done st.fields marks)

/-! ## Resource positions, after the specification -/

mutual
/-- The positions of a type that hold a resource, in depth-first
left-to-right order, each with its direction: an array element and a struct
field have the direction of their container, the target of a pointer has the
direction of the pointer. -/
def resourcePositions : Typ → Dir → List (ResourceType × Dir)
  | Typ.ResourceType r, dir => [(r, dir)]
  | Typ.ArrayType _ elem _, dir => resourcePositions elem dir
  | Typ.StructType _ fields _, dir => resourcePositionsOfList fields dir
  | Typ.PtrType _ elem d, _ => resourcePositions elem d
  | Typ.FileoffType _ _ _, _ => []
  | Typ.BufferType _ _, _ => []
  | Typ.VmaType _, _ => []
  | Typ.LenType _ _ _, _ => []
  | Typ.FlagsType _ _ _, _ => []
  | Typ.ConstType _ _ _ _, _ => []
  | Typ.StrConstType _ _ _, _ => []
  | Typ.IntType _ _ _, _ => []
  | Typ.FilenameType _, _ => []
/-- The resource positions of the types of a list, one type after the other. -/
def resourcePositionsOfList : List Typ → Dir → List (ResourceType × Dir)
  | [], _ => []
  | t :: ts, dir => resourcePositions t dir ++ resourcePositionsOfList ts dir
end

/-- The resource positions of the arguments of a call: an argument has
direction in. -/
def argPositions (c : Call) : List (ResourceType × Dir) :=
  resourcePositionsOfList c.Args Dir.DirIn

/-- The resource positions of the return type of a call, if it has one: the
return type has direction out. -/
def retPositions (c : Call) : List (ResourceType × Dir) :=
  match c.Ret with
  | some ret => resourcePositions ret Dir.DirOut
  | none => []

/-- A position qualifies for the lookup of `kind`, `sk`: it holds a resource
of this kind, its direction is not in, and its subkind is `sk`, or `sk` is
`ResAny`, or its subkind is `ResAny` and the lookup is not precise. -/
def Qualifies (kind : ResourceKind) (sk : ResourceSubkind) (precise : Bool)
    (p : ResourceType × Dir) : Prop :=
  p.1.Kind = kind ∧ p.2 ≠ Dir.DirIn ∧
    (p.1.Subkind = sk ∨ sk = ResAny ∨ (p.1.Subkind = ResAny ∧ precise = false))

instance (kind : ResourceKind) (sk : ResourceSubkind) (precise : Bool)
    (p : ResourceType × Dir) : Decidable (Qualifies kind sk precise p) := by
  unfold Qualifies
  exact inferInstance

/-- The predicate of the specification on the calls that `ResourceCtors`
lists: an argument or the return type has a qualifying position. -/
def producesSpec (kind : ResourceKind) (sk : ResourceSubkind) (precise : Bool)
    (c : Call) : Bool :=
  (argPositions c ++ retPositions c).any fun p => decide (Qualifies kind sk precise p)

/-- The list of the specification for `InputResources`: the resources at the
positions of the arguments whose direction is not out and that are not
optional, in traversal order, repetitions kept. -/
def inputResourcesSpec (c : Call) : List ResourceType :=
  ((argPositions c).filter fun p =>
    decide (p.2 ≠ Dir.DirOut ∧ p.1.toTypeCommon.IsOptional = false)).map Prod.fst

/-- The default of a resource type is one of its special values. -/
def defaultIsSpecial (t : ResourceType) : Bool :=
  match t.Default, t.SpecialValues with
  | some d, some vs => decide (d ∈ vs)
  | _, _ => false

/-! ## Counting the passes of the pruning loop -/

/-- The outer loop of `TransitivelyEnabledCalls` as `pruneLoop`, with the
number of executions of its body next to the result. -/
def pruneLoopPasses (Calls : List CallPtr) (heap : Heap) (orders : Nat → List CallPtr) :
    Nat → Nat → Finset CallPtr → Option (Finset CallPtr × Nat)
  | 0, _, _ => none
  | fuel + 1, k, supported =>
    let n := supported.card
    let supported1 := prunePass Calls heap (orders k) supported
    if n = supported1.card then some (supported1, 1)
    else (pruneLoopPasses Calls heap orders fuel (k + 1) supported1).map
      fun r => (r.1, r.2 + 1)

/-- The result of `TransitivelyEnabledCalls` with the number of passes over
`enabled` that the outer loop made, the last one included. -/
def TransitivelyEnabledPasses (Calls : List CallPtr) (heap : Heap)
    (enabled : Finset CallPtr) (orders : Nat → List CallPtr) :
    Option (Finset CallPtr × Nat) :=
  pruneLoopPasses Calls heap orders (enabled.card + 1) 1 (copyKeys (orders 0) ∅)

/-! ## Reference layout, after the specification -/

/-- The pass of the reference layout over the declared fields `fs` from the
running offset `off` (a `uintptr`): a field whose offset is not a multiple of
its alignment `a` gets a padding field of `a - off % a` bytes right before
it, an aligned field gets none; the offset advances by the padding and by the
size of the field. A padding field is marked `true`, a declared field
`false`. -/
def referenceFields : Nat → List Typ → List (Bool × Typ)
  | _, [] => []
  | off, f :: fs =>
    let a := (Typ.Align f).getD 0
    let sz := (Typ.Size f).getD 0
    if off % a ≠ 0 then
      (true, makePad (a - off % a)) :: (false, f) ::
        referenceFields (wrap (wrap (off + (a - off % a)) + sz)) fs
    else (false, f) :: referenceFields (wrap (off + sz)) fs

/-- The running maximum of the alignments of the declared fields. -/
def referenceAlign (fs : List Typ) : Nat :=
  (fs.map fun f => (Typ.Align f).getD 0).foldl (fun m a => max m a) 0

/-- The reference layout of the declared fields `fs`: the pass over the
fields, then one trailing padding field if the struct is not variable-length
and the final offset is not a multiple of the running alignment. -/
def referenceLayout (fs : List Typ) : List (Bool × Typ) :=
  let body := referenceFields 0 fs
  let off := wrap (natSizeSum (body.map Prod.snd))
  let align := referenceAlign fs
  if align ≠ 0 ∧ off % align ≠ 0 ∧ fs.any isVarLenArray = false then
    body ++ [(true, makePad (align - off % align))]
  else body

/-! ## Initialisation of the registry -/

/-- Source: `var numbers = []int{...}` of `sys_amd64.go`, the kernel syscall
number of each internal syscall ID. -/
def numbers : List Int :=
  [2, 2, 257, 85, 3, 0, 17, 19, 295, 1, 18, 20, 296, 8, 32, 33, 292, 22, 293, 276, 275, 278, 40,
    4, 6, 5, 7, 271, 23, 270, 213, 291, 233, 232, 281, 282, 289, 284, 290, 283, 286, 287, 323,
    16, 16, 16, 16, 16, 16, 9, 11, 25, 216, 10, 26, 28, 221, 187, 237, 279, 256, 238, 239, 27,
    149, 325, 150, 151, 152, 319, 272, 312, 202, 273, 274, 219, 16, 16, 16, 16, 16, 72, 72, 72,
    72, 72, 72, 72, 72, 72, 72, 72, 72, 72, 72, 101, 101, 101, 101, 101, 101, 101, 101, 101, 101,
    101, 101, 101, 101, 206, 207, 208, 209, 210, 125, 126, 157, 157, 157, 157, 157, 157, 157,
    157, 157, 157, 158, 317, 240, 242, 243, 244, 245, 241, 68, 69, 70, 71, 64, 65, 220, 66, 29,
    30, 31, 67, 133, 259, 90, 91, 268, 92, 94, 93, 260, 285, 269, 132, 235, 261, 280, 104, 108,
    105, 106, 102, 107, 109, 121, 111, 39, 186, 113, 114, 117, 119, 118, 120, 122, 123, 115, 116,
    135, 253, 294, 254, 255, 300, 301, 86, 265, 266, 88, 87, 263, 89, 267, 82, 264, 316, 83, 258,
    84, 76, 77, 73, 74, 75, 162, 306, 277, 212, 78, 217, 303, 304, 165, 165, 166, 155, 139, 139,
    139, 137, 138, 134, 175, 313, 176, 246, 177, 103, 63, 99, 136, 163, 98, 97, 160, 302, 172,
    173, 252, 252, 251, 251, 308, 188, 189, 190, 191, 192, 193, 194, 195, 196, 197, 198, 199,
    201, 228, 227, 305, 229, 230, 222, 224, 225, 223, 226, 13, 14, 15, 127, 128, 130, 129, 297,
    131, 234, 200, 34, 37, 35, 36, 38, 60, 231, 247, 61, 100, 205, 211, 154, 154, 154, 154, 310,
    311, 218, 140, 141, 145, 144, 148, 143, 142, 204, 203, 315, 314, 24, 318, 324, 41, 53, 43,
    288, 49, 50, 42, 48, 44, 46, 307, 45, 47, 299, 51, 52, 55, 54, 54, 55, 54, 54, 55, 54, 55,
    54, 55, 54, 54, 54, 55, 54, 55, 55, 54, 55, 54, 55, 54, 55, 54, 55, 54, 55, 54, 55, 54, 55,
    54, 55, 54, 55, 54, 55, 54, 55, 54, 55, 54, 55, 54, 55, 54, 55, 54, 41, 53, 49, 42, 43, 288,
    16, 16, 44, 46, 307, 45, 47, 299, 51, 52, 41, 49, 54, 54, 43, 46, 307, 47, 299, 41, 49, 42,
    43, 54, 54, 55, 46, 307, 41, 42, 41, 49, 16, 54, 54, 54, 55, 41, 49, 42, 55, 55, 41, 49, 42,
    54, 55, 54, 55, 54, 55, 41, 49, 42, 54, 55, 55, 41, 16, 16, 16, 16, 41, 16, 16, 16, 16, 41,
    16, 16, 16, 16, 16, 16, 54, 55, 54, 55, 54, 55, 54, 55, 54, 55, 54, 55, 54, 55, 54, 55, 2,
    1000001, 16, 16, 16, 16, 16, 16, 16, 16, 16, 16, 16, 16, 16, 16, 16, 16, 16, 16, 16, 16, 16,
    16, 16, 16, 16, 16, 16, 16, 16, 16, 16, 16, 16, 16, 16, 16, 16, 16, 16, 16, 16, 16, 16, 16,
    16, 16, 16, 16, 16, 16, 16, 16, 16, 16, 16, 16, 16, 16, 16, 16, 16, 16, 16, 16, 16, 16, 16,
    16, 16, 16, 16, 16, 16, 16, 16, 16, 16, 16, 16, 16, 16, 16, 16, 16, 16, 16, 16, 16, 16, 16,
    16, 16, 16, 298, 16, 16, 16, 16, 16, 16, 16, 16, 16, 248, 249, 250, 250, 250, 250, 250, 250,
    250, 250, 250, 250, 250, 250, 250, 250, 250, 250, 250, 250, 250, 250, 250, 250, 250, 321,
    321, 321, 321, 321, 321, 321, 321, 321, 321, 1000003, 1000004, 16, 1, 1, 1, 1, 1, 1, 1, 1, 1,
    1, 1, 1000002, 16, 16, 16, 16, 16, 16, 16, 16, 16, 16, 2, 16, 16, 16, 16, 16, 16, 16, 16, 16,
    16, 16, 16, 16, 16, 16, 16]

/-- A Go map as the list of its entries, without two entries for one key:
the lookup `m[k]`, with `none` for an absent key. -/
def mapGet {K V : Type} [DecidableEq K] : List (K × V) → K → Option V
  | [], _ => none
  | e :: m, k => if e.1 = k then some e.2 else mapGet m k

/-- The assignment `m[k] = v` on a Go map. -/
def mapSet {K V : Type} [DecidableEq K] : List (K × V) → K → V → List (K × V)
  | [], k, v => [(k, v)]
  | e :: m, k, v => if e.1 = k then (k, v) :: m else e :: mapSet m k v

/-- The type of `ctors`, `map[ResourceKind]map[ResourceSubkind][]*Call`. -/
abbrev CtorCache := List (ResourceKind × List (ResourceSubkind × List CallPtr))

/-- Source: `func ResourceConstructors(kind, sk) []*Call`, on the cache
`ctors`; an absent key gives the empty list. -/
def ResourceConstructors (ctors : CtorCache) (kind : ResourceKind) (sk : ResourceSubkind) :
    List CallPtr :=
  match mapGet ctors kind with
  | some inner => (mapGet inner sk).getD []
  | none => []

/-- The loop `for _, sk := range ResourceSubkinds(kind)` of `initResources`
on the map `ctors[kind]`. -/
def initSubkinds (Calls : List CallPtr) (heap : Heap) (kind : ResourceKind) :
    List ResourceSubkind → List (ResourceSubkind × List CallPtr) →
      List (ResourceSubkind × List CallPtr)
  | [], inner => inner
  | sk :: rest, inner =>
    initSubkinds Calls heap kind rest (mapSet inner sk (ResourceCtors Calls heap kind sk false))

/-- The loop `for _, kind := range ResourceKinds()` of `initResources`. -/
def initKinds (Calls : List CallPtr) (heap : Heap) :
    List ResourceKind → CtorCache → Option CtorCache
  | [], ctors => some ctors
  | kind :: rest, ctors =>
    (ResourceSubkinds kind).bind fun sks =>
      initKinds Calls heap rest (mapSet ctors kind (initSubkinds Calls heap kind sks []))

/-- Source: `func initResources()`, from the empty map `ctors`. -/
def initResources (Calls : List CallPtr) (heap : Heap) : Option CtorCache :=
  initKinds Calls heap ResourceKinds []

/-- The index expression `numbers[id]`, which panics out of range. -/
def numberOf (id : Int) : Option Int :=
  if 0 ≤ id then numbers[id.toNat]? else none

/-- The loop `for _, c := range Calls { c.NR = numbers[c.ID] }` of `init`. -/
def initNumbers : List CallPtr → Heap → Option Heap
  | [], heap => some heap
  | c :: rest, heap =>
    (numberOf (heap c).ID).bind fun nr =>
      initNumbers rest (Function.update heap c { heap c with NR := nr })

mutual
/-- The closure `rec` of `init`: it lays out the structs of a type from the
innermost ones. The slices of the source are values here: no two types share
a slice of fields. -/
def rec : Typ → Option Typ
  | Typ.PtrType c elem d => (rec elem).bind fun e => some (Typ.PtrType c e d)
  | Typ.ArrayType c elem len => (rec elem).bind fun e => some (Typ.ArrayType c e len)
  | Typ.StructType c fields padded =>
    (recList fields).bind fun fs =>
      (addAlignment { toTypeCommon := c, Fields := fs, padded := padded }).bind fun t =>
        some t.toTyp
  | Typ.ResourceType r => some (Typ.ResourceType r)
  | Typ.FileoffType c sz file => some (Typ.FileoffType c sz file)
  | Typ.BufferType c kind => some (Typ.BufferType c kind)
  | Typ.VmaType c => some (Typ.VmaType c)
  | Typ.LenType c sz buf => some (Typ.LenType c sz buf)
  | Typ.FlagsType c sz vals => some (Typ.FlagsType c sz vals)
  | Typ.ConstType c sz val isPad => some (Typ.ConstType c sz val isPad)
  | Typ.StrConstType c sz val => some (Typ.StrConstType c sz val)
  | Typ.IntType c sz kind => some (Typ.IntType c sz kind)
  | Typ.FilenameType c => some (Typ.FilenameType c)
/-- The loops `for i, f := range t1.Fields { t1.Fields[i] = rec(f) }` and
`for i, t := range c.Args { c.Args[i] = rec(t) }`. -/
def recList : List Typ → Option (List Typ)
  | [] => some []
  | f :: fs => (rec f).bind fun f1 => (recList fs).bind fun fs1 => some (f1 :: fs1)
end

/-- The statement `if c.Ret != nil { c.Ret = rec(c.Ret) }`. -/
def recRet : Option Typ → Option (Option Typ)
  | none => some none
  | some ret => (rec ret).bind fun r => some (some r)

/-- The loop of `init` that applies `rec` to the arguments and to the return
type of every call. -/
def initLayout : List CallPtr → Heap → Option Heap
  | [], heap => some heap
  | c :: rest, heap =>
    (recList (heap c).Args).bind fun args =>
      (recRet (heap c).Ret).bind fun ret =>
        initLayout rest (Function.update heap c { heap c with Args := args, Ret := ret })

/-- The variables that the last loop of `init` updates: the calls, `CallMap`
and `CallID`. -/
structure NameState where
  heap : Heap
  CallMap : List (String × CallPtr)
  CallID : List (String × Int)

/-- One iteration of the last loop of `init`, on the call `c`. -/
def nameStep (c : CallPtr) (s : NameState) : Option NameState :=
  if (mapGet s.CallMap (s.heap c).Name).isSome then none
  else
    let ok := mapGet s.CallID (s.heap c).CallName
    let id : Int := match ok with
      | some id => id
      | none => (s.CallID.length : Int)
    let callID := match ok with
      | some _ => s.CallID
      | none => mapSet s.CallID (s.heap c).CallName (s.CallID.length : Int)
    some { heap := Function.update s.heap c { s.heap c with CallID := id },
           CallMap := mapSet s.CallMap (s.heap c).Name c,
           CallID := callID }

/-- The last loop of `init`, `for _, c := range Calls`. -/
def initNames : List CallPtr → NameState → Option NameState
  | [], s => some s
  | c :: rest, s => (nameStep c s).bind fun s1 => initNames rest s1

/-- The package variables after `init`. -/
structure InitState where
  heap : Heap
  ctors : CtorCache
  CallMap : List (String × CallPtr)
  CallID : List (String × Int)
  CallCount : Int

/-- Source: `func init()`, from the registry `Calls` and the calls `heap`
that `initCalls()` leaves. -/
def init (Calls : List CallPtr) (heap : Heap) : Option InitState :=
  (initResources Calls heap).bind fun ctors =>
    (initNumbers Calls heap).bind fun heap1 =>
      (initLayout Calls heap1).bind fun heap2 =>
        (initNames Calls { heap := heap2, CallMap := [], CallID := [] }).bind fun s =>
          some { heap := s.heap, ctors := ctors, CallMap := s.CallMap, CallID := s.CallID,
                 CallCount := (s.CallID.length : Int) }

mutual
/-- The types reachable from a type through pointer targets, array elements
and struct fields, the type itself first. -/
def reachableTypes : Typ → List Typ
  | Typ.PtrType c elem d => Typ.PtrType c elem d :: reachableTypes elem
  | Typ.ArrayType c elem len => Typ.ArrayType c elem len :: reachableTypes elem
  | Typ.StructType c fields padded =>
    Typ.StructType c fields padded :: reachableOfList fields
  | Typ.ResourceType r => [Typ.ResourceType r]
  | Typ.FileoffType c sz file => [Typ.FileoffType c sz file]
  | Typ.BufferType c kind => [Typ.BufferType c kind]
  | Typ.VmaType c => [Typ.VmaType c]
  | Typ.LenType c sz buf => [Typ.LenType c sz buf]
  | Typ.FlagsType c sz vals => [Typ.FlagsType c sz vals]
  | Typ.ConstType c sz val isPad => [Typ.ConstType c sz val isPad]
  | Typ.StrConstType c sz val => [Typ.StrConstType c sz val]
  | Typ.IntType c sz kind => [Typ.IntType c sz kind]
  | Typ.FilenameType c => [Typ.FilenameType c]
/-- The types reachable from the types of a list. -/
def reachableOfList : List Typ → List Typ
  | [] => []
  | t :: ts => reachableTypes t ++ reachableOfList ts
end

/-- A type that, if it is a struct, is laid out: `padded` is true and
`Size()` returns. -/
def LaidOut : Typ → Prop
  | Typ.StructType c fields padded =>
    padded = true ∧ (Typ.Size (Typ.StructType c fields padded)).isSome = true
  | _ => True

/-- A call whose arguments and return type have all their reachable structs
laid out. -/
def CallLaidOut (c : Call) : Prop :=
  (∀ s ∈ reachableOfList c.Args, LaidOut s) ∧
    ∀ ret, c.Ret = some ret → ∀ s ∈ reachableTypes ret, LaidOut s

/-- Two states of a call with the same identity, names and resource
positions. -/
def SameCall (a b : Call) : Prop :=
  a.ID = b.ID ∧ a.Name = b.Name ∧ a.CallName = b.CallName ∧
    argPositions a = argPositions b ∧ retPositions a = retPositions b

/-- Two states of a call that differ at most in `CallID`. -/
def SameButCallID (a b : Call) : Prop :=
  a.ID = b.ID ∧ a.NR = b.NR ∧ a.Name = b.Name ∧ a.CallName = b.CallName ∧
    a.Args = b.Args ∧ a.Ret = b.Ret

/-- The invariant of the last loop of `init` after the calls `done`, for the
names `nm` and the family names `fam` of the calls: `CallMap` has the names of
`done` as keys, each with its call, the names of `done` differ, `CallID` has
the families of `done` as keys, the value of its `i`-th entry is `i`, every
call of `done` has the value of its family as `CallID`, and a family seen
first has the smaller value. -/
def NamesInv (nm fam : CallPtr → String) (done : List CallPtr) (s : NameState) : Prop :=
  (∀ p, (s.heap p).Name = nm p ∧ (s.heap p).CallName = fam p) ∧
  (done.map nm).Nodup ∧
  (∀ k, (mapGet s.CallMap k).isSome = true ↔ k ∈ done.map nm) ∧
  (∀ c ∈ done, mapGet s.CallMap (nm c) = some c) ∧
  s.CallID.map Prod.snd = (List.range s.CallID.length).map Int.ofNat ∧
  (s.CallID.map Prod.fst).Nodup ∧
  (∀ k, k ∈ s.CallID.map Prod.fst ↔ k ∈ done.map fam) ∧
  (∀ c ∈ done, mapGet s.CallID (fam c) = some (s.heap c).CallID) ∧
  ∀ (A B : String) (a b : Int),
    (done.map fam).indexOf A < (done.map fam).indexOf B → B ∈ done.map fam →
    mapGet s.CallID A = some a → mapGet s.CallID B = some b → a < b

/-! ## Concrete inputs -/

/-- The `TypeCommon` of the example types. -/
def exCommon : TypeCommon := { TypeName := "", IsOptional := false }

/-- A file descriptor of subkind `sk`. -/
def exFd (sk : ResourceSubkind) : Typ :=
  Typ.ResourceType { toTypeCommon := exCommon, Kind := ResFD, Subkind := sk }

/-- Four calls: `OpenFile` at address 0 returns a file descriptor of a file,
`ReadFile` at 1 takes one, `WriteSocket` at 2 takes a socket, and `Socket` at
every other address returns a socket. -/
def scenHeap : Heap := fun p =>
  if p = 0 then
    { ID := 0, NR := 2, CallID := 0, Name := "OpenFile", CallName := "OpenFile",
      Args := [], Ret := some (exFd FdFile) }
  else if p = 1 then
    { ID := 1, NR := 0, CallID := 1, Name := "ReadFile", CallName := "ReadFile",
      Args := [exFd FdFile], Ret := none }
  else if p = 2 then
    { ID := 2, NR := 1, CallID := 2, Name := "WriteSocket", CallName := "WriteSocket",
      Args := [exFd FdSock], Ret := none }
  else
    { ID := 3, NR := 41, CallID := 3, Name := "Socket", CallName := "Socket",
      Args := [], Ret := some (exFd FdSock) }

/-- The registry of the scenario. -/
def scenCalls : List CallPtr := [0, 1, 2, 3]

/-- The enabled calls of the scenario: all but `Socket`. -/
def scenEnabled : Finset CallPtr := {0, 1, 2}

/-- Key orders of the scenario: they alternate from one `range` to the next. -/
def scenOrders : Nat → List CallPtr := fun k =>
  if k % 2 = 0 then [0, 1, 2] else [2, 1, 0]

/-- A struct with a 1-byte integer after an integer of `2 ^ 63 + 1` bytes. -/
def exWide2 : StructType :=
  { toTypeCommon := exCommon,
    Fields := [Typ.IntType exCommon (2 ^ 63 + 1) IntPlain, Typ.IntType exCommon 1 IntPlain],
    padded := false }

/-- A struct of three integers of `2 ^ 63 + 2`, `2 ^ 63 + 1` and `2 ^ 63 + 1`
bytes. -/
def exWide3 : StructType :=
  { toTypeCommon := exCommon,
    Fields := [Typ.IntType exCommon (2 ^ 63 + 2) IntPlain,
      Typ.IntType exCommon (2 ^ 63 + 1) IntPlain, Typ.IntType exCommon (2 ^ 63 + 1) IntPlain],
    padded := false }

/-- The struct `{ int32; int8; pointer }`, not laid out. -/
def exStruct : StructType :=
  { toTypeCommon := exCommon,
    Fields := [Typ.IntType exCommon 4 IntPlain, Typ.IntType exCommon 1 IntPlain,
      Typ.PtrType exCommon (Typ.IntType exCommon 4 IntPlain) Dir.DirIn],
    padded := false }

/-- A struct with a variable-length array before its last field. -/
def exMisplaced : StructType :=
  { toTypeCommon := exCommon,
    Fields := [Typ.ArrayType exCommon (Typ.IntType exCommon 1 IntPlain) 0,
      Typ.IntType exCommon 4 IntPlain],
    padded := false }

/-- The layout of `exStruct`: 3 bytes of padding before the pointer. -/
def exLaidOut : StructType :=
  { toTypeCommon := exCommon,
    Fields := [Typ.IntType exCommon 4 IntPlain, Typ.IntType exCommon 1 IntPlain, makePad 3,
      Typ.PtrType exCommon (Typ.IntType exCommon 4 IntPlain) Dir.DirIn],
    padded := true }

/-- The layout of `exWide2`: the trailing padding of `2 ^ 63` bytes makes the
total size wrap around to 2. -/
def exWide2Out : StructType :=
  { toTypeCommon := exCommon,
    Fields := [Typ.IntType exCommon (2 ^ 63 + 1) IntPlain, Typ.IntType exCommon 1 IntPlain,
      makePad (2 ^ 63)],
    padded := true }

/-- The layout of `exWide3`. -/
def exWide3Out : StructType :=
  { toTypeCommon := exCommon,
    Fields := [Typ.IntType exCommon (2 ^ 63 + 2) IntPlain, makePad (2 ^ 63),
      Typ.IntType exCommon (2 ^ 63 + 1) IntPlain, makePad (2 ^ 63 - 1),
      Typ.IntType exCommon (2 ^ 63 + 1) IntPlain, makePad (2 ^ 63 + 1)],
    padded := true }

/-- A heap for the wildcard lookup: `Accept` at address 0 takes a socket and
returns a file descriptor of subkind `ResAny`, every other address holds the
`Socket` call of the scenario. -/
def anyHeap : Heap := fun p =>
  if p = 0 then
    { ID := 0, NR := 43, CallID := 0, Name := "Accept", CallName := "Accept",
      Args := [exFd FdSock], Ret := some (exFd ResAny) }
  else scenHeap 3

/-- A call with two file descriptors of a file as arguments, the second one
inside a struct behind a pointer. -/
def exTwoFds : Call :=
  { ID := 0, NR := 40, CallID := 0, Name := "Sendfile", CallName := "Sendfile",
    Args := [exFd FdFile,
      Typ.PtrType exCommon (Typ.StructType exCommon [exFd FdFile] false) Dir.DirIn],
    Ret := none }

/-- A heap with one call at every address: it takes a pointer, of direction
in/out, to a file descriptor of a file. -/
def selfHeap : Heap := fun _ =>
  { ID := 0, NR := 0, CallID := 0, Name := "Renew", CallName := "Renew",
    Args := [Typ.PtrType exCommon (exFd FdFile) Dir.DirInOut], Ret := none }

/-- A struct with a field that is a struct without fields, of alignment 0. -/
def exEmptyNested : StructType :=
  { toTypeCommon := exCommon,
    Fields := [Typ.IntType exCommon 4 IntPlain, Typ.StructType exCommon [] true],
    padded := false }

/-- A struct with an integer of width 0. -/
def exZeroWidth : StructType :=
  { toTypeCommon := exCommon,
    Fields := [Typ.IntType exCommon 0 IntPlain],
    padded := false }

/-- A registry of two calls for `init`: `Fstat` at address 0 takes a file
descriptor and a pointer to a struct `{ int32; int8; pointer }` with a nested
struct behind the pointer, `Open` at every other address returns a file
descriptor; both are of the family `file`. -/
def initHeap : Heap := fun p =>
  if p = 0 then
    { ID := 4, NR := 0, CallID := 0, Name := "fstat", CallName := "file",
      Args := [exFd FdFile,
        Typ.PtrType exCommon
          (Typ.StructType exCommon
            [Typ.IntType exCommon 4 IntPlain, Typ.IntType exCommon 1 IntPlain,
              Typ.PtrType exCommon
                (Typ.StructType exCommon
                  [Typ.IntType exCommon 1 IntPlain, Typ.IntType exCommon 2 IntPlain] false)
                Dir.DirOut] false)
          Dir.DirOut],
      Ret := none }
  else
    { ID := 0, NR := 0, CallID := 0, Name := "open", CallName := "file",
      Args := [], Ret := some (exFd FdFile) }

/-- The registry for `init` with the call at address 0 a second time. -/
def dupCalls : List CallPtr := [0, 1, 0]

/-- The struct behind the pointer of `Fstat`, before `init`. -/
def exNested : Typ :=
  Typ.StructType exCommon
    [Typ.IntType exCommon 4 IntPlain, Typ.IntType exCommon 1 IntPlain,
      Typ.PtrType exCommon
        (Typ.StructType exCommon
          [Typ.IntType exCommon 1 IntPlain, Typ.IntType exCommon 2 IntPlain] false)
        Dir.DirOut] false

/-- The struct behind the pointer of `Fstat`, after `rec`. -/
def exNestedLaid : Typ :=
  Typ.StructType exCommon
    [Typ.IntType exCommon 4 IntPlain, Typ.IntType exCommon 1 IntPlain, makePad 3,
      Typ.PtrType exCommon
        (Typ.StructType exCommon
          [Typ.IntType exCommon 1 IntPlain, makePad 1, Typ.IntType exCommon 2 IntPlain] true)
        Dir.DirOut] true

/-- A registry of three calls of two families for `init`: `open` and
`openat` of the family `open` around `read`. -/
def famHeap : Heap := fun p =>
  if p = 0 then
    { ID := 0, NR := 0, CallID := 0, Name := "open", CallName := "open",
      Args := [], Ret := some (exFd FdFile) }
  else if p = 1 then
    { ID := 5, NR := 0, CallID := 0, Name := "read", CallName := "read",
      Args := [exFd FdFile], Ret := none }
  else
    { ID := 2, NR := 0, CallID := 0, Name := "openat", CallName := "open",
      Args := [exFd FdDir], Ret := some (exFd FdFile) }

/-! # Properties -/

/-! ## The pruning loop -/

theorem canCreate_iff (Calls : List CallPtr) (heap : Heap) (s : Finset CallPtr) (c : CallPtr) :
    canCreate Calls heap s c = true ↔
      ∀ r ∈ (heap c).InputResources,
        ∃ ctor ∈ ResourceCtors Calls heap r.Kind r.Subkind true, ctor ∈ s := by
  simp [canCreate, noctors, List.all_eq_true, List.any_eq_true]

theorem canCreate_mono (Calls : List CallPtr) (heap : Heap) {s t : Finset CallPtr}
    (hst : s ⊆ t) (c : CallPtr) (h : canCreate Calls heap s c = true) :
    canCreate Calls heap t c = true := by
  rw [canCreate_iff] at h ⊢
  intro r hr
  obtain ⟨ctor, hmem, hin⟩ := h r hr
  exact ⟨ctor, hmem, hst hin⟩

theorem prunePass_subset (Calls : List CallPtr) (heap : Heap) (keys : List CallPtr) :
    ∀ s : Finset CallPtr, prunePass Calls heap keys s ⊆ s := by
  induction keys with
  | nil => intro s; simp [prunePass]
  | cons c rest ih =>
    intro s
    unfold prunePass
    split
    · exact ih s
    · split
      · exact (ih _).trans (Finset.erase_subset c s)
      · exact ih s

theorem prunePass_eq_of_card (Calls : List CallPtr) (heap : Heap) (keys : List CallPtr)
    (s : Finset CallPtr) (h : s.card = (prunePass Calls heap keys s).card) :
    prunePass Calls heap keys s = s :=
  Finset.eq_of_subset_of_card_le (prunePass_subset Calls heap keys s) (le_of_eq h)

theorem prunePass_fixed (Calls : List CallPtr) (heap : Heap) (keys : List CallPtr) :
    ∀ s : Finset CallPtr, prunePass Calls heap keys s = s →
      ∀ c ∈ keys, c ∈ s → canCreate Calls heap s c = true := by
  induction keys with
  | nil => intro s _ c hc; simp at hc
  | cons k rest ih =>
    intro s hfix c hc hcs
    unfold prunePass at hfix
    by_cases hk : k ∈ s
    · rw [if_neg (not_not.mpr hk)] at hfix
      by_cases hcan : canCreate Calls heap s k = false
      · rw [if_pos hcan] at hfix
        have hsub := prunePass_subset Calls heap rest (s.erase k)
        rw [hfix] at hsub
        exact absurd (hsub hk) (Finset.not_mem_erase k s)
      · rw [if_neg hcan] at hfix
        rcases List.mem_cons.mp hc with rfl | hrest
        · simpa using hcan
        · exact ih s hfix c hrest hcs
    · rw [if_pos hk] at hfix
      rcases List.mem_cons.mp hc with rfl | hrest
      · exact absurd hcs hk
      · exact ih s hfix c hrest hcs

theorem prunePass_keeps (Calls : List CallPtr) (heap : Heap) (T : Finset CallPtr)
    (hT : SelfSupported Calls heap T) (keys : List CallPtr) :
    ∀ s : Finset CallPtr, T ⊆ s → T ⊆ prunePass Calls heap keys s := by
  induction keys with
  | nil => intro s h; simpa [prunePass] using h
  | cons k rest ih =>
    intro s hTs
    unfold prunePass
    split
    · exact ih s hTs
    · split
      · rename_i hcan
        apply ih
        intro c hc
        refine Finset.mem_erase.mpr ⟨?_, hTs hc⟩
        rintro rfl
        have h1 : canCreate Calls heap T c = true := (canCreate_iff Calls heap T c).mpr (hT c hc)
        have h2 := canCreate_mono Calls heap hTs c h1
        rw [hcan] at h2
        exact Bool.false_ne_true h2
      · exact ih s hTs

theorem pruneLoop_spec (Calls : List CallPtr) (heap : Heap) (orders : Nat → List CallPtr) :
    ∀ (fuel k : Nat) (s : Finset CallPtr), s.card < fuel →
      ∃ S j, pruneLoop Calls heap orders fuel k s = some S ∧ S ⊆ s ∧ k ≤ j ∧
        prunePass Calls heap (orders j) S = S ∧
        ∀ T, SelfSupported Calls heap T → T ⊆ s → T ⊆ S := by
  intro fuel
  induction fuel with
  | zero => intro k s h; exact absurd h (Nat.not_lt_zero _)
  | succ fuel ih =>
    intro k s hcard
    unfold pruneLoop
    by_cases heq : s.card = (prunePass Calls heap (orders k) s).card
    · have hfix := prunePass_eq_of_card Calls heap (orders k) s heq
      simp only [heq, if_true]
      refine ⟨s, k, ?_, Finset.Subset.refl s, le_refl k, hfix, fun T _ h => h⟩
      rw [hfix]
    · simp only [heq, if_false]
      have hsub := prunePass_subset Calls heap (orders k) s
      have hle := Finset.card_le_card hsub
      have hlt : (prunePass Calls heap (orders k) s).card < fuel := by omega
      obtain ⟨S, j, hS, hSs, hkj, hfix, hmax⟩ := ih (k + 1) _ hlt
      refine ⟨S, j, hS, hSs.trans hsub, by omega, hfix, ?_⟩
      intro T hT hTs
      exact hmax T hT (prunePass_keeps Calls heap T hT (orders k) s hTs)

theorem mem_copyKeys (keys : List CallPtr) :
    ∀ (s : Finset CallPtr) (c : CallPtr), c ∈ copyKeys keys s ↔ c ∈ keys ∨ c ∈ s := by
  induction keys with
  | nil => intro s c; simp [copyKeys]
  | cons k rest ih =>
    intro s c
    unfold copyKeys
    rw [ih, Finset.mem_insert, List.mem_cons]
    tauto

theorem copyKeys_eq {enabled : Finset CallPtr} {orders : Nat → List CallPtr}
    (h : RangeOrders enabled orders) : copyKeys (orders 0) ∅ = enabled := by
  ext c
  rw [mem_copyKeys, (h 0).2 c]
  simp

/-- What the pruning loop returns on a set of keys: a self-supported subset
that contains every self-supported subset. -/
theorem transitivelyEnabled_spec (Calls : List CallPtr) (heap : Heap)
    (enabled : Finset CallPtr) (orders : Nat → List CallPtr)
    (h : RangeOrders enabled orders) :
    ∃ S, TransitivelyEnabledCalls Calls heap enabled orders = some S ∧ S ⊆ enabled ∧
      SelfSupported Calls heap S ∧
      ∀ T, SelfSupported Calls heap T → T ⊆ enabled → T ⊆ S := by
  unfold TransitivelyEnabledCalls
  rw [copyKeys_eq h]
  obtain ⟨S, j, hS, hsub, _, hfix, hmax⟩ :=
    pruneLoop_spec Calls heap orders (enabled.card + 1) 1 enabled (Nat.lt_succ_self _)
  refine ⟨S, hS, hsub, ?_, hmax⟩
  intro c hc
  have hmem : c ∈ orders j := ((h j).2 c).mpr (hsub hc)
  exact (canCreate_iff Calls heap S c).mp (prunePass_fixed Calls heap (orders j) S hfix c hmem hc)

theorem scenOrders_range : RangeOrders scenEnabled scenOrders := by
  intro k
  unfold scenOrders scenEnabled
  split
  · exact ⟨by decide, fun c => by simp⟩
  · refine ⟨by decide, fun c => ?_⟩
    simp only [List.mem_cons, List.mem_singleton, Finset.mem_insert, Finset.mem_singleton,
      List.not_mem_nil, or_false]
    tauto

/-- C1. For every registry, heap and enabled map (with any key order in each
`range`), `TransitivelyEnabledCalls` returns a set `S` of keys of `enabled` in
which every call has, for each of its input resources, a precise constructor
that is itself in `S`; hence a call with an input resource that no enabled
call constructs is not in `S`. -/
theorem transitivelyEnabled_sound (Calls : List CallPtr) (heap : Heap)
    (enabled : Finset CallPtr) (orders : Nat → List CallPtr)
    (h : RangeOrders enabled orders) :
    ∃ S, TransitivelyEnabledCalls Calls heap enabled orders = some S ∧ S ⊆ enabled ∧
      (∀ c ∈ S, ∀ r ∈ (heap c).InputResources,
        ∃ ctor ∈ ResourceCtors Calls heap r.Kind r.Subkind true, ctor ∈ S) ∧
      (∀ c, (∃ r ∈ (heap c).InputResources,
          ∀ ctor ∈ ResourceCtors Calls heap r.Kind r.Subkind true, ctor ∉ enabled) →
        c ∉ S) := by
  obtain ⟨S, hS, hsub, hself, _⟩ := transitivelyEnabled_spec Calls heap enabled orders h
  refine ⟨S, hS, hsub, hself, ?_⟩
  rintro c ⟨r, hr, hno⟩ hc
  obtain ⟨ctor, hmem, hin⟩ := hself c hc r hr
  exact hno ctor hmem (hsub hin)

/-- C1, on the scenario: with `OpenFile`, `ReadFile` and `WriteSocket` enabled
and `Socket` not, `WriteSocket` (address 2) is dropped. -/
theorem transitivelyEnabled_sound_witness :
    RangeOrders scenEnabled scenOrders ∧
      ∃ S, TransitivelyEnabledCalls scenCalls scenHeap scenEnabled scenOrders = some S ∧
        S ⊆ scenEnabled ∧ (2 : CallPtr) ∉ S := by
  refine ⟨scenOrders_range, ?_⟩
  obtain ⟨S, hS, hsub, _, hdrop⟩ :=
    transitivelyEnabled_sound scenCalls scenHeap scenEnabled scenOrders scenOrders_range
  refine ⟨S, hS, hsub, hdrop 2 ⟨⟨exCommon, ResFD, FdSock⟩, by decide, by decide⟩⟩

/-- C2. `TransitivelyEnabledCalls` returns the largest self-supported set of
keys: its result `S` is a set of keys of `enabled` in which every call has,
for each of its input resources, a precise constructor inside `S`, and every
set `T` of keys of `enabled` with that property is contained in `S`; in
particular every enabled call without input resources is in `S`. -/
theorem transitivelyEnabled_maximal (Calls : List CallPtr) (heap : Heap)
    (enabled : Finset CallPtr) (orders : Nat → List CallPtr)
    (h : RangeOrders enabled orders) :
    ∃ S, TransitivelyEnabledCalls Calls heap enabled orders = some S ∧ S ⊆ enabled ∧
      (∀ c ∈ S, ∀ r ∈ (heap c).InputResources,
        ∃ ctor ∈ ResourceCtors Calls heap r.Kind r.Subkind true, ctor ∈ S) ∧
      (∀ T : Finset CallPtr, T ⊆ enabled →
        (∀ c ∈ T, ∀ r ∈ (heap c).InputResources,
          ∃ ctor ∈ ResourceCtors Calls heap r.Kind r.Subkind true, ctor ∈ T) →
        T ⊆ S) ∧
      ∀ c ∈ enabled, (heap c).InputResources = [] → c ∈ S := by
  obtain ⟨S, hS, hsub, hself, hmax⟩ := transitivelyEnabled_spec Calls heap enabled orders h
  refine ⟨S, hS, hsub, hself, fun T hT hTself => hmax T hTself hT, ?_⟩
  intro c hc hnil
  have hsingle : SelfSupported Calls heap {c} := by
    intro d hd r hr
    rw [Finset.mem_singleton.mp hd, hnil] at hr
    exact absurd hr (List.not_mem_nil r)
  exact hmax {c} hsingle (Finset.singleton_subset_iff.mpr hc) (Finset.mem_singleton_self c)

/-- C2, on the scenario: `OpenFile` (address 0) and `ReadFile` (address 1) form
a self-supported set and are both kept, `WriteSocket` (address 2) is not: the
result is `OpenFile` and `ReadFile`. -/
theorem transitivelyEnabled_maximal_witness :
    RangeOrders scenEnabled scenOrders ∧
      ∃ S, TransitivelyEnabledCalls scenCalls scenHeap scenEnabled scenOrders = some S ∧
        S ⊆ scenEnabled ∧ (0 : CallPtr) ∈ S ∧ (1 : CallPtr) ∈ S ∧ (2 : CallPtr) ∉ S := by
  refine ⟨scenOrders_range, ?_⟩
  obtain ⟨S, hS, hsub, hself, hmax, _⟩ :=
    transitivelyEnabled_maximal scenCalls scenHeap scenEnabled scenOrders scenOrders_range
  have hT : ({0, 1} : Finset CallPtr) ⊆ S := hmax {0, 1} (by decide) (by decide)
  refine ⟨S, hS, hsub, hT (by decide), hT (by decide), ?_⟩
  intro h2
  obtain ⟨ctor, hmem, hin⟩ := hself 2 h2 ⟨exCommon, ResFD, FdSock⟩ (by decide)
  have hctor : ctor = 3 := by
    have hlist : ResourceCtors scenCalls scenHeap ResFD FdSock true = [3] := by decide
    rw [hlist] at hmem
    exact List.mem_singleton.mp hmem
  rw [hctor] at hin
  exact absurd (hsub hin) (by decide)

/-- C3. `TransitivelyEnabledCalls` is idempotent: run on its own result `S`
(with any key orders for the second run) it returns `S` again. -/
theorem transitivelyEnabled_idempotent (Calls : List CallPtr) (heap : Heap)
    (enabled : Finset CallPtr) (orders : Nat → List CallPtr)
    (h : RangeOrders enabled orders) :
    ∃ S, TransitivelyEnabledCalls Calls heap enabled orders = some S ∧
      ∀ orders2, RangeOrders S orders2 →
        TransitivelyEnabledCalls Calls heap S orders2 = some S := by
  obtain ⟨S, hS, _, hself, _⟩ := transitivelyEnabled_spec Calls heap enabled orders h
  refine ⟨S, hS, ?_⟩
  intro orders2 h2
  obtain ⟨S2, hS2, hsub2, _, hmax2⟩ := transitivelyEnabled_spec Calls heap S orders2 h2
  rw [hS2, Finset.Subset.antisymm hsub2 (hmax2 S hself (Finset.Subset.refl S))]

/-- C3, on the scenario: the result is `OpenFile` and `ReadFile`, and a second
run on it returns it unchanged. -/
theorem transitivelyEnabled_idempotent_witness :
    RangeOrders scenEnabled scenOrders ∧
      ∃ S, TransitivelyEnabledCalls scenCalls scenHeap scenEnabled scenOrders = some S ∧
        TransitivelyEnabledCalls scenCalls scenHeap S (fun _ => [1, 0]) = some S := by
  refine ⟨scenOrders_range, ?_⟩
  obtain ⟨S, hS, hidem⟩ :=
    transitivelyEnabled_idempotent scenCalls scenHeap scenEnabled scenOrders scenOrders_range
  have hval : S = {1, 0} := by
    have hcomp : TransitivelyEnabledCalls scenCalls scenHeap scenEnabled scenOrders =
        some {1, 0} := by decide
    rw [hcomp] at hS
    exact (Option.some.inj hS).symm
  refine ⟨S, hS, hidem _ ?_⟩
  subst hval
  intro k
  refine ⟨?_, fun c => ?_⟩
  · show ([1, 0] : List CallPtr).Nodup
    decide
  · show c ∈ ([1, 0] : List CallPtr) ↔ c ∈ ({1, 0} : Finset CallPtr)
    simp

/-! ## Sizes and alignments -/

theorem wrap_lt (n : Nat) : wrap n < 2 ^ 64 := Nat.mod_lt n (by norm_num)

theorem wrap_le (n : Nat) : wrap n ≤ n := Nat.mod_le n _

theorem wrap_of_lt {n : Nat} (h : n < 2 ^ 64) : wrap n = n := Nat.mod_eq_of_lt h

theorem wrap_add_wrap_left (x y : Nat) : wrap (wrap x + y) = wrap (x + y) := by
  unfold wrap; omega

theorem wrap_add_wrap_right (x y : Nat) : wrap (x + wrap y) = wrap (x + y) := by
  unfold wrap; omega

theorem ResourceType.Size_lt (r : ResourceType) (a : Nat) (h : r.Size = some a) :
    a < 2 ^ 64 := by
  unfold ResourceType.Size at h
  repeat' split at h
  all_goals first
    | (cases h; norm_num)
    | exact absurd h (by simp)

mutual
theorem Typ.Align_lt : ∀ (t : Typ) (a : Nat), Typ.Align t = some a → a < 2 ^ 64
  | Typ.ResourceType r, a, h => by
    rw [Typ.Align] at h
    exact ResourceType.Size_lt r a h
  | Typ.FileoffType _ sz _, a, h => by
    rw [Typ.Align] at h; cases h; exact wrap_lt sz
  | Typ.BufferType _ _, a, h => by
    rw [Typ.Align] at h; cases h; norm_num
  | Typ.VmaType _, a, h => by
    rw [Typ.Align] at h; cases h; norm_num [ptrSize]
  | Typ.LenType _ sz _, a, h => by
    rw [Typ.Align] at h; cases h; exact wrap_lt sz
  | Typ.FlagsType _ sz _, a, h => by
    rw [Typ.Align] at h; cases h; exact wrap_lt sz
  | Typ.ConstType _ sz _ _, a, h => by
    rw [Typ.Align] at h; cases h; exact wrap_lt sz
  | Typ.StrConstType _ _ _, a, h => by
    rw [Typ.Align] at h; cases h; norm_num [ptrSize]
  | Typ.IntType _ sz _, a, h => by
    rw [Typ.Align] at h; cases h; exact wrap_lt sz
  | Typ.FilenameType _, a, h => by
    rw [Typ.Align] at h; cases h; norm_num
  | Typ.ArrayType _ elem _, a, h => by
    rw [Typ.Align] at h
    exact Typ.Align_lt elem a h
  | Typ.PtrType _ _ _, a, h => by
    rw [Typ.Align] at h; cases h; norm_num [ptrSize]
  | Typ.StructType _ fields _, a, h => by
    rw [Typ.Align] at h
    exact Typ.alignLoop_lt fields 0 a (by norm_num) h
theorem Typ.alignLoop_lt : ∀ (fs : List Typ) (a0 a : Nat), a0 < 2 ^ 64 →
    Typ.alignLoop fs a0 = some a → a < 2 ^ 64
  | [], a0, a, h0, h => by
    rw [Typ.alignLoop] at h; cases h; exact h0
  | f :: fs, a0, a, h0, h => by
    rw [Typ.alignLoop] at h
    cases hf : Typ.Align f with
    | none => rw [hf] at h; exact absurd h (by simp)
    | some a1 =>
      rw [hf] at h
      have h1 := Typ.Align_lt f a1 hf
      refine Typ.alignLoop_lt fs _ a ?_ h
      split <;> assumption
end

theorem natSizeSum_nil : natSizeSum [] = 0 := rfl

theorem natSizeSum_append (xs ys : List Typ) :
    natSizeSum (xs ++ ys) = natSizeSum xs + natSizeSum ys := by
  simp [natSizeSum]

theorem natSizeSum_single (f : Typ) : natSizeSum [f] = (Typ.Size f).getD 0 := by
  simp [natSizeSum]

theorem Size_makePad (sz : Nat) : Typ.Size (makePad sz) = some (wrap sz) := by
  simp [makePad, Typ.Size]

theorem Align_makePad (sz : Nat) : Typ.Align (makePad sz) = some (wrap sz) := by
  simp [makePad, Typ.Align]

theorem IsPad_makePad (sz : Nat) : IsPad (makePad sz) = true := rfl

theorem sizeLoop_eq (fs : List Typ) :
    ∀ acc : Nat, acc < 2 ^ 64 → (∀ f ∈ fs, (Typ.Size f).isSome = true) →
      Typ.sizeLoop fs acc = some (wrap (acc + natSizeSum fs)) := by
  induction fs with
  | nil =>
    intro acc hacc _
    rw [Typ.sizeLoop, natSizeSum_nil, Nat.add_zero, wrap_of_lt hacc]
  | cons f fs ih =>
    intro acc hacc hall
    obtain ⟨s, hs⟩ := Option.isSome_iff_exists.mp (hall f (List.mem_cons_self f fs))
    rw [Typ.sizeLoop, hs, Option.some_bind,
      ih _ (wrap_lt _) (fun g hg => hall g (List.mem_cons_of_mem f hg))]
    have hsum : natSizeSum (f :: fs) = s + natSizeSum fs := by
      simp [natSizeSum, hs]
    rw [hsum, wrap_add_wrap_left, Nat.add_assoc]

theorem alignLoop_append (xs ys : List Typ) :
    ∀ a0 : Nat, Typ.alignLoop (xs ++ ys) a0 = (Typ.alignLoop xs a0).bind (Typ.alignLoop ys) := by
  induction xs with
  | nil => intro a0; simp [Typ.alignLoop]
  | cons x xs ih =>
    intro a0
    rw [List.cons_append, Typ.alignLoop, Typ.alignLoop]
    cases Typ.Align x with
    | none => simp
    | some a1 => simp [ih]

theorem alignLoop_single (f : Typ) (a0 : Nat) :
    Typ.alignLoop [f] a0 = (Typ.Align f).bind fun a1 => some (if a0 < a1 then a1 else a0) := by
  rw [Typ.alignLoop]
  cases Typ.Align f with
  | none => simp
  | some a1 => simp [Typ.alignLoop]

theorem add_pad_mod (off a : Nat) (ha : a ≠ 0) : (off + (a - off % a)) % a = 0 := by
  have hlt : off % a < a := Nat.mod_lt off (Nat.pos_of_ne_zero ha)
  have hdiv : a * (off / a) + off % a = off := Nat.div_add_mod off a
  have hrew : off + (a - off % a) = a * (off / a + 1) := by
    rw [Nat.mul_succ]
    omega
  rw [hrew, Nat.mul_mod_right]

/-! ## The layout loop -/

/-- The fields after one iteration of the loop of `addAlignment`. -/
theorem layoutStep_some {n i : Nat} {f : Typ} {st st1 : LayoutState}
    (h : layoutStep n i f st = some st1) :
    ∃ a sz, Typ.Align f = some a ∧ a ≠ 0 ∧ Typ.Size f = some sz ∧
      ((st.varLen || isVarLenArray f) = true → i = n - 1) ∧
      st1.fields =
        (if st.off % a ≠ 0 then st.fields ++ [makePad (a - st.off % a)] else st.fields) ++ [f] ∧
      st1.off = wrap ((if st.off % a ≠ 0 then wrap (st.off + (a - st.off % a)) else st.off) + sz) ∧
      st1.align = (if st.align < a then a else st.align) ∧
      st1.varLen = (st.varLen || isVarLenArray f) := by
  unfold layoutStep at h
  cases ha : Typ.Align f with
  | none => rw [ha] at h; exact absurd h (by simp)
  | some a =>
    rw [ha, Option.some_bind] at h
    by_cases ha0 : a = 0
    · simp [ha0] at h
    · simp only [ha0, if_false] at h
      cases hs : Typ.Size f with
      | none => rw [hs] at h; exact absurd h (by simp)
      | some sz =>
        rw [hs, Option.some_bind] at h
        by_cases hv : (st.varLen || isVarLenArray f) = true ∧ i ≠ n - 1
        · rw [if_pos hv] at h; exact absurd h (by simp)
        · rw [if_neg hv] at h
          cases h
          refine ⟨a, sz, rfl, ha0, rfl, ?_, rfl, rfl, rfl, rfl⟩
          intro hvl
          by_contra hne
          exact hv ⟨hvl, hne⟩

/-- An invariant of the iterations that also follows the declared fields
already processed holds after the loop of `addAlignment`. -/
theorem layoutLoop_invariant (n : Nat) (Inv : List Typ → LayoutState → Prop)
    (hstep : ∀ (done : List Typ) (i : Nat) (f : Typ) (st st1 : LayoutState),
      layoutStep n i f st = some st1 → Inv done st → Inv (done ++ [f]) st1) :
    ∀ (fs done : List Typ) (i : Nat) (st st1 : LayoutState),
      layoutLoop n fs i st = some st1 → Inv done st → Inv (done ++ fs) st1 := by
  intro fs
  induction fs with
  | nil =>
    intro done i st st1 h hinv
    rw [layoutLoop] at h
    cases h
    simpa using hinv
  | cons f fs ih =>
    intro done i st st1 h hinv
    rw [layoutLoop] at h
    cases hs : layoutStep n i f st with
    | none => rw [hs] at h; exact absurd h (by simp)
    | some st2 =>
      rw [hs, Option.some_bind] at h
      have h2 := ih (done ++ [f]) (i + 1) st2 st1 h (hstep done i f st st2 hs hinv)
      simpa using h2

theorem layoutStep_basic (n : Nat) (done : List Typ) (i : Nat) (f : Typ)
    (st st1 : LayoutState) (h : layoutStep n i f st = some st1)
    (hinv : LayoutBasic done st) : LayoutBasic (done ++ [f]) st1 := by
  obtain ⟨a, sz, ha, ha0, hsz, _, hfields, hoff, halign, hvar⟩ := layoutStep_some h
  obtain ⟨ioff, isize, ialign, _, ivar⟩ := hinv
  have hmodlt : st.off % a < a := Nat.mod_lt _ (Nat.pos_of_ne_zero ha0)
  refine ⟨?_, ?_, ?_, ?_, ?_⟩
  · rw [hoff, hfields]
    by_cases hm : st.off % a ≠ 0
    · rw [if_pos hm, if_pos hm, natSizeSum_append, natSizeSum_append, natSizeSum_single,
        natSizeSum_single, Size_makePad, hsz]
      simp only [Option.getD_some]
      generalize a - st.off % a = p
      rw [ioff]
      unfold wrap
      omega
    · rw [if_neg hm, if_neg hm, natSizeSum_append, natSizeSum_single, hsz, ioff]
      simp only [Option.getD_some]
      rw [wrap_add_wrap_left]
  · intro g hg
    rw [hfields] at hg
    rcases List.mem_append.mp hg with hg1 | hg2
    · by_cases hm : st.off % a ≠ 0
      · rw [if_pos hm] at hg1
        rcases List.mem_append.mp hg1 with hg3 | hg4
        · exact isize g hg3
        · rw [List.mem_singleton.mp hg4, Size_makePad]; rfl
      · rw [if_neg hm] at hg1
        exact isize g hg1
    · rw [List.mem_singleton.mp hg2, hsz]; rfl
  · rw [hfields, halign]
    by_cases hm : st.off % a ≠ 0
    · rw [if_pos hm, alignLoop_append, alignLoop_append, ialign, Option.some_bind,
        alignLoop_single, Align_makePad, Option.some_bind, Option.some_bind,
        alignLoop_single, ha, Option.some_bind]
      have hpad : wrap (a - st.off % a) < a :=
        lt_of_le_of_lt (wrap_le _) (by omega)
      congr 1
      split_ifs <;> omega
    · rw [if_neg hm, alignLoop_append, ialign, Option.some_bind, alignLoop_single, ha,
        Option.some_bind]
  · intro _
    rw [halign]
    split_ifs <;> omega
  · rw [hvar, ivar]
    simp [List.any_append]

theorem layoutLoop_basic {n : Nat} {fs : List Typ} {st : LayoutState}
    (h : layoutLoop n fs 0 { fields := [], off := 0, align := 0, varLen := false } = some st) :
    LayoutBasic fs st := by
  have hinit : LayoutBasic []
      { fields := [], off := 0, align := 0, varLen := false } := by
    refine ⟨?_, ?_, ?_, ?_, ?_⟩
    · simp [natSizeSum, wrap]
    · intro f hf; simp at hf
    · simp [Typ.alignLoop]
    · intro hne; exact absurd rfl hne
    · rfl
  simpa using layoutLoop_invariant n LayoutBasic (layoutStep_basic n) fs [] 0 _ st h hinit

/-- A variable-length array among the fields that the loop of `addAlignment`
goes through is at the last index of the struct. -/
theorem layoutLoop_varLen_last (n : Nat) :
    ∀ (fs : List Typ) (i : Nat) (st st1 : LayoutState),
      layoutLoop n fs i st = some st1 →
      ∀ (k : Nat) (f : Typ), fs[k]? = some f → isVarLenArray f = true → i + k = n - 1 := by
  intro fs
  induction fs with
  | nil => intro i st st1 _ k f hk; simp at hk
  | cons g fs ih =>
    intro i st st1 h k f hk hvar
    rw [layoutLoop] at h
    cases hs : layoutStep n i g st with
    | none => rw [hs] at h; exact absurd h (by simp)
    | some st2 =>
      rw [hs, Option.some_bind] at h
      cases k with
      | zero =>
        simp only [List.getElem?_cons_zero, Option.some.injEq] at hk
        subst hk
        obtain ⟨_, _, _, _, _, hlast, _⟩ := layoutStep_some hs
        have := hlast (by rw [hvar]; simp)
        omega
      | succ k =>
        simp only [List.getElem?_cons_succ] at hk
        have := ih (i + 1) st2 st1 h k f hk hvar
        omega

theorem addAlignment_some {t out : StructType} (h : addAlignment t = some out) :
    ∃ st, layoutLoop t.Fields.length t.Fields 0
        { fields := [], off := 0, align := 0, varLen := false } = some st ∧
      out = { toTypeCommon := t.toTypeCommon, Fields := layoutFinish st, padded := true } := by
  unfold addAlignment at h
  cases hl : layoutLoop t.Fields.length t.Fields 0
      { fields := [], off := 0, align := 0, varLen := false } with
  | none => rw [hl] at h; exact absurd h (by simp)
  | some st =>
    rw [hl, Option.some_bind] at h
    exact ⟨st, rfl, (Option.some.inj h).symm⟩

/-- The sizes and the alignment of the struct that `addAlignment` returns, in
terms of the state `st` at the end of the loop. -/
theorem layoutFinish_facts {fs : List Typ} {st : LayoutState} (hb : LayoutBasic fs st) :
    (∀ f ∈ layoutFinish st, (Typ.Size f).isSome = true) ∧
      Typ.alignLoop (layoutFinish st) 0 = some st.align ∧
      Typ.sizeLoop (layoutFinish st) 0 = some (wrap (natSizeSum (layoutFinish st))) := by
  obtain ⟨_, isize, ialign, _, _⟩ := hb
  have hsizes : ∀ f ∈ layoutFinish st, (Typ.Size f).isSome = true := by
    intro f hf
    unfold layoutFinish at hf
    split at hf
    · rcases List.mem_append.mp hf with h1 | h2
      · exact isize f h1
      · rw [List.mem_singleton.mp h2, Size_makePad]; rfl
    · exact isize f hf
  refine ⟨hsizes, ?_, ?_⟩
  · unfold layoutFinish
    split
    · rename_i hc
      have hlt : st.off % st.align < st.align := Nat.mod_lt _ (Nat.pos_of_ne_zero hc.1)
      have hpad : wrap (st.align - st.off % st.align) < st.align :=
        lt_of_le_of_lt (wrap_le _) (by omega)
      rw [alignLoop_append, ialign, Option.some_bind, alignLoop_single, Align_makePad,
        Option.some_bind, if_neg (by omega)]
    · exact ialign
  · have h := sizeLoop_eq (layoutFinish st) 0 (by norm_num) hsizes
    rwa [Nat.zero_add] at h

/-- C6. A struct with an `ArrayType` of `Len == 0` at an index other than the
last one makes `addAlignment` fail: no laid-out struct is produced. -/
theorem addAlignment_misplaced_array (t : StructType) (k : Nat) (c : TypeCommon) (elem : Typ)
    (hk : t.Fields[k]? = some (Typ.ArrayType c elem 0))
    (hpos : k ≠ t.Fields.length - 1) : addAlignment t = none := by
  cases h : addAlignment t with
  | none => rfl
  | some out =>
    obtain ⟨st, hloop, _⟩ := addAlignment_some h
    have := layoutLoop_varLen_last t.Fields.length t.Fields 0 _ st hloop k _ hk
      (by simp [isVarLenArray, wrap])
    omega

/-- C6, on a struct whose first of two fields is a variable-length array. -/
theorem addAlignment_misplaced_array_witness :
    exMisplaced.Fields[0]? =
        some (Typ.ArrayType exCommon (Typ.IntType exCommon 1 IntPlain) 0) ∧
      0 ≠ exMisplaced.Fields.length - 1 ∧ addAlignment exMisplaced = none :=
  ⟨rfl, by decide,
    addAlignment_misplaced_array exMisplaced 0 exCommon (Typ.IntType exCommon 1 IntPlain) rfl
      (by decide)⟩

theorem alignLoop_eq_none (fs : List Typ) :
    ∀ a0 : Nat, Typ.alignLoop fs a0 = none ↔ ∃ f ∈ fs, Typ.Align f = none := by
  induction fs with
  | nil => intro a0; simp [Typ.alignLoop]
  | cons f fs ih =>
    intro a0
    rw [Typ.alignLoop]
    cases hf : Typ.Align f with
    | none => simp [hf]
    | some a1 => simp [hf, ih]

theorem alignLoop_eq_max (fs : List Typ) :
    ∀ a0 : Nat, (∀ f ∈ fs, (Typ.Align f).isSome = true) →
      Typ.alignLoop fs a0 =
        some ((fs.map fun f => (Typ.Align f).getD 0).foldl (fun m a => max m a) a0) := by
  induction fs with
  | nil => intro a0 _; simp [Typ.alignLoop]
  | cons f fs ih =>
    intro a0 hall
    obtain ⟨a1, ha1⟩ := Option.isSome_iff_exists.mp (hall f (List.mem_cons_self f fs))
    rw [Typ.alignLoop, ha1, Option.some_bind,
      ih _ (fun g hg => hall g (List.mem_cons_of_mem f hg))]
    simp only [List.map_cons, List.foldl_cons, ha1, Option.getD_some]
    congr 2
    split_ifs with hlt
    · exact (max_eq_right (le_of_lt hlt)).symm
    · exact (max_eq_left (not_lt.mp hlt)).symm

/-- C10, as amended. On a struct with `padded` false `Size()` fails, while
`Align()` does not look at the flag: it fails exactly when the `Align()` of a
field fails and is otherwise the largest alignment of the fields (0 without
fields). On a struct returned by `addAlignment`, `padded` is true and `Size()`
is the sum of the sizes of all its fields, inserted padding included, modulo
`2 ^ 64`. -/
theorem structType_size_align (c : TypeCommon) (fs : List Typ) (t out : StructType)
    (h : addAlignment t = some out) :
    StructType.Size { toTypeCommon := c, Fields := fs, padded := false } = none ∧
      (StructType.Align { toTypeCommon := c, Fields := fs, padded := false } = none ↔
        ∃ f ∈ fs, Typ.Align f = none) ∧
      ((∀ f ∈ fs, (Typ.Align f).isSome = true) →
        StructType.Align { toTypeCommon := c, Fields := fs, padded := false } =
          some ((fs.map fun f => (Typ.Align f).getD 0).foldl (fun m a => max m a) 0)) ∧
      out.padded = true ∧ (∀ f ∈ out.Fields, (Typ.Size f).isSome = true) ∧
      out.Size = some (natSizeSum out.Fields % 2 ^ 64) := by
  obtain ⟨st, hloop, hout⟩ := addAlignment_some h
  obtain ⟨hsizes, _, hsize⟩ := layoutFinish_facts (layoutLoop_basic hloop)
  refine ⟨?_, ?_, ?_, ?_, ?_, ?_⟩
  · simp [StructType.Size, StructType.toTyp, Typ.Size]
  · simp only [StructType.Align, StructType.toTyp, Typ.Align]
    exact alignLoop_eq_none fs 0
  · intro hall
    simp only [StructType.Align, StructType.toTyp, Typ.Align]
    exact alignLoop_eq_max fs 0 hall
  · rw [hout]
  · rw [hout]; exact hsizes
  · rw [hout]
    simp only [StructType.Size, StructType.toTyp, Typ.Size]
    simpa [wrap] using hsize

/-- C10, at the struct `{ int32; int8; pointer }`: its layout has size 16. -/
theorem structType_size_align_witness :
    ∃ out, addAlignment exStruct = some out ∧
      StructType.Size exStruct = none ∧ out.padded = true ∧ out.Size = some 16 :=
  ⟨{ toTypeCommon := exCommon,
     Fields := [Typ.IntType exCommon 4 IntPlain, Typ.IntType exCommon 1 IntPlain, makePad 3,
       Typ.PtrType exCommon (Typ.IntType exCommon 4 IntPlain) Dir.DirIn],
     padded := true }, rfl,
    (structType_size_align exCommon exStruct.Fields exStruct _ rfl).1,
    (structType_size_align exCommon exStruct.Fields exStruct _ rfl).2.2.2.1,
    (structType_size_align exCommon exStruct.Fields exStruct _ rfl).2.2.2.2.2⟩

/-- C10 as stated fails: a struct that is not laid out has an `Align()`. -/
theorem structType_align_unpadded :
    exStruct.padded = false ∧ StructType.Size exStruct = none ∧
      StructType.Align exStruct = some 8 := by
  decide

theorem alignedFrom_append (xs ys : List (Bool × Typ)) :
    ∀ off : Nat, AlignedFrom off (xs ++ ys) ↔
      AlignedFrom off xs ∧ AlignedFrom (off + natSizeSum (xs.map Prod.snd)) ys := by
  induction xs with
  | nil => intro off; simp [AlignedFrom, natSizeSum]
  | cons p xs ih =>
    intro off
    have hsum : natSizeSum ((p :: xs).map Prod.snd) =
        (Typ.Size p.2).getD 0 + natSizeSum (xs.map Prod.snd) := by
      simp [natSizeSum]
    rw [List.cons_append, AlignedFrom, AlignedFrom, ih, hsum, and_assoc, Nat.add_assoc]

theorem alignedFrom_getElem (marks : List (Bool × Typ)) :
    ∀ (off j : Nat) (p : Bool × Typ), AlignedFrom off marks → marks[j]? = some p →
      p.1 = false →
      ∃ a, Typ.Align p.2 = some a ∧ a ≠ 0 ∧
        (off + natSizeSum ((marks.map Prod.snd).take j)) % a = 0 := by
  induction marks with
  | nil => intro off j p _ hj; simp at hj
  | cons q rest ih =>
    intro off j p hal hj hp
    rw [AlignedFrom] at hal
    cases j with
    | zero =>
      simp only [List.getElem?_cons_zero, Option.some.injEq] at hj
      subst hj
      simpa [natSizeSum] using hal.1 hp
    | succ j =>
      simp only [List.getElem?_cons_succ] at hj
      obtain ⟨a, ha, ha0, hmod⟩ := ih _ j p hal.2 hj hp
      refine ⟨a, ha, ha0, ?_⟩
      have hsum : natSizeSum (((q :: rest).map Prod.snd).take (j + 1)) =
          (Typ.Size q.2).getD 0 + natSizeSum ((rest.map Prod.snd).take j) := by
        simp [natSizeSum]
      rw [hsum, ← Nat.add_assoc]
      exact hmod

theorem marksOf_snoc_pad {done fields : List Typ} {marks : List (Bool × Typ)}
    (h : MarksOf done fields marks) (sz : Nat) :
    MarksOf done (fields ++ [makePad sz]) (marks ++ [(true, makePad sz)]) := by
  obtain ⟨hmap, hfilter, hpads, hal⟩ := h
  refine ⟨by simp [hmap], by simp [List.filter_append, hfilter], ?_, ?_⟩
  · intro p hp hmark
    rcases List.mem_append.mp hp with h1 | h2
    · exact hpads p h1 hmark
    · exact ⟨sz, by rw [List.mem_singleton.mp h2]⟩
  · rw [alignedFrom_append]
    exact ⟨hal, by simp [AlignedFrom]⟩

theorem marksOf_snoc_field {done fields : List Typ} {marks : List (Bool × Typ)}
    (h : MarksOf done fields marks) (f : Typ) (a : Nat) (ha : Typ.Align f = some a)
    (ha0 : a ≠ 0) (hmod : natSizeSum fields % a = 0) :
    MarksOf (done ++ [f]) (fields ++ [f]) (marks ++ [(false, f)]) := by
  obtain ⟨hmap, hfilter, hpads, hal⟩ := h
  refine ⟨by simp [hmap], by simp [List.filter_append, hfilter], ?_, ?_⟩
  · intro p hp hmark
    rcases List.mem_append.mp hp with h1 | h2
    · exact hpads p h1 hmark
    · rw [List.mem_singleton.mp h2] at hmark
      exact absurd hmark (by simp)
  · rw [alignedFrom_append, hmap]
    refine ⟨hal, ?_⟩
    simp only [AlignedFrom, and_true, Nat.zero_add]
    intro _
    exact ⟨a, ha, ha0, hmod⟩

theorem layoutStep_aligned (n : Nat) (done : List Typ) (i : Nat) (f : Typ)
    (st st1 : LayoutState) (h : layoutStep n i f st = some st1)
    (hinv : LayoutAligned done st) : LayoutAligned (done ++ [f]) st1 := by
  refine ⟨layoutStep_basic n done i f st st1 h hinv.1, ?_⟩
  intro hfit
  obtain ⟨a, sz, ha, ha0, hsz, _, hfields, _, _, _⟩ := layoutStep_some h
  obtain ⟨⟨ioff, _, _, _, _⟩, hmarks⟩ := hinv
  have halt : a < 2 ^ 64 := Typ.Align_lt f a ha
  have hmodlt : st.off % a < a := Nat.mod_lt _ (Nat.pos_of_ne_zero ha0)
  rw [hfields]
  by_cases hm : st.off % a ≠ 0
  · rw [if_pos hm] at hfields ⊢
    rw [hfields, natSizeSum_append, natSizeSum_append] at hfit
    obtain ⟨marks, hM⟩ := hmarks (by omega)
    have hoff : st.off = natSizeSum st.fields := by
      rw [ioff]; exact wrap_of_lt (by omega)
    refine ⟨_, marksOf_snoc_field (marksOf_snoc_pad hM (a - st.off % a)) f a ha ha0 ?_⟩
    rw [natSizeSum_append, natSizeSum_single, Size_makePad, Option.getD_some,
      wrap_of_lt (by omega), ← hoff]
    exact add_pad_mod st.off a ha0
  · rw [if_neg hm] at hfields ⊢
    rw [hfields, natSizeSum_append] at hfit
    obtain ⟨marks, hM⟩ := hmarks (by omega)
    have hoff : st.off = natSizeSum st.fields := by
      rw [ioff]; exact wrap_of_lt (by omega)
    refine ⟨_, marksOf_snoc_field hM f a ha ha0 ?_⟩
    rw [← hoff]
    exact not_not.mp hm

theorem layoutLoop_aligned {n : Nat} {fs : List Typ} {st : LayoutState}
    (h : layoutLoop n fs 0 { fields := [], off := 0, align := 0, varLen := false } = some st) :
    LayoutAligned fs st := by
  have hinit : LayoutAligned []
      { fields := [], off := 0, align := 0, varLen := false } := by
    refine ⟨⟨?_, ?_, ?_, ?_, ?_⟩, fun _ => ⟨[], ?_⟩⟩
    · simp [natSizeSum, wrap]
    · intro f hf; simp at hf
    · simp [Typ.alignLoop]
    · intro hne; exact absurd rfl hne
    · rfl
    · exact ⟨rfl, rfl, fun p hp => absurd hp (List.not_mem_nil p), trivial⟩
  simpa using layoutLoop_invariant n LayoutAligned (layoutStep_aligned n) fs [] 0 _ st h hinit

theorem natSizeSum_le_finish (st : LayoutState) :
    natSizeSum st.fields ≤ natSizeSum (layoutFinish st) := by
  unfold layoutFinish
  split
  · rw [natSizeSum_append]; omega
  · exact le_refl _

/-- The struct returned by `addAlignment`, when the sizes of its fields sum
to less than `2 ^ 64`, is described by a marked field list. -/
theorem addAlignment_marks {t out : StructType} (h : addAlignment t = some out)
    (hfit : natSizeSum out.Fields < 2 ^ 64) :
    ∃ marks, MarksOf t.Fields out.Fields marks := by
  obtain ⟨st, hloop, hout⟩ := addAlignment_some h
  have hfields : out.Fields = layoutFinish st := by rw [hout]
  rw [hfields] at hfit ⊢
  obtain ⟨_, hmarks⟩ := layoutLoop_aligned hloop
  obtain ⟨marks, hM⟩ := hmarks (lt_of_le_of_lt (natSizeSum_le_finish st) hfit)
  unfold layoutFinish
  split
  · exact ⟨_, marksOf_snoc_pad hM _⟩
  · exact ⟨marks, hM⟩

/-- C4, as amended. For every struct with at least one field, whose last field
is not a variable-length array, on which `addAlignment` succeeds, and whose
laid-out field sizes sum to less than `2 ^ 64` (no wrap-around of `uintptr`),
`Size()` of the result is a multiple of its `Align()`, which is not 0. -/
theorem addAlignment_size_multiple (t out : StructType) (h : addAlignment t = some out)
    (hne : t.Fields ≠ [])
    (hlast : ∀ f, t.Fields.getLast? = some f → isVarLenArray f = false)
    (hfit : natSizeSum out.Fields < 2 ^ 64) :
    ∃ size align, out.Size = some size ∧ out.Align = some align ∧ align ≠ 0 ∧
      size % align = 0 := by
  obtain ⟨st, hloop, hout⟩ := addAlignment_some h
  have hb := layoutLoop_basic hloop
  obtain ⟨_, halign, hsize⟩ := layoutFinish_facts hb
  obtain ⟨ioff, _, ialign, inz, ivar⟩ := hb
  have hfields : out.Fields = layoutFinish st := by rw [hout]
  rw [hfields] at hfit
  have hvar : st.varLen = false := by
    rw [ivar, List.any_eq_false]
    intro f hf hvl
    obtain ⟨k, hk⟩ := List.mem_iff_getElem?.mp hf
    have hidx := layoutLoop_varLen_last t.Fields.length t.Fields 0 _ st hloop k f hk hvl
    have hl : t.Fields.getLast? = some f := by
      rw [List.getLast?_eq_getElem?, ← hidx, Nat.zero_add, hk]
    rw [hlast f hl] at hvl
    exact Bool.false_ne_true hvl
  have ha0 : st.align ≠ 0 := inz hne
  have halt : st.align < 2 ^ 64 := Typ.alignLoop_lt st.fields 0 st.align (by norm_num) ialign
  have hmodlt : st.off % st.align < st.align := Nat.mod_lt _ (Nat.pos_of_ne_zero ha0)
  have hoff : st.off = natSizeSum st.fields := by
    rw [ioff]
    exact wrap_of_lt (lt_of_le_of_lt (natSizeSum_le_finish st) hfit)
  refine ⟨natSizeSum (layoutFinish st), st.align, ?_, ?_, ha0, ?_⟩
  · rw [hout]
    simp only [StructType.Size, StructType.toTyp, Typ.Size]
    rw [← wrap_of_lt hfit]
    simpa using hsize
  · rw [hout]
    simp only [StructType.Align, StructType.toTyp, Typ.Align]
    exact halign
  · unfold layoutFinish
    by_cases hm : st.off % st.align ≠ 0
    · rw [if_pos ⟨ha0, hm, hvar⟩, natSizeSum_append, natSizeSum_single, Size_makePad,
        Option.getD_some, wrap_of_lt (by omega), ← hoff]
      exact add_pad_mod st.off st.align ha0
    · rw [if_neg (fun hc => hm hc.2.1), ← hoff]
      exact not_not.mp hm

/-- C4, at the struct `{ int32; int8; pointer }`: size 16, alignment 8. -/
theorem addAlignment_size_multiple_witness :
    addAlignment exStruct = some exLaidOut ∧ exStruct.Fields ≠ [] ∧
      natSizeSum exLaidOut.Fields < 2 ^ 64 ∧
      ∃ size align, exLaidOut.Size = some size ∧ exLaidOut.Align = some align ∧
        align ≠ 0 ∧ size % align = 0 :=
  ⟨rfl, List.cons_ne_nil _ _, by decide,
    addAlignment_size_multiple exStruct exLaidOut rfl (List.cons_ne_nil _ _)
      (fun f hf => by
        have hf2 : some (Typ.PtrType exCommon (Typ.IntType exCommon 4 IntPlain) Dir.DirIn) =
            some f := hf
        rw [← Option.some.inj hf2]
        rfl)
      (by decide)⟩

/-- C4 as stated fails when the offset wraps around: the struct of an integer
of `2 ^ 63 + 1` bytes and an integer of 1 byte is laid out with `Size()` 2 and
`Align()` `2 ^ 63 + 1`. -/
theorem addAlignment_size_wraps :
    addAlignment exWide2 = some exWide2Out ∧ exWide2.Fields ≠ [] ∧
      exWide2.Fields.getLast? = some (Typ.IntType exCommon 1 IntPlain) ∧
      isVarLenArray (Typ.IntType exCommon 1 IntPlain) = false ∧
      exWide2Out.Size = some 2 ∧ exWide2Out.Align = some (2 ^ 63 + 1) ∧
      2 % (2 ^ 63 + 1) ≠ 0 :=
  ⟨rfl, List.cons_ne_nil _ _, rfl, rfl, by decide, by decide, by decide⟩

/-- C5, as amended. For every struct on which `addAlignment` succeeds and whose
laid-out field sizes sum to less than `2 ^ 64` (no wrap-around of `uintptr`),
the resulting fields are the declared fields (marked `false`) in their order
with padding made by `makePad` (marked `true`) in between, every declared
field sits at an offset, the sum of the sizes of the fields before it, that
is a multiple of its non-zero `Align()`, and so does every field for which
`IsPad` is false. -/
theorem addAlignment_fields_aligned (t out : StructType) (h : addAlignment t = some out)
    (hfit : natSizeSum out.Fields < 2 ^ 64) :
    ∃ marks : List (Bool × Typ),
      marks.map Prod.snd = out.Fields ∧
      (marks.filter fun p => !p.1).map Prod.snd = t.Fields ∧
      (∀ p ∈ marks, p.1 = true → ∃ sz, p.2 = makePad sz) ∧
      (∀ j p, marks[j]? = some p → p.1 = false →
        ∃ a, Typ.Align p.2 = some a ∧ a ≠ 0 ∧ natSizeSum (out.Fields.take j) % a = 0) ∧
      ∀ j f, out.Fields[j]? = some f → IsPad f = false →
        ∃ a, Typ.Align f = some a ∧ a ≠ 0 ∧ natSizeSum (out.Fields.take j) % a = 0 := by
  obtain ⟨marks, hmap, hfilter, hpads, hal⟩ := addAlignment_marks h hfit
  have hidx : ∀ j p, marks[j]? = some p → p.1 = false →
      ∃ a, Typ.Align p.2 = some a ∧ a ≠ 0 ∧ natSizeSum (out.Fields.take j) % a = 0 := by
    intro j p hj hp
    have := alignedFrom_getElem marks 0 j p hal hj hp
    rwa [hmap, Nat.zero_add] at this
  refine ⟨marks, hmap, hfilter, hpads, hidx, ?_⟩
  intro j f hj hpad
  rw [← hmap, List.getElem?_map] at hj
  cases hp : marks[j]? with
  | none => rw [hp] at hj; exact absurd hj (by simp)
  | some p =>
    rw [hp] at hj
    have hf : p.2 = f := Option.some.inj hj
    cases hmark : p.1 with
    | false =>
      rw [← hf]
      exact hidx j p hp hmark
    | true =>
      obtain ⟨sz, hsz⟩ := hpads p (List.mem_iff_getElem?.mpr ⟨j, hp⟩) hmark
      rw [← hf, hsz, IsPad_makePad] at hpad
      exact absurd hpad (by simp)

/-- C5, at the struct `{ int32; int8; pointer }`: the pointer, at index 3 of
the layout, is a declared field at offset 8. -/
theorem addAlignment_fields_aligned_witness :
    addAlignment exStruct = some exLaidOut ∧ natSizeSum exLaidOut.Fields < 2 ^ 64 ∧
      ∃ a, Typ.Align (Typ.PtrType exCommon (Typ.IntType exCommon 4 IntPlain) Dir.DirIn) =
          some a ∧ a ≠ 0 ∧ natSizeSum (exLaidOut.Fields.take 3) % a = 0 := by
  refine ⟨rfl, by decide, ?_⟩
  obtain ⟨_, _, _, _, _, hpad⟩ :=
    addAlignment_fields_aligned exStruct exLaidOut rfl (by decide)
  exact hpad 3 _ rfl rfl

/-- C5 as stated fails when the offset wraps around: in the layout of
`exWide3` the third declared field, of alignment `2 ^ 63 + 1`, is at index 4,
and the sizes before it sum to `2 ^ 65 + 2`, which is 2 modulo `2 ^ 64`;
neither is a multiple of the alignment. -/
theorem addAlignment_field_misaligned :
    addAlignment exWide3 = some exWide3Out ∧
      exWide3Out.Fields[4]? = some (Typ.IntType exCommon (2 ^ 63 + 1) IntPlain) ∧
      IsPad (Typ.IntType exCommon (2 ^ 63 + 1) IntPlain) = false ∧
      Typ.Align (Typ.IntType exCommon (2 ^ 63 + 1) IntPlain) = some (2 ^ 63 + 1) ∧
      natSizeSum (exWide3Out.Fields.take 4) = 2 ^ 65 + 2 ∧
      natSizeSum (exWide3Out.Fields.take 4) % (2 ^ 63 + 1) ≠ 0 ∧
      wrap (natSizeSum (exWide3Out.Fields.take 4)) % (2 ^ 63 + 1) ≠ 0 :=
  ⟨rfl, rfl, rfl, by decide, by decide, by decide, by decide⟩

/-! ## Resource constructors and input resources -/

theorem ctorMatch_eq (kind : ResourceKind) (sk : ResourceSubkind) (precise : Bool)
    (r : ResourceType) (dir : Dir) :
    ctorMatch kind sk precise r dir = decide (Qualifies kind sk precise (r, dir)) := by
  rw [Bool.eq_iff_iff]
  simp only [ctorMatch, Qualifies, Bool.and_eq_true, Bool.or_eq_true, decide_eq_true_eq,
    Bool.not_eq_true']
  constructor
  · rintro ⟨⟨hd, hk⟩, hs⟩
    refine ⟨hk, hd, ?_⟩
    rcases hs with (hs | hs) | hs
    · exact Or.inl hs.symm
    · exact Or.inr (Or.inl hs)
    · exact Or.inr (Or.inr hs)
  · rintro ⟨hk, hd, hs⟩
    refine ⟨⟨hd, hk⟩, ?_⟩
    rcases hs with hs | hs | hs
    · exact Or.inl (Or.inl hs.symm)
    · exact Or.inl (Or.inr hs)
    · exact Or.inr hs

mutual
theorem ctorCheckArg_eq (kind : ResourceKind) (sk : ResourceSubkind) (precise : Bool) :
    ∀ (t : Typ) (dir : Dir), ctorCheckArg kind sk precise t dir =
      (resourcePositions t dir).any fun p => decide (Qualifies kind sk precise p)
  | Typ.ResourceType r, dir => by
    rw [ctorCheckArg, resourcePositions, ctorMatch_eq]; simp
  | Typ.ArrayType _ elem _, dir => by
    rw [ctorCheckArg, resourcePositions]; exact ctorCheckArg_eq kind sk precise elem dir
  | Typ.StructType _ fields _, dir => by
    rw [ctorCheckArg, resourcePositions]; exact ctorCheckFields_eq kind sk precise fields dir
  | Typ.PtrType _ elem d, _ => by
    rw [ctorCheckArg, resourcePositions]; exact ctorCheckArg_eq kind sk precise elem d
  | Typ.FileoffType _ _ _, _ => by rw [ctorCheckArg, resourcePositions]; rfl
  | Typ.BufferType _ _, _ => by rw [ctorCheckArg, resourcePositions]; rfl
  | Typ.VmaType _, _ => by rw [ctorCheckArg, resourcePositions]; rfl
  | Typ.LenType _ _ _, _ => by rw [ctorCheckArg, resourcePositions]; rfl
  | Typ.FlagsType _ _ _, _ => by rw [ctorCheckArg, resourcePositions]; rfl
  | Typ.ConstType _ _ _ _, _ => by rw [ctorCheckArg, resourcePositions]; rfl
  | Typ.StrConstType _ _ _, _ => by rw [ctorCheckArg, resourcePositions]; rfl
  | Typ.IntType _ _ _, _ => by rw [ctorCheckArg, resourcePositions]; rfl
  | Typ.FilenameType _, _ => by rw [ctorCheckArg, resourcePositions]; rfl
theorem ctorCheckFields_eq (kind : ResourceKind) (sk : ResourceSubkind) (precise : Bool) :
    ∀ (fs : List Typ) (dir : Dir), ctorCheckFields kind sk precise fs dir =
      (resourcePositionsOfList fs dir).any fun p => decide (Qualifies kind sk precise p)
  | [], _ => by rw [ctorCheckFields, resourcePositionsOfList]; rfl
  | f :: fs, dir => by
    rw [ctorCheckFields, resourcePositionsOfList, List.any_append,
      ← ctorCheckArg_eq kind sk precise f dir, ← ctorCheckFields_eq kind sk precise fs dir]
    cases ctorCheckArg kind sk precise f dir <;> simp
end

theorem ctorCheckArgs_eq (kind : ResourceKind) (sk : ResourceSubkind) (precise : Bool)
    (args : List Typ) : ctorCheckArgs kind sk precise args =
      (resourcePositionsOfList args Dir.DirIn).any fun p =>
        decide (Qualifies kind sk precise p) := by
  induction args with
  | nil => rw [ctorCheckArgs, resourcePositionsOfList]; rfl
  | cons arg rest ih =>
    rw [ctorCheckArgs, resourcePositionsOfList, List.any_append, ← ctorCheckArg_eq, ih]
    cases ctorCheckArg kind sk precise arg Dir.DirIn <;> simp

theorem ctorOk_eq (kind : ResourceKind) (sk : ResourceSubkind) (precise : Bool) (c : Call) :
    ctorOk kind sk precise c = producesSpec kind sk precise c := by
  unfold ctorOk producesSpec argPositions retPositions
  rw [List.any_append, ← ctorCheckArgs_eq]
  cases hret : c.Ret with
  | none => cases ctorCheckArgs kind sk precise c.Args <;> simp
  | some ret =>
    simp only [Option.isSome_some, true_and]
    rw [← ctorCheckArg_eq]
    cases ctorCheckArgs kind sk precise c.Args <;>
      cases ctorCheckArg kind sk precise ret Dir.DirOut <;> simp

theorem ctorsLoop_eq (heap : Heap) (kind : ResourceKind) (sk : ResourceSubkind)
    (precise : Bool) (calls : List CallPtr) :
    ∀ metas : List CallPtr, ctorsLoop heap kind sk precise calls metas =
      metas ++ calls.filter fun m => producesSpec kind sk precise (heap m) := by
  induction calls with
  | nil => intro metas; simp [ctorsLoop]
  | cons m rest ih =>
    intro metas
    rw [ctorsLoop, ih, ctorOk_eq, List.filter_cons]
    cases producesSpec kind sk precise (heap m) <;> simp

mutual
theorem inputCheckArg_eq : ∀ (t : Typ) (dir : Dir) (resources : List ResourceType),
    inputCheckArg t dir resources = resources ++
      ((resourcePositions t dir).filter fun p =>
        decide (p.2 ≠ Dir.DirOut ∧ p.1.toTypeCommon.IsOptional = false)).map Prod.fst
  | Typ.ResourceType r, dir, resources => by
    rw [inputCheckArg, resourcePositions]
    by_cases hc : dir ≠ Dir.DirOut ∧ r.toTypeCommon.IsOptional = false
    · rw [if_pos hc]; simp [hc]
    · rw [if_neg hc]; simp [List.filter_cons, hc]
  | Typ.ArrayType _ elem _, dir, resources => by
    rw [inputCheckArg, resourcePositions]; exact inputCheckArg_eq elem dir resources
  | Typ.PtrType _ elem d, _, resources => by
    rw [inputCheckArg, resourcePositions]; exact inputCheckArg_eq elem d resources
  | Typ.StructType _ fields _, dir, resources => by
    rw [inputCheckArg, resourcePositions]; exact inputCheckFields_eq fields dir resources
  | Typ.FileoffType _ _ _, _, resources => by rw [inputCheckArg, resourcePositions]; simp
  | Typ.BufferType _ _, _, resources => by rw [inputCheckArg, resourcePositions]; simp
  | Typ.VmaType _, _, resources => by rw [inputCheckArg, resourcePositions]; simp
  | Typ.LenType _ _ _, _, resources => by rw [inputCheckArg, resourcePositions]; simp
  | Typ.FlagsType _ _ _, _, resources => by rw [inputCheckArg, resourcePositions]; simp
  | Typ.ConstType _ _ _ _, _, resources => by rw [inputCheckArg, resourcePositions]; simp
  | Typ.StrConstType _ _ _, _, resources => by rw [inputCheckArg, resourcePositions]; simp
  | Typ.IntType _ _ _, _, resources => by rw [inputCheckArg, resourcePositions]; simp
  | Typ.FilenameType _, _, resources => by rw [inputCheckArg, resourcePositions]; simp
theorem inputCheckFields_eq : ∀ (fs : List Typ) (dir : Dir) (resources : List ResourceType),
    inputCheckFields fs dir resources = resources ++
      ((resourcePositionsOfList fs dir).filter fun p =>
        decide (p.2 ≠ Dir.DirOut ∧ p.1.toTypeCommon.IsOptional = false)).map Prod.fst
  | [], _, resources => by rw [inputCheckFields, resourcePositionsOfList]; simp
  | f :: fs, dir, resources => by
    rw [inputCheckFields, inputCheckArg_eq f dir resources, inputCheckFields_eq fs dir,
      resourcePositionsOfList, List.filter_append, List.map_append, List.append_assoc]
end

theorem inputCheckArgs_eq (args : List Typ) : ∀ resources : List ResourceType,
    inputCheckArgs args resources = resources ++
      ((resourcePositionsOfList args Dir.DirIn).filter fun p =>
        decide (p.2 ≠ Dir.DirOut ∧ p.1.toTypeCommon.IsOptional = false)).map Prod.fst := by
  induction args with
  | nil => intro resources; rw [inputCheckArgs, resourcePositionsOfList]; simp
  | cons arg rest ih =>
    intro resources
    rw [inputCheckArgs, ih, inputCheckArg_eq, resourcePositionsOfList, List.filter_append,
      List.map_append, List.append_assoc]

/-- C7. `ResourceCtors(kind, sk, precise)` is the registry filtered, in
registry order, by the predicate of the specification: an argument or the
return type of the call has a position that holds a resource of the kind,
whose direction is not in, and whose subkind is `sk`, or `sk` is `ResAny`, or
the subkind is `ResAny` and `precise` is false. So the result is a sublist of
the registry, without repetition if the registry has none; and a call whose
qualifying file-descriptor positions all have subkind `ResAny` is in
`ResourceCtors(ResFD, FdSock, false)` and not in
`ResourceCtors(ResFD, FdSock, true)`. -/
theorem resourceCtors_eq_filter (Calls : List CallPtr) (heap : Heap) (kind : ResourceKind)
    (sk : ResourceSubkind) (precise : Bool) :
    ResourceCtors Calls heap kind sk precise =
        Calls.filter (fun m => producesSpec kind sk precise (heap m)) ∧
      (ResourceCtors Calls heap kind sk precise).Sublist Calls ∧
      (Calls.Nodup → (ResourceCtors Calls heap kind sk precise).Nodup) ∧
      ∀ m ∈ Calls,
        (∃ p ∈ argPositions (heap m) ++ retPositions (heap m),
          p.1.Kind = ResFD ∧ p.2 ≠ Dir.DirIn) →
        (∀ p ∈ argPositions (heap m) ++ retPositions (heap m),
          p.1.Kind = ResFD → p.2 ≠ Dir.DirIn → p.1.Subkind = ResAny) →
        m ∈ ResourceCtors Calls heap ResFD FdSock false ∧
          m ∉ ResourceCtors Calls heap ResFD FdSock true := by
  have heq : ∀ k s pr, ResourceCtors Calls heap k s pr =
      Calls.filter (fun m => producesSpec k s pr (heap m)) := by
    intro k s pr
    unfold ResourceCtors
    rw [ctorsLoop_eq, List.nil_append]
  refine ⟨heq kind sk precise, ?_, ?_, ?_⟩
  · rw [heq]; exact List.filter_sublist Calls
  · intro hnd; rw [heq]; exact hnd.filter _
  · intro m hm hex hall
    rw [heq, heq, List.mem_filter, List.mem_filter]
    constructor
    · refine ⟨hm, ?_⟩
      obtain ⟨p, hp, hk, hd⟩ := hex
      unfold producesSpec
      rw [List.any_eq_true]
      exact ⟨p, hp, decide_eq_true ⟨hk, hd, Or.inr (Or.inr ⟨hall p hp hk hd, rfl⟩)⟩⟩
    · rintro ⟨_, hprod⟩
      unfold producesSpec at hprod
      rw [List.any_eq_true] at hprod
      obtain ⟨p, hp, hq⟩ := hprod
      obtain ⟨hk, hd, hs⟩ := of_decide_eq_true hq
      have hany := hall p hp hk hd
      rcases hs with hs | hs | hs
      · rw [hany] at hs; exact absurd hs (by decide)
      · exact absurd hs (by decide)
      · exact absurd hs.2 (by decide)

/-- C7, on a registry of `Accept`, which returns a file descriptor of subkind
`ResAny`, and `Socket`: `Accept` is a constructor of sockets for the lookup
that is not precise, and is not one for the precise lookup. -/
theorem resourceCtors_eq_filter_witness :
    ResourceCtors [0, 1] anyHeap ResFD FdSock false = [0, 1] ∧
      ResourceCtors [0, 1] anyHeap ResFD FdSock true = [1] ∧
      ((0 : CallPtr) ∈ ResourceCtors [0, 1] anyHeap ResFD FdSock false ∧
        (0 : CallPtr) ∉ ResourceCtors [0, 1] anyHeap ResFD FdSock true) :=
  ⟨by decide, by decide,
    (resourceCtors_eq_filter [0, 1] anyHeap ResFD FdSock true).2.2.2 0 (by decide)
      (by decide) (by decide)⟩

/-- C8. `InputResources` is the list of the specification: the resources at
the positions of the arguments, in depth-first left-to-right order and with
repetitions, whose direction is not out and that are not optional. The return
type does not contribute, and two non-optional file descriptors of the same
subkind as arguments give a list of length two. -/
theorem inputResources_eq_spec (c : Call) :
    c.InputResources = inputResourcesSpec c ∧
      (∀ ret, Call.InputResources { c with Ret := ret } = c.InputResources) ∧
      ∀ (c1 c2 : TypeCommon) (sk : ResourceSubkind),
        c1.IsOptional = false → c2.IsOptional = false →
        c.Args = [Typ.ResourceType { toTypeCommon := c1, Kind := ResFD, Subkind := sk },
          Typ.ResourceType { toTypeCommon := c2, Kind := ResFD, Subkind := sk }] →
        c.InputResources = [{ toTypeCommon := c1, Kind := ResFD, Subkind := sk },
          { toTypeCommon := c2, Kind := ResFD, Subkind := sk }] ∧
        c.InputResources.length = 2 := by
  refine ⟨?_, fun _ => rfl, ?_⟩
  · unfold Call.InputResources inputResourcesSpec argPositions
    rw [inputCheckArgs_eq, List.nil_append]
  · intro c1 c2 sk h1 h2 hargs
    have hval : c.InputResources = [{ toTypeCommon := c1, Kind := ResFD, Subkind := sk },
        { toTypeCommon := c2, Kind := ResFD, Subkind := sk }] := by
      unfold Call.InputResources
      rw [hargs]
      simp [inputCheckArgs, inputCheckArg, h1, h2]
    exact ⟨hval, by rw [hval]; rfl⟩

/-- C8, on a call with a file descriptor as first argument and a second one
inside a struct behind an input pointer: both are listed, in this order. -/
theorem inputResources_eq_spec_witness :
    exTwoFds.InputResources = inputResourcesSpec exTwoFds ∧
      exTwoFds.InputResources.length = 2 ∧
      (scenHeap 1).InputResources.length = 1 ∧
      Call.InputResources
          { scenHeap 0 with
            Args := [Typ.ResourceType { toTypeCommon := exCommon, Kind := ResFD, Subkind := FdFile },
              Typ.ResourceType { toTypeCommon := exCommon, Kind := ResFD, Subkind := FdFile }] } =
        [{ toTypeCommon := exCommon, Kind := ResFD, Subkind := FdFile },
          { toTypeCommon := exCommon, Kind := ResFD, Subkind := FdFile }] :=
  ⟨(inputResources_eq_spec exTwoFds).1, by decide, by decide,
    ((inputResources_eq_spec _).2.2 exCommon exCommon FdFile rfl rfl rfl).1⟩

/-- C9, on the code: `ResIocbPtr` is one of the kinds of `ResourceKinds()` and
has its subkinds, but `Default()` and `SpecialValues()` have no case for it
and fail; for the nine other kinds the default is one of the special values,
and for `ResFD` it is `InvalidFD`, the first special value. -/
theorem resourceDefault_iocbPtr (c : TypeCommon) (sk : ResourceSubkind) :
    ResIocbPtr ∈ ResourceKinds ∧ ResourceKinds.length = 10 ∧
      ResourceSubkinds ResIocbPtr = some [ResAny] ∧
      ResourceType.Default { toTypeCommon := c, Kind := ResIocbPtr, Subkind := sk } = none ∧
      ResourceType.SpecialValues { toTypeCommon := c, Kind := ResIocbPtr, Subkind := sk } =
        none ∧
      ((ResourceKinds.erase ResIocbPtr).all fun kind =>
        defaultIsSpecial { toTypeCommon := c, Kind := kind, Subkind := sk }) = true ∧
      ResourceType.Default { toTypeCommon := c, Kind := ResFD, Subkind := sk } =
        some InvalidFD ∧
      (ResourceType.SpecialValues { toTypeCommon := c, Kind := ResFD, Subkind := sk }).bind
        List.head? = some InvalidFD :=
  ⟨by decide, rfl, rfl, rfl, rfl, rfl, rfl, rfl⟩

/-! ## Further properties of the pruning loop -/

/-- A constant sequence of key orders, from a list without repetition that has
the keys of `enabled` as elements. -/
theorem rangeOrders_const {enabled : Finset CallPtr} {keys : List CallPtr}
    (hnd : keys.Nodup) (h1 : ∀ c ∈ keys, c ∈ enabled) (h2 : ∀ c ∈ enabled, c ∈ keys) :
    RangeOrders enabled (fun _ => keys) :=
  fun _ => ⟨hnd, fun c => ⟨h1 c, h2 c⟩⟩

/-- C14. Removing a call `X` from the enabled set, when every other call of the
result keeps, for each of its input resources, a precise constructor other
than `X` in the result, gives the former result without `X`. -/
theorem transitivelyEnabled_erase (Calls : List CallPtr) (heap : Heap)
    (enabled : Finset CallPtr) (X : CallPtr) (orders orders2 : Nat → List CallPtr)
    (_hX : X ∈ enabled) (h : RangeOrders enabled orders)
    (h2 : RangeOrders (enabled.erase X) orders2) :
    ∃ S, TransitivelyEnabledCalls Calls heap enabled orders = some S ∧
      ((∀ c ∈ S, c ≠ X → ∀ r ∈ (heap c).InputResources,
          ∃ ctor ∈ ResourceCtors Calls heap r.Kind r.Subkind true, ctor ∈ S ∧ ctor ≠ X) →
        TransitivelyEnabledCalls Calls heap (enabled.erase X) orders2 = some (S.erase X)) := by
  obtain ⟨S, hS, hsub, hself, hmax⟩ := transitivelyEnabled_spec Calls heap enabled orders h
  refine ⟨S, hS, ?_⟩
  intro hother
  obtain ⟨S2, hS2, hsub2, hself2, hmax2⟩ :=
    transitivelyEnabled_spec Calls heap (enabled.erase X) orders2 h2
  rw [hS2]
  congr 1
  apply Finset.Subset.antisymm
  · intro c hc
    have hcE := hsub2 hc
    exact Finset.mem_erase.mpr
      ⟨(Finset.mem_erase.mp hcE).1,
        hmax S2 hself2 (hsub2.trans (Finset.erase_subset X enabled)) hc⟩
  · apply hmax2
    · intro c hc r hr
      obtain ⟨hne, hcS⟩ := Finset.mem_erase.mp hc
      obtain ⟨ctor, hmem, hin, hneq⟩ := hother c hcS hne r hr
      exact ⟨ctor, hmem, Finset.mem_erase.mpr ⟨hneq, hin⟩⟩
    · exact Finset.erase_subset_erase X hsub

/-- C14, on the scenario: `WriteSocket` (address 2) is enabled and no call of
the result depends on it; without it the result is the same. -/
theorem transitivelyEnabled_erase_witness :
    (2 : CallPtr) ∈ scenEnabled ∧ RangeOrders scenEnabled scenOrders ∧
      ∃ S, TransitivelyEnabledCalls scenCalls scenHeap scenEnabled scenOrders = some S ∧
        TransitivelyEnabledCalls scenCalls scenHeap (scenEnabled.erase 2) (fun _ => [0, 1]) =
          some (S.erase 2) := by
  have hr2 : RangeOrders (scenEnabled.erase 2) (fun _ => [0, 1]) :=
    rangeOrders_const (by decide) (by decide) (by decide)
  refine ⟨by decide, scenOrders_range, ?_⟩
  obtain ⟨S, hS, himp⟩ :=
    transitivelyEnabled_erase scenCalls scenHeap scenEnabled 2 scenOrders (fun _ => [0, 1])
      (by decide) scenOrders_range hr2
  refine ⟨S, hS, himp ?_⟩
  have hcomp : TransitivelyEnabledCalls scenCalls scenHeap scenEnabled scenOrders =
      some {1, 0} := by decide
  rw [hcomp] at hS
  rw [← Option.some.inj hS]
  decide

/-- C17. The result of `TransitivelyEnabledCalls` does not depend on the order
in which the keys of `enabled` come in each `range`: two runs with any two
sequences of key orders return the same set. -/
theorem transitivelyEnabled_order_independent (Calls : List CallPtr) (heap : Heap)
    (enabled : Finset CallPtr) (orders1 orders2 : Nat → List CallPtr)
    (h1 : RangeOrders enabled orders1) (h2 : RangeOrders enabled orders2) :
    ∃ S, TransitivelyEnabledCalls Calls heap enabled orders1 = some S ∧
      TransitivelyEnabledCalls Calls heap enabled orders2 = some S := by
  obtain ⟨S1, hS1, hsub1, hself1, hmax1⟩ :=
    transitivelyEnabled_spec Calls heap enabled orders1 h1
  obtain ⟨S2, hS2, hsub2, hself2, hmax2⟩ :=
    transitivelyEnabled_spec Calls heap enabled orders2 h2
  refine ⟨S1, hS1, ?_⟩
  rw [hS2, Finset.Subset.antisymm (hmax1 S2 hself2 hsub2) (hmax2 S1 hself1 hsub1)]

/-- C17, on the scenario: the alternating key orders and the constant order
`[1, 2, 0]` give the same result. -/
theorem transitivelyEnabled_order_independent_witness :
    RangeOrders scenEnabled scenOrders ∧ RangeOrders scenEnabled (fun _ => [1, 2, 0]) ∧
      ∃ S, TransitivelyEnabledCalls scenCalls scenHeap scenEnabled scenOrders = some S ∧
        TransitivelyEnabledCalls scenCalls scenHeap scenEnabled (fun _ => [1, 2, 0]) =
          some S := by
  have hr2 : RangeOrders scenEnabled (fun _ => [1, 2, 0]) :=
    rangeOrders_const (by decide) (by decide) (by decide)
  exact ⟨scenOrders_range, hr2,
    transitivelyEnabled_order_independent scenCalls scenHeap scenEnabled scenOrders
      (fun _ => [1, 2, 0]) scenOrders_range hr2⟩

/-- C20. A call of the registry can be its own constructor: if each of its
non-optional input resources is at a position of direction in/out, then
enabled alone it is kept. -/
theorem transitivelyEnabled_self_producer (Calls : List CallPtr) (heap : Heap)
    (c : CallPtr) (orders : Nat → List CallPtr) (hreg : c ∈ Calls)
    (hpos : ∀ p ∈ argPositions (heap c), p.2 ≠ Dir.DirOut →
      p.1.toTypeCommon.IsOptional = false → p.2 = Dir.DirInOut)
    (h : RangeOrders {c} orders) :
    TransitivelyEnabledCalls Calls heap {c} orders = some {c} := by
  obtain ⟨S, hS, hsub, _, hmax⟩ := transitivelyEnabled_spec Calls heap {c} orders h
  have hself : SelfSupported Calls heap {c} := by
    intro d hd r hr
    rw [Finset.mem_singleton.mp hd] at hr
    have hspec : (heap c).InputResources = inputResourcesSpec (heap c) := by
      unfold Call.InputResources inputResourcesSpec argPositions
      rw [inputCheckArgs_eq, List.nil_append]
    rw [hspec] at hr
    unfold inputResourcesSpec at hr
    obtain ⟨p, hp, hpr⟩ := List.mem_map.mp hr
    obtain ⟨hmem, hcond⟩ := List.mem_filter.mp hp
    obtain ⟨hdir, hopt⟩ := of_decide_eq_true hcond
    have hio := hpos p hmem hdir hopt
    refine ⟨c, ?_, Finset.mem_singleton_self c⟩
    unfold ResourceCtors
    rw [ctorsLoop_eq, List.nil_append, List.mem_filter]
    refine ⟨hreg, ?_⟩
    unfold producesSpec
    rw [List.any_eq_true]
    refine ⟨p, List.mem_append_left _ hmem, decide_eq_true ⟨?_, ?_, Or.inl ?_⟩⟩
    · rw [hpr]
    · rw [hio]; decide
    · rw [hpr]
  rw [hS, Finset.Subset.antisymm hsub (hmax {c} hself (Finset.Subset.refl _))]

/-- C20, on a call that takes an in/out pointer to a file descriptor. -/
theorem transitivelyEnabled_self_producer_witness :
    (0 : CallPtr) ∈ [(0 : CallPtr)] ∧ RangeOrders {0} (fun _ => [0]) ∧
      (selfHeap 0).InputResources.length = 1 ∧
      TransitivelyEnabledCalls [0] selfHeap {0} (fun _ => [0]) = some {0} := by
  have hr : RangeOrders {0} (fun _ => [0]) :=
    rangeOrders_const (by decide) (by decide) (by decide)
  exact ⟨by decide, hr, by decide,
    transitivelyEnabled_self_producer [0] selfHeap 0 (fun _ => [0]) (by decide)
      (by decide) hr⟩

theorem pruneLoopPasses_fst (Calls : List CallPtr) (heap : Heap) (orders : Nat → List CallPtr) :
    ∀ (fuel k : Nat) (s : Finset CallPtr),
      (pruneLoopPasses Calls heap orders fuel k s).map Prod.fst =
        pruneLoop Calls heap orders fuel k s := by
  intro fuel
  induction fuel with
  | zero => intro k s; rfl
  | succ fuel ih =>
    intro k s
    unfold pruneLoopPasses pruneLoop
    by_cases heq : s.card = (prunePass Calls heap (orders k) s).card
    · simp only [heq, if_true, Option.map_some']
    · simp only [heq, if_false, Option.map_map]
      rw [← ih (k + 1)]
      congr 1

theorem pruneLoopPasses_bound (Calls : List CallPtr) (heap : Heap)
    (orders : Nat → List CallPtr) :
    ∀ (fuel k : Nat) (s : Finset CallPtr), s.card < fuel →
      ∃ S n, pruneLoopPasses Calls heap orders fuel k s = some (S, n) ∧ 1 ≤ n ∧
        n + S.card ≤ s.card + 1 := by
  intro fuel
  induction fuel with
  | zero => intro k s h; exact absurd h (Nat.not_lt_zero _)
  | succ fuel ih =>
    intro k s hcard
    unfold pruneLoopPasses
    have hle := Finset.card_le_card (prunePass_subset Calls heap (orders k) s)
    by_cases heq : s.card = (prunePass Calls heap (orders k) s).card
    · simp only [heq, if_true]
      exact ⟨_, 1, rfl, le_refl 1, by omega⟩
    · simp only [heq, if_false]
      obtain ⟨S, n, hS, hn, hb⟩ := ih (k + 1) (prunePass Calls heap (orders k) s) (by omega)
      rw [hS]
      exact ⟨S, n + 1, rfl, by omega, by omega⟩

theorem pruneLoopPasses_fuel (Calls : List CallPtr) (heap : Heap)
    (orders : Nat → List CallPtr) :
    ∀ (fuel fuel2 k : Nat) (s : Finset CallPtr), s.card < fuel → s.card < fuel2 →
      pruneLoopPasses Calls heap orders fuel k s =
        pruneLoopPasses Calls heap orders fuel2 k s := by
  intro fuel
  induction fuel with
  | zero => intro fuel2 k s h; exact absurd h (Nat.not_lt_zero _)
  | succ fuel ih =>
    intro fuel2 k s h1 h2
    cases fuel2 with
    | zero => exact absurd h2 (Nat.not_lt_zero _)
    | succ fuel2 =>
      unfold pruneLoopPasses
      have hle := Finset.card_le_card (prunePass_subset Calls heap (orders k) s)
      by_cases heq : s.card = (prunePass Calls heap (orders k) s).card
      · simp only [heq, if_true]
      · simp only [heq, if_false]
        rw [ih fuel2 (k + 1) _ (by omega) (by omega)]

/-- C18, as amended. For every finite enabled set the loop of
`TransitivelyEnabledCalls` terminates: it returns after `n` passes over the
enabled set, the last one included, with `1 ≤ n ≤ |enabled| + 1`, more
precisely `n` is at most the number of removed calls plus one, and any larger
bound on the number of passes gives the same result and the same `n`. -/
theorem transitivelyEnabled_passes (Calls : List CallPtr) (heap : Heap)
    (enabled : Finset CallPtr) (orders : Nat → List CallPtr)
    (h : RangeOrders enabled orders) :
    ∃ S n, TransitivelyEnabledPasses Calls heap enabled orders = some (S, n) ∧
      TransitivelyEnabledCalls Calls heap enabled orders = some S ∧
      1 ≤ n ∧ n + S.card ≤ enabled.card + 1 ∧ n ≤ enabled.card + 1 ∧
      ∀ fuel, enabled.card < fuel →
        pruneLoopPasses Calls heap orders fuel 1 (copyKeys (orders 0) ∅) = some (S, n) := by
  have hkeys := copyKeys_eq h
  obtain ⟨S, n, hS, hn, hb⟩ :=
    pruneLoopPasses_bound Calls heap orders (enabled.card + 1) 1 enabled (Nat.lt_succ_self _)
  refine ⟨S, n, ?_, ?_, hn, hb, by omega, ?_⟩
  · unfold TransitivelyEnabledPasses
    rw [hkeys, hS]
  · unfold TransitivelyEnabledCalls
    rw [hkeys, ← pruneLoopPasses_fst, hS]
    rfl
  · intro fuel hfuel
    rw [hkeys, ← hS]
    exact pruneLoopPasses_fuel Calls heap orders fuel (enabled.card + 1) 1 enabled hfuel
      (Nat.lt_succ_self _)

/-- C18, on the scenario: two passes, the first one removes `WriteSocket`. -/
theorem transitivelyEnabled_passes_witness :
    RangeOrders scenEnabled scenOrders ∧
      TransitivelyEnabledPasses scenCalls scenHeap scenEnabled scenOrders = some ({1, 0}, 2) ∧
      ∃ S n, TransitivelyEnabledPasses scenCalls scenHeap scenEnabled scenOrders =
          some (S, n) ∧ n ≤ scenEnabled.card + 1 := by
  refine ⟨scenOrders_range, by decide, ?_⟩
  obtain ⟨S, n, hS, _, _, _, hn, _⟩ :=
    transitivelyEnabled_passes scenCalls scenHeap scenEnabled scenOrders scenOrders_range
  exact ⟨S, n, hS, hn⟩

/-- C18 as stated fails: with `WriteSocket` alone enabled the loop makes two
passes, one that removes it and one that removes nothing, for one enabled
call; with nothing enabled it makes one pass. -/
theorem transitivelyEnabled_passes_exceed :
    RangeOrders {2} (fun _ => [2]) ∧
      TransitivelyEnabledPasses scenCalls scenHeap {2} (fun _ => [2]) = some (∅, 2) ∧
      ¬ (2 ≤ ({2} : Finset CallPtr).card) ∧
      RangeOrders ∅ (fun _ => []) ∧
      TransitivelyEnabledPasses scenCalls scenHeap ∅ (fun _ => []) = some (∅, 1) ∧
      ¬ (1 ≤ (∅ : Finset CallPtr).card) :=
  ⟨rangeOrders_const (by decide) (by decide) (by decide), by decide, by decide,
    rangeOrders_const (by decide) (by decide) (by decide), by decide, by decide⟩

/-! ## Failure of the layout -/

theorem layoutStep_isSome {n i : Nat} {f : Typ} {st : LayoutState} {a sz : Nat}
    (ha : Typ.Align f = some a) (ha0 : a ≠ 0) (hsz : Typ.Size f = some sz)
    (hv : (st.varLen || isVarLenArray f) = true → i = n - 1) :
    ∃ st1, layoutStep n i f st = some st1 ∧
      st1.varLen = (st.varLen || isVarLenArray f) := by
  unfold layoutStep
  rw [ha, Option.some_bind]
  simp only [ha0, if_false]
  rw [hsz, Option.some_bind]
  rw [if_neg (fun hc => hc.2 (hv hc.1))]
  exact ⟨_, rfl, rfl⟩

theorem layoutLoop_some_fields (n : Nat) :
    ∀ (fs : List Typ) (i : Nat) (st st1 : LayoutState),
      layoutLoop n fs i st = some st1 →
      ∀ f ∈ fs, ∃ a sz, Typ.Align f = some a ∧ a ≠ 0 ∧ Typ.Size f = some sz := by
  intro fs
  induction fs with
  | nil => intro i st st1 _ f hf; exact absurd hf (List.not_mem_nil f)
  | cons g fs ih =>
    intro i st st1 h f hf
    rw [layoutLoop] at h
    cases hs : layoutStep n i g st with
    | none => rw [hs] at h; exact absurd h (by simp)
    | some st2 =>
      rw [hs, Option.some_bind] at h
      rcases List.mem_cons.mp hf with rfl | hrest
      · obtain ⟨a, sz, ha, ha0, hsz, _⟩ := layoutStep_some hs
        exact ⟨a, sz, ha, ha0, hsz⟩
      · exact ih (i + 1) st2 st1 h f hrest

theorem layoutLoop_total (n : Nat) :
    ∀ (fs : List Typ) (i : Nat) (st : LayoutState), i + fs.length = n →
      (∀ f ∈ fs, ∃ a sz, Typ.Align f = some a ∧ a ≠ 0 ∧ Typ.Size f = some sz) →
      (∀ (k : Nat) (f : Typ), fs[k]? = some f → isVarLenArray f = true → i + k = n - 1) →
      (st.varLen = true → fs = []) →
      ∃ st1, layoutLoop n fs i st = some st1 := by
  intro fs
  induction fs with
  | nil => intro i st _ _ _ _; exact ⟨st, rfl⟩
  | cons g fs ih =>
    intro i st hlen hgood hvar hst
    have hstv : st.varLen = false := by
      cases hv : st.varLen with
      | false => rfl
      | true => exact absurd (hst hv) (List.cons_ne_nil g fs)
    obtain ⟨a, sz, ha, ha0, hsz⟩ := hgood g (List.mem_cons_self g fs)
    have hlast : (st.varLen || isVarLenArray g) = true → i = n - 1 := by
      intro hv
      rw [hstv, Bool.false_or] at hv
      have := hvar 0 g (List.getElem?_cons_zero) hv
      omega
    obtain ⟨st1, hstep, hvl⟩ := layoutStep_isSome ha ha0 hsz hlast
    rw [layoutLoop, hstep, Option.some_bind]
    simp only [List.length_cons] at hlen
    apply ih (i + 1) st1 (by omega)
    · intro f hf
      exact hgood f (List.mem_cons_of_mem g hf)
    · intro k f hk hv
      have := hvar (k + 1) f (by simpa using hk) hv
      omega
    · intro hv
      rw [hvl, hstv, Bool.false_or] at hv
      have := hvar 0 g (List.getElem?_cons_zero) hv
      have hl : fs.length = 0 := by omega
      exact List.length_eq_zero.mp hl

/-- C19. `addAlignment` fails exactly when a field has no `Size()` or no
`Align()`, or has `Align()` 0 (the remainder of the offset by the alignment
then divides by zero), or a variable-length array is at an index other than
the last one; in every other case it returns a struct with `padded` true. -/
theorem addAlignment_none_iff (t : StructType) :
    (addAlignment t = none ↔
      (∃ f ∈ t.Fields, Typ.Size f = none ∨ Typ.Align f = none ∨ Typ.Align f = some 0) ∨
        ∃ (k : Nat) (f : Typ), t.Fields[k]? = some f ∧ isVarLenArray f = true ∧
          k ≠ t.Fields.length - 1) ∧
      ∀ out, addAlignment t = some out → out.padded = true := by
  constructor
  · constructor
    · intro hnone
      by_contra hcon
      rw [not_or] at hcon
      obtain ⟨hfields, hvar⟩ := hcon
      have hgood : ∀ f ∈ t.Fields, ∃ a sz, Typ.Align f = some a ∧ a ≠ 0 ∧
          Typ.Size f = some sz := by
        intro f hf
        cases ha : Typ.Align f with
        | none => exact absurd ⟨f, hf, Or.inr (Or.inl ha)⟩ hfields
        | some a =>
          cases hs : Typ.Size f with
          | none => exact absurd ⟨f, hf, Or.inl hs⟩ hfields
          | some sz =>
            refine ⟨a, sz, rfl, ?_, rfl⟩
            intro ha0
            rw [ha0] at ha
            exact hfields ⟨f, hf, Or.inr (Or.inr ha)⟩
      obtain ⟨st, hst⟩ := layoutLoop_total t.Fields.length t.Fields 0
        { fields := [], off := 0, align := 0, varLen := false } (Nat.zero_add _) hgood
        (fun k f hk hv => by
          by_contra hne
          exact hvar ⟨k, f, hk, hv, by omega⟩)
        (fun hv => absurd hv (by simp))
      unfold addAlignment at hnone
      rw [hst] at hnone
      exact absurd hnone (by simp)
    · intro hcond
      cases h : addAlignment t with
      | none => rfl
      | some out =>
        exfalso
        obtain ⟨st, hloop, _⟩ := addAlignment_some h
        rcases hcond with ⟨f, hf, hbad⟩ | ⟨k, f, hk, hv, hne⟩
        · obtain ⟨a, sz, ha, ha0, hsz⟩ :=
            layoutLoop_some_fields t.Fields.length t.Fields 0 _ st hloop f hf
          rcases hbad with hb | hb | hb
          · rw [hsz] at hb; exact absurd hb (by simp)
          · rw [ha] at hb; exact absurd hb (by simp)
          · rw [ha] at hb; exact ha0 (Option.some.inj hb)
        · have := layoutLoop_varLen_last t.Fields.length t.Fields 0 _ st hloop k f hk hv
          omega
  · intro out h
    obtain ⟨st, _, hout⟩ := addAlignment_some h
    rw [hout]

/-- C19, on concrete structs: `{ int32; int8; pointer }` is laid out with
`padded` true; a struct with an empty nested struct, a struct with an integer
of width 0 and a struct with a variable-length array before its last field
make `addAlignment` fail. -/
theorem addAlignment_none_iff_witness :
    addAlignment exStruct = some exLaidOut ∧ exLaidOut.padded = true ∧
      Typ.Align (Typ.StructType exCommon [] true) = some 0 ∧
      addAlignment exEmptyNested = none ∧
      Typ.Align (Typ.IntType exCommon 0 IntPlain) = some 0 ∧
      addAlignment exZeroWidth = none ∧ addAlignment exMisplaced = none :=
  ⟨rfl, (addAlignment_none_iff exStruct).2 exLaidOut rfl, by decide,
    (addAlignment_none_iff exEmptyNested).1.mpr
      (Or.inl ⟨Typ.StructType exCommon [] true, by simp [exEmptyNested],
        Or.inr (Or.inr (by decide))⟩),
    by decide,
    (addAlignment_none_iff exZeroWidth).1.mpr
      (Or.inl ⟨Typ.IntType exCommon 0 IntPlain, by simp [exZeroWidth],
        Or.inr (Or.inr (by decide))⟩),
    (addAlignment_none_iff exMisplaced).1.mpr
      (Or.inr ⟨0, Typ.ArrayType exCommon (Typ.IntType exCommon 1 IntPlain) 0, rfl, rfl,
        by decide⟩)⟩

/-! ## The layout is the reference layout -/

theorem referenceFields_cons (off : Nat) (f : Typ) (fs : List Typ) :
    referenceFields off (f :: fs) =
      if off % (Typ.Align f).getD 0 ≠ 0 then
        (true, makePad ((Typ.Align f).getD 0 - off % (Typ.Align f).getD 0)) :: (false, f) ::
          referenceFields
            (wrap (wrap (off + ((Typ.Align f).getD 0 - off % (Typ.Align f).getD 0)) +
              (Typ.Size f).getD 0)) fs
      else (false, f) :: referenceFields (wrap (off + (Typ.Size f).getD 0)) fs := by
  rw [referenceFields]

theorem referenceFields_declared (fs : List Typ) :
    ∀ off : Nat, ((referenceFields off fs).filter fun p => !p.1).map Prod.snd = fs := by
  induction fs with
  | nil => intro off; rfl
  | cons f fs ih =>
    intro off
    rw [referenceFields_cons]
    by_cases hm : off % (Typ.Align f).getD 0 ≠ 0
    · simp only [hm, if_true, ne_eq, not_false_eq_true]
      simp [List.filter_cons, ih]
    · simp only [hm, if_false]
      simp [List.filter_cons, ih]

theorem referenceFields_pads (fs : List Typ) :
    ∀ off : Nat, ∀ p ∈ referenceFields off fs, p.1 = true → ∃ sz, p.2 = makePad sz := by
  induction fs with
  | nil => intro off p hp; exact absurd hp (List.not_mem_nil p)
  | cons f fs ih =>
    intro off p hp hmark
    rw [referenceFields_cons] at hp
    by_cases hm : off % (Typ.Align f).getD 0 ≠ 0
    · simp only [hm, if_true, ne_eq, not_false_eq_true, List.mem_cons] at hp
      rcases hp with rfl | rfl | hrest
      · exact ⟨_, rfl⟩
      · exact absurd hmark (by simp)
      · exact ih _ p hrest hmark
    · simp only [hm, if_false, List.mem_cons] at hp
      rcases hp with rfl | hrest
      · exact absurd hmark (by simp)
      · exact ih _ p hrest hmark

/-- The loop of `addAlignment` appends the fields of the pass of the
reference layout from the current offset. -/
theorem layoutLoop_reference (n : Nat) :
    ∀ (fs : List Typ) (i : Nat) (st st1 : LayoutState),
      layoutLoop n fs i st = some st1 →
      st1.fields = st.fields ++ (referenceFields st.off fs).map Prod.snd := by
  intro fs
  induction fs with
  | nil =>
    intro i st st1 h
    rw [layoutLoop] at h
    cases h
    simp [referenceFields]
  | cons f fs ih =>
    intro i st st1 h
    rw [layoutLoop] at h
    cases hs : layoutStep n i f st with
    | none => rw [hs] at h; exact absurd h (by simp)
    | some st2 =>
      rw [hs, Option.some_bind] at h
      obtain ⟨a, sz, ha, _, hsz, _, hfields, hoff, _, _⟩ := layoutStep_some hs
      rw [ih (i + 1) st2 st1 h, hfields, hoff, referenceFields_cons st.off f fs]
      simp only [ha, hsz, Option.getD_some]
      by_cases hm : st.off % a ≠ 0
      · simp only [hm, if_true, ne_eq, not_false_eq_true, List.map_cons, List.append_assoc,
          List.singleton_append, List.cons_append, List.nil_append]
      · simp only [hm, if_false, List.map_cons, List.append_assoc, List.singleton_append]

/-- The variable `align` of `addAlignment` is the running maximum of the
alignments of the declared fields. -/
theorem layoutLoop_align {n : Nat} {fs : List Typ} {st : LayoutState}
    (h : layoutLoop n fs 0 { fields := [], off := 0, align := 0, varLen := false } = some st) :
    st.align = referenceAlign fs := by
  have hinv := layoutLoop_invariant n (fun done st => st.align = referenceAlign done)
    (fun done i f st st1 hs hinv => by
      obtain ⟨a, _, ha, _, _, _, _, _, halign, _⟩ := layoutStep_some hs
      simp only [referenceAlign] at hinv ⊢
      rw [halign, hinv, List.map_append, List.foldl_append]
      simp only [List.map_cons, List.map_nil, List.foldl_cons, List.foldl_nil, ha,
        Option.getD_some]
      split_ifs with hlt
      · exact (max_eq_right (le_of_lt hlt)).symm
      · exact (max_eq_left (not_lt.mp hlt)).symm)
    fs [] 0 _ st h rfl
  simpa using hinv

/-- C16. The field list that `addAlignment` returns is the reference layout:
the declared fields in their order, with a padding constant (name `pad`, value
0, `IsPad` true) of `a - off % a` bytes right before each field whose running
offset `off` is not a multiple of its alignment `a`, none before an aligned
field, and at most one trailing padding field; the fields that are not
inserted padding are the declared fields. Offsets are `uintptr` values. -/
theorem addAlignment_eq_reference (t out : StructType) (h : addAlignment t = some out) :
    out.Fields = (referenceLayout t.Fields).map Prod.snd ∧
      ((referenceLayout t.Fields).filter fun p => !p.1).map Prod.snd = t.Fields ∧
      (∀ p ∈ referenceLayout t.Fields, p.1 = true →
        ∃ sz, p.2 = Typ.ConstType { TypeName := "pad", IsOptional := false } sz 0 true) ∧
      out.toTypeCommon = t.toTypeCommon ∧ out.padded = true := by
  obtain ⟨st, hloop, hout⟩ := addAlignment_some h
  have hfields := layoutLoop_reference t.Fields.length t.Fields 0 _ st hloop
  simp only [List.nil_append] at hfields
  obtain ⟨ioff, _, _, _, ivar⟩ := layoutLoop_basic hloop
  have halign := layoutLoop_align hloop
  refine ⟨?_, ?_, ?_, by rw [hout], by rw [hout]⟩
  · rw [hout]
    simp only [layoutFinish, referenceLayout]
    rw [← hfields, ← ioff, ← halign, ← ivar]
    split_ifs <;> simp [hfields]
  · simp only [referenceLayout]
    split_ifs
    · simp [List.filter_append, referenceFields_declared]
    · exact referenceFields_declared t.Fields 0
  · intro p hp hmark
    simp only [referenceLayout] at hp
    split_ifs at hp
    · rcases List.mem_append.mp hp with h1 | h2
      · exact referenceFields_pads t.Fields 0 p h1 hmark
      · rw [List.mem_singleton.mp h2]
        exact ⟨_, rfl⟩
    · exact referenceFields_pads t.Fields 0 p hp hmark

/-- C16, at the struct `{ int32; int8; pointer }`: the layout is the integer
of 4 bytes at offset 0, the integer of 1 byte at 4, 3 bytes of padding at 5
and the pointer of 8 bytes at 8, of size 16 and alignment 8. -/
theorem addAlignment_eq_reference_witness :
    addAlignment exStruct = some exLaidOut ∧
      exLaidOut.Fields = (referenceLayout exStruct.Fields).map Prod.snd ∧
      exLaidOut.Fields = [Typ.IntType exCommon 4 IntPlain, Typ.IntType exCommon 1 IntPlain,
        Typ.ConstType { TypeName := "pad", IsOptional := false } 3 0 true,
        Typ.PtrType exCommon (Typ.IntType exCommon 4 IntPlain) Dir.DirIn] ∧
      exLaidOut.Fields.map Typ.Size = [some 4, some 1, some 3, some 8] ∧
      (List.range 4).map (fun j => natSizeSum (exLaidOut.Fields.take j)) = [0, 4, 5, 8] ∧
      exLaidOut.Size = some 16 ∧ exLaidOut.Align = some 8 :=
  ⟨rfl, (addAlignment_eq_reference exStruct exLaidOut rfl).1, rfl, by decide, by decide,
    by decide, by decide⟩

/-! ## The recursive layout of `init` -/

theorem mem_reachableTypes_self (t : Typ) : t ∈ reachableTypes t := by
  cases t <;> simp [reachableTypes]

theorem mem_reachableOfList {fs : List Typ} {s : Typ} :
    s ∈ reachableOfList fs ↔ ∃ f ∈ fs, s ∈ reachableTypes f := by
  induction fs with
  | nil => simp [reachableOfList]
  | cons f fs ih => simp [reachableOfList, ih]

theorem laidOut_makePad (sz : Nat) : LaidOut (makePad sz) := trivial

theorem reachableTypes_makePad (sz : Nat) : reachableTypes (makePad sz) = [makePad sz] := rfl

/-- A field of the struct that `addAlignment` returns is a field of its
argument or padding. -/
theorem addAlignment_field_origin {t out : StructType} (h : addAlignment t = some out) :
    ∀ f ∈ out.Fields, f ∈ t.Fields ∨ ∃ sz, f = makePad sz := by
  obtain ⟨st, hloop, hout⟩ := addAlignment_some h
  have hinv := layoutLoop_invariant t.Fields.length
    (fun done st => ∀ f ∈ st.fields, f ∈ done ∨ ∃ sz, f = makePad sz)
    (fun done i f st st1 hs hinv g hg => by
      obtain ⟨a, _, _, _, _, _, hfields, _⟩ := layoutStep_some hs
      rw [hfields] at hg
      rcases List.mem_append.mp hg with h1 | h2
      · have hcase : g ∈ st.fields ∨ g = makePad (a - st.off % a) := by
          split at h1
          · rcases List.mem_append.mp h1 with h3 | h4
            · exact Or.inl h3
            · exact Or.inr (List.mem_singleton.mp h4)
          · exact Or.inl h1
        rcases hcase with h3 | h4
        · rcases hinv g h3 with h5 | h6
          · exact Or.inl (List.mem_append_left _ h5)
          · exact Or.inr h6
        · exact Or.inr ⟨_, h4⟩
      · exact Or.inl (List.mem_append_right _ h2))
    t.Fields [] 0 _ st hloop (fun f hf => absurd hf (List.not_mem_nil f))
  simp only [List.nil_append] at hinv
  intro f hf
  rw [hout] at hf
  simp only [layoutFinish] at hf
  split at hf
  · rcases List.mem_append.mp hf with h1 | h2
    · exact hinv f h1
    · exact Or.inr ⟨_, List.mem_singleton.mp h2⟩
  · exact hinv f hf

/-- The struct that `addAlignment` returns is laid out. -/
theorem addAlignment_laidOut {t out : StructType} (h : addAlignment t = some out) :
    LaidOut out.toTyp := by
  obtain ⟨st, hloop, hout⟩ := addAlignment_some h
  obtain ⟨_, _, hsize⟩ := layoutFinish_facts (layoutLoop_basic hloop)
  rw [hout]
  simp only [StructType.toTyp, LaidOut, Typ.Size, true_and]
  simp [hsize]

theorem rec_struct {c : TypeCommon} {fs : List Typ} {p : Bool} {t2 : Typ}
    (h : rec (Typ.StructType c fs p) = some t2) :
    ∃ fs2 out, recList fs = some fs2 ∧
      addAlignment { toTypeCommon := c, Fields := fs2, padded := p } = some out ∧
      t2 = out.toTyp := by
  rw [rec] at h
  cases hl : recList fs with
  | none => rw [hl] at h; exact absurd h (by simp)
  | some fs2 =>
    rw [hl, Option.some_bind] at h
    cases ha : addAlignment { toTypeCommon := c, Fields := fs2, padded := p } with
    | none => rw [ha] at h; exact absurd h (by simp)
    | some out =>
      rw [ha, Option.some_bind] at h
      exact ⟨fs2, out, rfl, ha, (Option.some.inj h).symm⟩

mutual
theorem rec_laidOut : ∀ (t t2 : Typ), rec t = some t2 → ∀ s ∈ reachableTypes t2, LaidOut s
  | Typ.PtrType c elem d, t2, h, s, hs => by
    rw [rec] at h
    cases he : rec elem with
    | none => rw [he] at h; exact absurd h (by simp)
    | some e =>
      rw [he, Option.some_bind] at h
      cases h
      rw [reachableTypes] at hs
      rcases List.mem_cons.mp hs with rfl | hrest
      · trivial
      · exact rec_laidOut elem e he s hrest
  | Typ.ArrayType c elem len, t2, h, s, hs => by
    rw [rec] at h
    cases he : rec elem with
    | none => rw [he] at h; exact absurd h (by simp)
    | some e =>
      rw [he, Option.some_bind] at h
      cases h
      rw [reachableTypes] at hs
      rcases List.mem_cons.mp hs with rfl | hrest
      · trivial
      · exact rec_laidOut elem e he s hrest
  | Typ.StructType c fields padded, t2, h, s, hs => by
    obtain ⟨fs2, out, hl, ha, ht2⟩ := rec_struct h
    have hlaid := addAlignment_laidOut ha
    rw [ht2] at hs
    simp only [StructType.toTyp, reachableTypes] at hs
    rcases List.mem_cons.mp hs with rfl | hrest
    · exact hlaid
    · obtain ⟨f, hf, hsf⟩ := mem_reachableOfList.mp hrest
      rcases addAlignment_field_origin ha f hf with horig | ⟨sz, hpad⟩
      · exact recList_laidOut fields fs2 hl s (mem_reachableOfList.mpr ⟨f, horig, hsf⟩)
      · rw [hpad, reachableTypes_makePad, List.mem_singleton] at hsf
        rw [hsf]
        trivial
  | Typ.ResourceType r, t2, h, s, hs => by
    rw [rec] at h; cases h
    rw [reachableTypes, List.mem_singleton] at hs; rw [hs]; trivial
  | Typ.FileoffType c sz file, t2, h, s, hs => by
    rw [rec] at h; cases h
    rw [reachableTypes, List.mem_singleton] at hs; rw [hs]; trivial
  | Typ.BufferType c kind, t2, h, s, hs => by
    rw [rec] at h; cases h
    rw [reachableTypes, List.mem_singleton] at hs; rw [hs]; trivial
  | Typ.VmaType c, t2, h, s, hs => by
    rw [rec] at h; cases h
    rw [reachableTypes, List.mem_singleton] at hs; rw [hs]; trivial
  | Typ.LenType c sz buf, t2, h, s, hs => by
    rw [rec] at h; cases h
    rw [reachableTypes, List.mem_singleton] at hs; rw [hs]; trivial
  | Typ.FlagsType c sz vals, t2, h, s, hs => by
    rw [rec] at h; cases h
    rw [reachableTypes, List.mem_singleton] at hs; rw [hs]; trivial
  | Typ.ConstType c sz val isPad, t2, h, s, hs => by
    rw [rec] at h; cases h
    rw [reachableTypes, List.mem_singleton] at hs; rw [hs]; trivial
  | Typ.StrConstType c sz val, t2, h, s, hs => by
    rw [rec] at h; cases h
    rw [reachableTypes, List.mem_singleton] at hs; rw [hs]; trivial
  | Typ.IntType c sz kind, t2, h, s, hs => by
    rw [rec] at h; cases h
    rw [reachableTypes, List.mem_singleton] at hs; rw [hs]; trivial
  | Typ.FilenameType c, t2, h, s, hs => by
    rw [rec] at h; cases h
    rw [reachableTypes, List.mem_singleton] at hs; rw [hs]; trivial
theorem recList_laidOut : ∀ (fs fs2 : List Typ), recList fs = some fs2 →
    ∀ s ∈ reachableOfList fs2, LaidOut s
  | [], fs2, h, s, hs => by
    rw [recList] at h; cases h
    rw [reachableOfList] at hs
    exact absurd hs (List.not_mem_nil s)
  | f :: fs, fs2, h, s, hs => by
    rw [recList] at h
    cases hf : rec f with
    | none => rw [hf] at h; exact absurd h (by simp)
    | some f1 =>
      rw [hf, Option.some_bind] at h
      cases hr : recList fs with
      | none => rw [hr] at h; exact absurd h (by simp)
      | some fs1 =>
        rw [hr, Option.some_bind] at h
        cases h
        rw [reachableOfList] at hs
        rcases List.mem_append.mp hs with h1 | h2
        · exact rec_laidOut f f1 hf s h1
        · exact recList_laidOut fs fs1 hr s h2
end

/-! ## What the phases of `init` keep -/

theorem mapGet_cons {K V : Type} [DecidableEq K] (e : K × V) (m : List (K × V)) (k : K) :
    mapGet (e :: m) k = if e.1 = k then some e.2 else mapGet m k := rfl

theorem mapGet_mapSet {K V : Type} [DecidableEq K] (m : List (K × V)) (k k2 : K) (v : V) :
    mapGet (mapSet m k v) k2 = if k = k2 then some v else mapGet m k2 := by
  induction m with
  | nil => simp [mapSet, mapGet]
  | cons e m ih =>
    rw [mapSet]
    by_cases he : e.1 = k
    · rw [if_pos he, mapGet_cons, mapGet_cons]
      by_cases hk : k = k2
      · simp [hk]
      · have hne : ¬ e.1 = k2 := fun h => hk (he ▸ h)
        simp [hk, hne]
    · rw [if_neg he, mapGet_cons, mapGet_cons, ih]
      by_cases hk : k = k2
      · have hne : ¬ e.1 = k2 := fun h => he (h.trans hk.symm)
        simp [hk, hne]
      · simp [hk]

theorem resourcePositionsOfList_append (xs ys : List Typ) (dir : Dir) :
    resourcePositionsOfList (xs ++ ys) dir =
      resourcePositionsOfList xs dir ++ resourcePositionsOfList ys dir := by
  induction xs with
  | nil => simp [resourcePositionsOfList]
  | cons x xs ih => simp [resourcePositionsOfList, ih]

theorem resourcePositions_makePad (sz : Nat) (dir : Dir) :
    resourcePositions (makePad sz) dir = [] := by
  simp [makePad, resourcePositions]

/-- The layout of a struct keeps its resource positions: padding has none. -/
theorem addAlignment_positions {t out : StructType} (h : addAlignment t = some out)
    (dir : Dir) :
    resourcePositionsOfList out.Fields dir = resourcePositionsOfList t.Fields dir := by
  obtain ⟨st, hloop, hout⟩ := addAlignment_some h
  have hinv := layoutLoop_invariant t.Fields.length
    (fun done st => resourcePositionsOfList st.fields dir = resourcePositionsOfList done dir)
    (fun done i f st st1 hs hinv => by
      obtain ⟨a, _, _, _, _, _, hfields, _⟩ := layoutStep_some hs
      rw [hfields]
      split
      · simp [resourcePositionsOfList_append, resourcePositionsOfList,
          resourcePositions_makePad, hinv]
      · simp [resourcePositionsOfList_append, hinv])
    t.Fields [] 0 _ st hloop rfl
  simp only [List.nil_append] at hinv
  rw [hout]
  simp only [layoutFinish]
  split
  · simp [resourcePositionsOfList_append, resourcePositionsOfList, resourcePositions_makePad,
      hinv]
  · exact hinv

mutual
theorem rec_positions : ∀ (t t2 : Typ), rec t = some t2 →
    ∀ dir, resourcePositions t2 dir = resourcePositions t dir
  | Typ.PtrType c elem d, t2, h, dir => by
    rw [rec] at h
    cases he : rec elem with
    | none => rw [he] at h; exact absurd h (by simp)
    | some e =>
      rw [he, Option.some_bind] at h
      cases h
      rw [resourcePositions, resourcePositions]
      exact rec_positions elem e he d
  | Typ.ArrayType c elem len, t2, h, dir => by
    rw [rec] at h
    cases he : rec elem with
    | none => rw [he] at h; exact absurd h (by simp)
    | some e =>
      rw [he, Option.some_bind] at h
      cases h
      rw [resourcePositions, resourcePositions]
      exact rec_positions elem e he dir
  | Typ.StructType c fields padded, t2, h, dir => by
    obtain ⟨fs2, out, hl, ha, ht2⟩ := rec_struct h
    rw [ht2]
    simp only [StructType.toTyp]
    rw [resourcePositions, resourcePositions, addAlignment_positions ha dir]
    exact recList_positions fields fs2 hl dir
  | Typ.ResourceType r, t2, h, dir => by rw [rec] at h; cases h; rfl
  | Typ.FileoffType c sz file, t2, h, dir => by rw [rec] at h; cases h; rfl
  | Typ.BufferType c kind, t2, h, dir => by rw [rec] at h; cases h; rfl
  | Typ.VmaType c, t2, h, dir => by rw [rec] at h; cases h; rfl
  | Typ.LenType c sz buf, t2, h, dir => by rw [rec] at h; cases h; rfl
  | Typ.FlagsType c sz vals, t2, h, dir => by rw [rec] at h; cases h; rfl
  | Typ.ConstType c sz val isPad, t2, h, dir => by rw [rec] at h; cases h; rfl
  | Typ.StrConstType c sz val, t2, h, dir => by rw [rec] at h; cases h; rfl
  | Typ.IntType c sz kind, t2, h, dir => by rw [rec] at h; cases h; rfl
  | Typ.FilenameType c, t2, h, dir => by rw [rec] at h; cases h; rfl
theorem recList_positions : ∀ (fs fs2 : List Typ), recList fs = some fs2 →
    ∀ dir, resourcePositionsOfList fs2 dir = resourcePositionsOfList fs dir
  | [], fs2, h, dir => by rw [recList] at h; cases h; rfl
  | f :: fs, fs2, h, dir => by
    rw [recList] at h
    cases hf : rec f with
    | none => rw [hf] at h; exact absurd h (by simp)
    | some f1 =>
      rw [hf, Option.some_bind] at h
      cases hr : recList fs with
      | none => rw [hr] at h; exact absurd h (by simp)
      | some fs1 =>
        rw [hr, Option.some_bind] at h
        cases h
        rw [resourcePositionsOfList, resourcePositionsOfList, rec_positions f f1 hf dir,
          recList_positions fs fs1 hr dir]
end

theorem recRet_some {ret : Option Typ} {ret2 : Option Typ} (h : recRet ret = some ret2) :
    (ret = none ∧ ret2 = none) ∨ ∃ r r2, ret = some r ∧ ret2 = some r2 ∧ rec r = some r2 := by
  cases ret with
  | none => rw [recRet] at h; exact Or.inl ⟨rfl, (Option.some.inj h).symm⟩
  | some r =>
    rw [recRet] at h
    cases hr : rec r with
    | none => rw [hr] at h; exact absurd h (by simp)
    | some r2 =>
      rw [hr, Option.some_bind] at h
      exact Or.inr ⟨r, r2, rfl, (Option.some.inj h).symm, hr⟩

theorem sameCall_refl (a : Call) : SameCall a a := ⟨rfl, rfl, rfl, rfl, rfl⟩

theorem sameCall_trans {a b c : Call} (h1 : SameCall a b) (h2 : SameCall b c) :
    SameCall a c :=
  ⟨h1.1.trans h2.1, h1.2.1.trans h2.2.1, h1.2.2.1.trans h2.2.2.1,
    h1.2.2.2.1.trans h2.2.2.2.1, h1.2.2.2.2.trans h2.2.2.2.2⟩

theorem initNumbers_same : ∀ (rest : List CallPtr) (heap heap1 : Heap),
    initNumbers rest heap = some heap1 → ∀ p, SameCall (heap1 p) (heap p) := by
  intro rest
  induction rest with
  | nil => intro heap heap1 h p; rw [initNumbers] at h; cases h; exact sameCall_refl _
  | cons c rest ih =>
    intro heap heap1 h p
    rw [initNumbers] at h
    cases hn : numberOf (heap c).ID with
    | none => rw [hn] at h; exact absurd h (by simp)
    | some nr =>
      rw [hn, Option.some_bind] at h
      refine sameCall_trans (ih _ heap1 h p) ?_
      by_cases hp : p = c
      · subst hp
        rw [Function.update_same]
        exact ⟨rfl, rfl, rfl, rfl, rfl⟩
      · rw [Function.update_noteq hp]
        exact sameCall_refl _

/-- The layout phase of `init` keeps the names and the resource positions of
every call, and leaves the calls of the registry laid out. -/
theorem initLayout_facts : ∀ (rest : List CallPtr) (heap heap2 : Heap),
    initLayout rest heap = some heap2 →
      (∀ p, SameCall (heap2 p) (heap p)) ∧
      (∀ p, CallLaidOut (heap p) → CallLaidOut (heap2 p)) ∧
      ∀ c ∈ rest, CallLaidOut (heap2 c) := by
  intro rest
  induction rest with
  | nil =>
    intro heap heap2 h
    rw [initLayout] at h
    cases h
    exact ⟨fun p => sameCall_refl _, fun p hp => hp,
      fun c hc => absurd hc (List.not_mem_nil c)⟩
  | cons c rest ih =>
    intro heap heap2 h
    rw [initLayout] at h
    cases ha : recList (heap c).Args with
    | none => rw [ha] at h; exact absurd h (by simp)
    | some args =>
      rw [ha, Option.some_bind] at h
      cases hr : recRet (heap c).Ret with
      | none => rw [hr] at h; exact absurd h (by simp)
      | some ret =>
        rw [hr, Option.some_bind] at h
        obtain ⟨hsame, hkeep, hrest⟩ := ih _ heap2 h
        have hnew : CallLaidOut { heap c with Args := args, Ret := ret } := by
          refine ⟨recList_laidOut _ args ha, ?_⟩
          intro r2 hr2 s hs
          rcases recRet_some hr with ⟨_, hnone⟩ | ⟨r, r3, _, hsome, hrec⟩
          · rw [hnone] at hr2; exact absurd hr2 (by simp)
          · rw [hsome] at hr2
            rw [← Option.some.inj hr2] at hs
            exact rec_laidOut r r3 hrec s hs
        have hsameNew : SameCall { heap c with Args := args, Ret := ret } (heap c) := by
          refine ⟨rfl, rfl, rfl, ?_, ?_⟩
          · exact recList_positions _ args ha Dir.DirIn
          · rcases recRet_some hr with ⟨h1, h2⟩ | ⟨r, r3, h1, h2, hrec⟩
            · simp only [retPositions]
              rw [h1, h2]
            · simp only [retPositions]
              rw [h1, h2]
              exact rec_positions r r3 hrec Dir.DirOut
        have hupd : ∀ p, CallLaidOut (heap p) →
            CallLaidOut (Function.update heap c { heap c with Args := args, Ret := ret } p) := by
          intro p hp
          by_cases hpc : p = c
          · subst hpc; rw [Function.update_same]; exact hnew
          · rw [Function.update_noteq hpc]; exact hp
        refine ⟨?_, fun p hp => hkeep p (hupd p hp), ?_⟩
        · intro p
          refine sameCall_trans (hsame p) ?_
          by_cases hpc : p = c
          · subst hpc; rw [Function.update_same]; exact hsameNew
          · rw [Function.update_noteq hpc]; exact sameCall_refl _
        · intro d hd
          rcases List.mem_cons.mp hd with rfl | hd2
          · apply hkeep
            rw [Function.update_same]
            exact hnew
          · exact hrest d hd2

/-! ## The registration of the names -/

theorem mapGet_mem {K V : Type} [DecidableEq K] (m : List (K × V)) (k : K) (v : V)
    (h : mapGet m k = some v) : (k, v) ∈ m := by
  induction m with
  | nil => simp [mapGet] at h
  | cons e m ih =>
    rw [mapGet_cons] at h
    by_cases he : e.1 = k
    · rw [if_pos he] at h
      have hv : e.2 = v := Option.some.inj h
      have : e = (k, v) := Prod.ext he hv
      rw [this]
      exact List.mem_cons_self _ _
    · rw [if_neg he] at h
      exact List.mem_cons_of_mem _ (ih h)

theorem mapGet_isSome_iff {K V : Type} [DecidableEq K] (m : List (K × V)) (k : K) :
    (mapGet m k).isSome = true ↔ k ∈ m.map Prod.fst := by
  induction m with
  | nil => simp [mapGet]
  | cons e m ih =>
    rw [mapGet_cons]
    by_cases he : e.1 = k
    · simp [he]
    · rw [if_neg he, ih]
      simp only [List.map_cons, List.mem_cons]
      constructor
      · exact Or.inr
      · rintro (h | h)
        · exact absurd h.symm he
        · exact h

theorem mapGet_eq_none_iff {K V : Type} [DecidableEq K] (m : List (K × V)) (k : K) :
    mapGet m k = none ↔ k ∉ m.map Prod.fst := by
  rw [← mapGet_isSome_iff]
  cases mapGet m k <;> simp

theorem mapSet_absent {K V : Type} [DecidableEq K] (m : List (K × V)) (k : K) (v : V)
    (h : mapGet m k = none) : mapSet m k v = m ++ [(k, v)] := by
  induction m with
  | nil => rfl
  | cons e m ih =>
    rw [mapGet_cons] at h
    by_cases he : e.1 = k
    · rw [if_pos he] at h; exact absurd h (by simp)
    · rw [if_neg he] at h
      rw [mapSet, if_neg he, ih h, List.cons_append]

theorem mapGet_of_mem {K V : Type} [DecidableEq K] (m : List (K × V)) (k : K) (v : V)
    (hnd : (m.map Prod.fst).Nodup) (h : (k, v) ∈ m) : mapGet m k = some v := by
  induction m with
  | nil => exact absurd h (List.not_mem_nil _)
  | cons e m ih =>
    rw [List.map_cons, List.nodup_cons] at hnd
    rw [mapGet_cons]
    rcases List.mem_cons.mp h with heq | hrest
    · rw [← heq]; simp
    · have hne : ¬ e.1 = k := by
        intro he
        apply hnd.1
        rw [he]
        exact List.mem_map.mpr ⟨(k, v), hrest, rfl⟩
      rw [if_neg hne]
      exact ih hnd.2 hrest

/-- The effect of one iteration of the last loop of `init`. -/
theorem nameStep_some {c : CallPtr} {s s1 : NameState} (h : nameStep c s = some s1) :
    mapGet s.CallMap (s.heap c).Name = none ∧
      s1.CallMap = mapSet s.CallMap (s.heap c).Name c ∧
      ∃ id : Int, s1.heap = Function.update s.heap c { s.heap c with CallID := id } ∧
        ((mapGet s.CallID (s.heap c).CallName = some id ∧ s1.CallID = s.CallID) ∨
          (mapGet s.CallID (s.heap c).CallName = none ∧ id = (s.CallID.length : Int) ∧
            s1.CallID = s.CallID ++ [((s.heap c).CallName, (s.CallID.length : Int))])) := by
  unfold nameStep at h
  cases hm : mapGet s.CallMap (s.heap c).Name with
  | some v => simp [hm] at h
  | none =>
    simp only [hm, Option.isSome_none, Bool.false_eq_true, if_false] at h
    cases hid : mapGet s.CallID (s.heap c).CallName with
    | some id =>
      simp only [hid] at h
      cases h
      exact ⟨rfl, rfl, id, rfl, Or.inl ⟨rfl, rfl⟩⟩
    | none =>
      simp only [hid] at h
      cases h
      exact ⟨rfl, rfl, _, rfl, Or.inr ⟨rfl, rfl, mapSet_absent _ _ _ hid⟩⟩

theorem nameStep_isSome {c : CallPtr} {s : NameState}
    (h : mapGet s.CallMap (s.heap c).Name = none) : ∃ s1, nameStep c s = some s1 := by
  unfold nameStep
  simp only [h, Option.isSome_none, Bool.false_eq_true, if_false]
  exact ⟨_, rfl⟩

theorem nameStep_none {c : CallPtr} {s : NameState}
    (h : (mapGet s.CallMap (s.heap c).Name).isSome = true) : nameStep c s = none := by
  unfold nameStep
  rw [if_pos h]

theorem nameStep_same {c : CallPtr} {s s1 : NameState} (h : nameStep c s = some s1) (p : CallPtr) :
    SameButCallID (s1.heap p) (s.heap p) := by
  obtain ⟨_, _, id, hheap, _⟩ := nameStep_some h
  rw [hheap]
  by_cases hp : p = c
  · subst hp
    rw [Function.update_same]
    exact ⟨rfl, rfl, rfl, rfl, rfl, rfl⟩
  · rw [Function.update_noteq hp]
    exact ⟨rfl, rfl, rfl, rfl, rfl, rfl⟩

/-- An invariant of the iterations that also follows the calls already
registered holds after the last loop of `init`. -/
theorem initNames_invariant (Inv : List CallPtr → NameState → Prop)
    (hstep : ∀ (done : List CallPtr) (c : CallPtr) (s s1 : NameState),
      nameStep c s = some s1 → Inv done s → Inv (done ++ [c]) s1) :
    ∀ (rest done : List CallPtr) (s s1 : NameState),
      initNames rest s = some s1 → Inv done s → Inv (done ++ rest) s1 := by
  intro rest
  induction rest with
  | nil =>
    intro done s s1 h hinv
    rw [initNames] at h
    cases h
    simpa using hinv
  | cons c rest ih =>
    intro done s s1 h hinv
    rw [initNames] at h
    cases hs : nameStep c s with
    | none => rw [hs] at h; exact absurd h (by simp)
    | some s2 =>
      rw [hs, Option.some_bind] at h
      have h2 := ih (done ++ [c]) s2 s1 h (hstep done c s s2 hs hinv)
      simpa using h2

theorem initNames_same : ∀ (rest : List CallPtr) (s s1 : NameState),
    initNames rest s = some s1 → ∀ p, SameButCallID (s1.heap p) (s.heap p) := by
  intro rest s s1 h p
  have hinv := initNames_invariant (fun _ t => SameButCallID (t.heap p) (s.heap p))
    (fun done c t t1 hs hinv => by
      obtain ⟨h1, h2, h3, h4, h5, h6⟩ := nameStep_same hs p
      obtain ⟨g1, g2, g3, g4, g5, g6⟩ := hinv
      exact ⟨h1.trans g1, h2.trans g2, h3.trans g3, h4.trans g4, h5.trans g5, h6.trans g6⟩)
    rest [] s s1 h ⟨rfl, rfl, rfl, rfl, rfl, rfl⟩
  exact hinv

/-- The last loop of `init` fails exactly when a name comes twice among the
calls still to register, or is already a key of `CallMap`. -/
theorem initNames_none_iff (nm : CallPtr → String) :
    ∀ (rest : List CallPtr) (s : NameState), (∀ p, (s.heap p).Name = nm p) →
      (initNames rest s = none ↔
        ¬ (rest.map nm).Nodup ∨ ∃ c ∈ rest, (mapGet s.CallMap (nm c)).isSome = true) := by
  intro rest
  induction rest with
  | nil => intro s _; simp [initNames]
  | cons c rest ih =>
    intro s hnm
    rw [initNames]
    cases hm : mapGet s.CallMap (nm c) with
    | some v =>
      have hsome : (mapGet s.CallMap (s.heap c).Name).isSome = true := by
        rw [hnm c, hm]; rfl
      rw [nameStep_none hsome]
      simp only [Option.none_bind, true_iff]
      exact Or.inr ⟨c, List.mem_cons_self c rest, by rw [hm]; rfl⟩
    | none =>
      have hnone : mapGet s.CallMap (s.heap c).Name = none := by rw [hnm c, hm]
      obtain ⟨s1, hs1⟩ := nameStep_isSome hnone
      rw [hs1, Option.some_bind]
      have hnm1 : ∀ p, (s1.heap p).Name = nm p := fun p =>
        (nameStep_same hs1 p).2.2.1.trans (hnm p)
      obtain ⟨_, hcm, _⟩ := nameStep_some hs1
      rw [ih s1 hnm1, hcm, hnm c, List.map_cons, List.nodup_cons]
      constructor
      · rintro (hnd | ⟨d, hd, hsome⟩)
        · exact Or.inl (fun hc => hnd hc.2)
        · rw [mapGet_mapSet] at hsome
          by_cases heq : nm c = nm d
          · exact Or.inl (fun hc => hc.1 (heq ▸ List.mem_map_of_mem nm hd))
          · rw [if_neg heq] at hsome
            exact Or.inr ⟨d, List.mem_cons_of_mem c hd, hsome⟩
      · rintro (hnd | ⟨d, hd, hsome⟩)
        · by_cases hmem : nm c ∈ rest.map nm
          · obtain ⟨d, hd, hdc⟩ := List.mem_map.mp hmem
            refine Or.inr ⟨d, hd, ?_⟩
            rw [mapGet_mapSet, if_pos hdc.symm]
            rfl
          · exact Or.inl (fun hc => hnd ⟨hmem, hc⟩)
        · rcases List.mem_cons.mp hd with rfl | hd2
          · rw [hm] at hsome
            exact absurd hsome (by simp)
          · refine Or.inr ⟨d, hd2, ?_⟩
            rw [mapGet_mapSet]
            split
            · rfl
            · exact hsome

theorem mapGet_range_lt (m : List (String × Int)) (k : String) (a : Int)
    (hval : m.map Prod.snd = (List.range m.length).map Int.ofNat)
    (h : mapGet m k = some a) : 0 ≤ a ∧ a < (m.length : Int) := by
  have hmem : a ∈ m.map Prod.snd := List.mem_map.mpr ⟨(k, a), mapGet_mem m k a h, rfl⟩
  rw [hval] at hmem
  obtain ⟨i, hi, hia⟩ := List.mem_map.mp hmem
  rw [List.mem_range] at hi
  rw [← hia]
  constructor
  · exact Int.ofNat_nonneg i
  · exact Int.ofNat_lt.mpr hi

theorem namesInv_step (nm fam : CallPtr → String) (done : List CallPtr) (c : CallPtr)
    (s s1 : NameState) (hs : nameStep c s = some s1) (hinv : NamesInv nm fam done s) :
    NamesInv nm fam (done ++ [c]) s1 := by
  obtain ⟨hnames, hnd, hcmKeys, hcmVal, hval, hkeysNd, hkeys, hids, hord⟩ := hinv
  obtain ⟨hnone, hcm, id, hheap, hcase⟩ := nameStep_some hs
  rw [(hnames c).1] at hnone hcm
  rw [(hnames c).2] at hcase
  have hnotin : nm c ∉ done.map nm := by
    intro hmem
    have := (hcmKeys (nm c)).mpr hmem
    rw [hnone] at this
    exact absurd this (by simp)
  have hcnot : c ∉ done := fun hc => hnotin (List.mem_map_of_mem nm hc)
  have hheapOther : ∀ d ∈ done, s1.heap d = s.heap d := by
    intro d hd
    rw [hheap, Function.update_noteq (fun h => hcnot (by rw [← h]; exact hd))]
  have hheapSelf : (s1.heap c).CallID = id := by
    rw [hheap, Function.update_same]
  have hcid : s1.CallID = s.CallID ∧ mapGet s.CallID (fam c) = some id ∨
      (mapGet s.CallID (fam c) = none ∧ id = (s.CallID.length : Int) ∧
        s1.CallID = s.CallID ++ [(fam c, (s.CallID.length : Int))] ∧
        s1.CallID = mapSet s.CallID (fam c) (s.CallID.length : Int)) := by
    rcases hcase with ⟨h1, h2⟩ | ⟨h1, h2, h3⟩
    · exact Or.inl ⟨h2, h1⟩
    · exact Or.inr ⟨h1, h2, h3, by rw [h3, mapSet_absent _ _ _ h1]⟩
  refine ⟨?_, ?_, ?_, ?_, ?_⟩
  · intro p
    obtain ⟨_, _, h3, h4, _, _⟩ := nameStep_same hs p
    exact ⟨h3.trans (hnames p).1, h4.trans (hnames p).2⟩
  · rw [List.map_append, List.nodup_append]
    refine ⟨hnd, by simp, ?_⟩
    intro x hx hx2
    rw [List.map_cons, List.map_nil, List.mem_singleton] at hx2
    rw [hx2] at hx
    exact hnotin hx
  · intro k
    rw [hcm, mapGet_mapSet, List.map_append, List.mem_append, List.map_cons, List.map_nil,
      List.mem_singleton]
    by_cases hk : nm c = k
    · simp [hk]
    · rw [if_neg hk, hcmKeys k]
      constructor
      · exact Or.inl
      · rintro (h | h)
        · exact h
        · exact absurd h.symm hk
  · intro d hd
    rw [hcm, mapGet_mapSet]
    rcases List.mem_append.mp hd with hd1 | hd2
    · have hne : ¬ nm c = nm d := fun h => hnotin (h ▸ List.mem_map_of_mem nm hd1)
      rw [if_neg hne]
      exact hcmVal d hd1
    · rw [List.mem_singleton.mp hd2, if_pos rfl]
  · rcases hcid with ⟨hsame, hget⟩ | ⟨hnoneId, hidlen, happ, hset⟩
    · have hfam : fam c ∈ done.map fam := by
        rw [← hkeys, ← mapGet_isSome_iff, hget]; rfl
      rw [hsame]
      refine ⟨hval, hkeysNd, ?_, ?_, ?_⟩
      · intro k
        rw [hkeys k, List.map_append, List.mem_append, List.map_cons, List.map_nil,
          List.mem_singleton]
        constructor
        · exact Or.inl
        · rintro (h | h)
          · exact h
          · rw [h]; exact hfam
      · intro d hd
        rcases List.mem_append.mp hd with hd1 | hd2
        · rw [hheapOther d hd1]; exact hids d hd1
        · rw [List.mem_singleton.mp hd2, hheapSelf]; exact hget
      · intro A B a b hlt hB hA hBv
        simp only [List.map_append, List.map_cons, List.map_nil, List.mem_append,
          List.mem_singleton] at hlt hB
        have hBm : B ∈ done.map fam := by
          rcases hB with h | h
          · exact h
          · rw [h]; exact hfam
        have hAm : A ∈ done.map fam := by
          rw [← hkeys, ← mapGet_isSome_iff, hA]; rfl
        rw [List.indexOf_append_of_mem hAm, List.indexOf_append_of_mem hBm] at hlt
        exact hord A B a b hlt hBm hA hBv
    · have hfam : fam c ∉ done.map fam := by
        rw [← hkeys]
        exact (mapGet_eq_none_iff _ _).mp hnoneId
      refine ⟨?_, ?_, ?_, ?_, ?_⟩
      · rw [happ, List.map_append, List.length_append, List.length_singleton, List.range_succ,
          List.map_append, hval]
        rfl
      · rw [happ, List.map_append, List.nodup_append]
        refine ⟨hkeysNd, by simp, ?_⟩
        intro x hx hx2
        rw [List.map_cons, List.map_nil, List.mem_singleton] at hx2
        rw [hx2] at hx
        exact (mapGet_eq_none_iff _ _).mp hnoneId hx
      · intro k
        rw [happ, List.map_append, List.mem_append, List.map_append, List.mem_append, hkeys k]
        simp
      · intro d hd
        rw [hset, mapGet_mapSet]
        rcases List.mem_append.mp hd with hd1 | hd2
        · have hne : ¬ fam c = fam d := fun h => hfam (h ▸ List.mem_map_of_mem fam hd1)
          rw [if_neg hne, hheapOther d hd1]
          exact hids d hd1
        · rw [List.mem_singleton.mp hd2, if_pos rfl, hheapSelf, hidlen]
      · intro A B a b hlt hB hA hBv
        rw [hset, mapGet_mapSet] at hA hBv
        simp only [List.map_append, List.map_cons, List.map_nil, List.mem_append,
          List.mem_singleton] at hlt hB
        by_cases hAc : fam c = A
        · exfalso
          rw [← hAc, List.indexOf_append_of_not_mem hfam, List.indexOf_cons_self] at hlt
          have hBcase : List.indexOf B (done.map fam ++ [fam c]) ≤ (done.map fam).length := by
            rcases hB with h | h
            · rw [List.indexOf_append_of_mem h]
              exact List.indexOf_le_length
            · rw [h, List.indexOf_append_of_not_mem hfam, List.indexOf_cons_self]
              exact le_refl _
          omega
        · rw [if_neg hAc] at hA
          by_cases hBc : fam c = B
          · rw [if_pos hBc] at hBv
            rw [← Option.some.inj hBv]
            exact (mapGet_range_lt s.CallID A a hval hA).2
          · rw [if_neg hBc] at hBv
            have hBm : B ∈ done.map fam := by
              rcases hB with h | h
              · exact h
              · exact absurd h.symm hBc
            have hAm : A ∈ done.map fam := by
              rw [← hkeys, ← mapGet_isSome_iff, hA]; rfl
            rw [List.indexOf_append_of_mem hAm, List.indexOf_append_of_mem hBm] at hlt
            exact hord A B a b hlt hBm hA hBv

/-! ## The properties of `init` -/

theorem init_some {Calls : List CallPtr} {heap : Heap} {st : InitState}
    (h : init Calls heap = some st) :
    ∃ ctors heap1 heap2 s, initResources Calls heap = some ctors ∧
      initNumbers Calls heap = some heap1 ∧ initLayout Calls heap1 = some heap2 ∧
      initNames Calls { heap := heap2, CallMap := [], CallID := [] } = some s ∧
      st = { heap := s.heap, ctors := ctors, CallMap := s.CallMap, CallID := s.CallID,
             CallCount := (s.CallID.length : Int) } := by
  unfold init at h
  cases h1 : initResources Calls heap with
  | none => rw [h1] at h; exact absurd h (by simp)
  | some ctors =>
    rw [h1, Option.some_bind] at h
    cases h2 : initNumbers Calls heap with
    | none => rw [h2] at h; exact absurd h (by simp)
    | some heap1 =>
      rw [h2, Option.some_bind] at h
      cases h3 : initLayout Calls heap1 with
      | none => rw [h3] at h; exact absurd h (by simp)
      | some heap2 =>
        rw [h3, Option.some_bind] at h
        cases h4 : initNames Calls { heap := heap2, CallMap := [], CallID := [] } with
        | none => rw [h4] at h; exact absurd h (by simp)
        | some s =>
          rw [h4, Option.some_bind] at h
          exact ⟨ctors, heap1, heap2, s, rfl, rfl, h3, h4, (Option.some.inj h).symm⟩

theorem namesInv_init (heap2 : Heap) :
    NamesInv (fun p => (heap2 p).Name) (fun p => (heap2 p).CallName) []
      { heap := heap2, CallMap := [], CallID := [] } := by
  refine ⟨fun p => ⟨rfl, rfl⟩, List.nodup_nil, ?_, ?_, rfl, List.nodup_nil, ?_, ?_, ?_⟩
  · intro k; simp [mapGet]
  · intro c hc; exact absurd hc (List.not_mem_nil c)
  · intro k; simp
  · intro c hc; exact absurd hc (List.not_mem_nil c)
  · intro A B a b _ hB; exact absurd hB (List.not_mem_nil B)

theorem initNames_namesInv {Calls : List CallPtr} {heap2 : Heap} {s : NameState}
    (h : initNames Calls { heap := heap2, CallMap := [], CallID := [] } = some s) :
    NamesInv (fun p => (heap2 p).Name) (fun p => (heap2 p).CallName) Calls s := by
  have hinv := initNames_invariant
    (NamesInv (fun p => (heap2 p).Name) (fun p => (heap2 p).CallName))
    (namesInv_step _ _) Calls [] _ s h (namesInv_init heap2)
  simpa using hinv

theorem not_nodup_map_iff (nm : CallPtr → String) (Calls : List CallPtr) :
    ¬ (Calls.map nm).Nodup ↔
      ∃ (i j : Nat) (c d : CallPtr), i < j ∧ Calls[i]? = some c ∧ Calls[j]? = some d ∧
        nm c = nm d := by
  rw [List.nodup_iff_getElem?_ne_getElem?]
  constructor
  · intro hn
    by_contra hcon
    apply hn
    intro i j hij hj heq
    rw [List.length_map] at hj
    have hi : i < Calls.length := lt_trans hij hj
    rw [List.getElem?_map, List.getElem?_map, List.getElem?_eq_getElem hi,
      List.getElem?_eq_getElem hj] at heq
    exact hcon ⟨i, j, Calls[i], Calls[j], hij, List.getElem?_eq_getElem hi,
      List.getElem?_eq_getElem hj, Option.some.inj heq⟩
  · rintro ⟨i, j, c, d, hij, hc, hd, heq⟩ hall
    have hj : j < Calls.length := by
      by_contra hge
      rw [List.getElem?_eq_none (not_lt.mp hge)] at hd
      exact absurd hd (by simp)
    apply hall i j hij (by rw [List.length_map]; exact hj)
    rw [List.getElem?_map, List.getElem?_map, hc, hd]
    simp [heq]

theorem initSubkinds_get (Calls : List CallPtr) (heap : Heap) (kind : ResourceKind)
    (sks : List ResourceSubkind) :
    ∀ (inner : List (ResourceSubkind × List CallPtr)) (sk : ResourceSubkind),
      mapGet (initSubkinds Calls heap kind sks inner) sk =
        if sk ∈ sks then some (ResourceCtors Calls heap kind sk false) else mapGet inner sk := by
  induction sks with
  | nil => intro inner sk; simp [initSubkinds]
  | cons x sks ih =>
    intro inner sk
    rw [initSubkinds, ih, mapGet_mapSet]
    by_cases h1 : sk ∈ sks
    · simp [h1]
    · by_cases h2 : x = sk
      · simp [h2]
      · have h3 : ¬ sk = x := fun h => h2 h.symm
        simp [h1, h2, h3]

theorem initKinds_get (Calls : List CallPtr) (heap : Heap) :
    ∀ (kinds : List ResourceKind) (ctors ctors2 : CtorCache),
      initKinds Calls heap kinds ctors = some ctors2 →
      ∀ kind, (kind ∈ kinds → ∃ sks, ResourceSubkinds kind = some sks ∧
          mapGet ctors2 kind = some (initSubkinds Calls heap kind sks [])) ∧
        (kind ∉ kinds → mapGet ctors2 kind = mapGet ctors kind) := by
  intro kinds
  induction kinds with
  | nil =>
    intro ctors ctors2 h kind
    rw [initKinds] at h
    cases h
    exact ⟨fun hk => absurd hk (List.not_mem_nil kind), fun _ => rfl⟩
  | cons k kinds ih =>
    intro ctors ctors2 h kind
    rw [initKinds] at h
    cases hs : ResourceSubkinds k with
    | none => rw [hs] at h; exact absurd h (by simp)
    | some sks0 =>
      rw [hs, Option.some_bind] at h
      obtain ⟨hin, hout⟩ := ih _ ctors2 h kind
      constructor
      · intro hk
        by_cases hrest : kind ∈ kinds
        · exact hin hrest
        · have hkk : kind = k := by
            rcases List.mem_cons.mp hk with h1 | h1
            · exact h1
            · exact absurd h1 hrest
          refine ⟨sks0, by rw [hkk]; exact hs, ?_⟩
          rw [hout hrest, mapGet_mapSet, if_pos hkk.symm, hkk]
      · intro hk
        have hne : ¬ k = kind := fun h1 => hk (h1 ▸ List.mem_cons_self k kinds)
        have hrest : kind ∉ kinds := fun h1 => hk (List.mem_cons_of_mem k h1)
        rw [hout hrest, mapGet_mapSet, if_neg hne]

theorem producesSpec_same (kind : ResourceKind) (sk : ResourceSubkind) (precise : Bool)
    {a b : Call} (h : SameCall a b) :
    producesSpec kind sk precise a = producesSpec kind sk precise b := by
  unfold producesSpec
  rw [h.2.2.2.1, h.2.2.2.2]

theorem resourceCtors_same (Calls : List CallPtr) {heap heap2 : Heap}
    (h : ∀ p, SameCall (heap2 p) (heap p)) (kind : ResourceKind) (sk : ResourceSubkind)
    (precise : Bool) :
    ResourceCtors Calls heap2 kind sk precise = ResourceCtors Calls heap kind sk precise := by
  unfold ResourceCtors
  rw [ctorsLoop_eq, ctorsLoop_eq]
  congr 1
  apply List.filter_congr
  intro m _
  exact producesSpec_same kind sk precise (h m)

theorem sameCall_of_sameButCallID {a b : Call} (h : SameButCallID a b) : SameCall a b := by
  obtain ⟨h1, _, h3, h4, h5, h6⟩ := h
  refine ⟨h1, h3, h4, ?_, ?_⟩
  · unfold argPositions; rw [h5]
  · unfold retPositions; rw [h6]

theorem callLaidOut_of_same {a b : Call} (h : SameButCallID a b) (hb : CallLaidOut b) :
    CallLaidOut a := by
  obtain ⟨_, _, _, _, h5, h6⟩ := h
  unfold CallLaidOut
  rw [h5, h6]
  exact hb

/-- The calls after `init` have the identity, names and resource positions
that they had before, and are laid out. -/
theorem init_same {Calls : List CallPtr} {heap : Heap} {st : InitState}
    (h : init Calls heap = some st) :
    (∀ p, SameCall (st.heap p) (heap p)) ∧ ∀ c ∈ Calls, CallLaidOut (st.heap c) := by
  obtain ⟨ctors, heap1, heap2, s, _, h2, h3, h4, hst⟩ := init_some h
  obtain ⟨hsame3, _, hlaid⟩ := initLayout_facts Calls heap1 heap2 h3
  have hsame4 := initNames_same Calls _ s h4
  rw [hst]
  constructor
  · intro p
    exact sameCall_trans (sameCall_of_sameButCallID (hsame4 p))
      (sameCall_trans (hsame3 p) (initNumbers_same Calls heap heap1 h2 p))
  · intro c hc
    exact callLaidOut_of_same (hsame4 c) (hlaid c hc)

theorem initResources_isSome (Calls : List CallPtr) (heap : Heap) :
    ∃ ctors, initResources Calls heap = some ctors :=
  ⟨_, rfl⟩

/-- C11. When the numbers and the layout succeed, the loop of `init` that
registers the names fails, and `init` with it, exactly when two entries of
`Calls` at different indices have the same `Name`; when `init` succeeds,
`CallMap` maps the `Name` of each call of `Calls` to that call. -/
theorem init_duplicate_names (Calls : List CallPtr) (heap heap1 heap2 : Heap)
    (hnum : initNumbers Calls heap = some heap1)
    (hlay : initLayout Calls heap1 = some heap2) :
    (initNames Calls { heap := heap2, CallMap := [], CallID := [] } = none ↔
        ∃ (i j : Nat) (c d : CallPtr), i < j ∧ Calls[i]? = some c ∧ Calls[j]? = some d ∧
          (heap2 c).Name = (heap2 d).Name) ∧
      (init Calls heap = none ↔
        ∃ (i j : Nat) (c d : CallPtr), i < j ∧ Calls[i]? = some c ∧ Calls[j]? = some d ∧
          (heap c).Name = (heap d).Name) ∧
      ∀ st, init Calls heap = some st →
        ∀ c ∈ Calls, mapGet st.CallMap (st.heap c).Name = some c := by
  have hloop : initNames Calls { heap := heap2, CallMap := [], CallID := [] } = none ↔
      ∃ (i j : Nat) (c d : CallPtr), i < j ∧ Calls[i]? = some c ∧ Calls[j]? = some d ∧
        (heap2 c).Name = (heap2 d).Name := by
    rw [initNames_none_iff (fun p => (heap2 p).Name) Calls _ (fun p => rfl),
      ← not_nodup_map_iff]
    constructor
    · rintro (h | ⟨c, _, hc⟩)
      · exact h
      · simp [mapGet] at hc
    · exact Or.inl
  have hname : ∀ p, (heap2 p).Name = (heap p).Name := fun p =>
    ((initLayout_facts Calls heap1 heap2 hlay).1 p).2.1.trans
      (initNumbers_same Calls heap heap1 hnum p).2.1
  refine ⟨hloop, ?_, ?_⟩
  · obtain ⟨ctors, hres⟩ := initResources_isSome Calls heap
    have hinit : init Calls heap = none ↔
        initNames Calls { heap := heap2, CallMap := [], CallID := [] } = none := by
      unfold init
      rw [hres, Option.some_bind, hnum, Option.some_bind, hlay, Option.some_bind]
      cases initNames Calls { heap := heap2, CallMap := [], CallID := [] } <;> simp
    rw [hinit, hloop]
    simp only [hname]
  · intro st hst c hc
    obtain ⟨_, h1, h2, s, _, hn, hl, hs, hval⟩ := init_some hst
    obtain ⟨hnames, _, _, hcm, _⟩ := initNames_namesInv hs
    rw [hval]
    simp only
    rw [(hnames c).1]
    exact hcm c hc

set_option maxRecDepth 100000 in
/-- C11, on a registry with the call at address 0 at the indices 0 and 2:
`init` fails; without the repetition it succeeds and `CallMap` has the two
names. -/
theorem init_duplicate_names_witness :
    (∃ heap1 heap2, initNumbers dupCalls initHeap = some heap1 ∧
        initLayout dupCalls heap1 = some heap2 ∧ init dupCalls initHeap = none) ∧
      (init [0, 1] initHeap).map (fun st => st.CallMap) = some [("fstat", 0), ("open", 1)] := by
  refine ⟨⟨_, _, rfl, rfl, ?_⟩, by decide⟩
  exact (init_duplicate_names dupCalls initHeap _ _ rfl rfl).2.1.mpr
    ⟨0, 2, 0, 0, by decide, rfl, rfl, rfl⟩

theorem range_ofNat_nodup (n : Nat) : ((List.range n).map Int.ofNat).Nodup :=
  (List.nodup_range n).map (fun _ _ h => Int.ofNat.inj h)

/-- C12. After a successful `init`, two calls of the registry have the same
`CallID` exactly when they have the same `CallName`; the values of `CallID`
are exactly the integers from 0 to `CallCount - 1`, and `CallCount` is the
number of distinct `CallName`s; a family whose first call comes earlier in
`Calls` has the smaller `CallID`. -/
theorem init_family_index (Calls : List CallPtr) (heap : Heap) (st : InitState)
    (h : init Calls heap = some st) :
    (∀ c ∈ Calls, ∀ d ∈ Calls,
        ((st.heap c).CallID = (st.heap d).CallID ↔
          (st.heap c).CallName = (st.heap d).CallName)) ∧
      (∀ n : Int, (∃ c ∈ Calls, (st.heap c).CallID = n) ↔ 0 ≤ n ∧ n < st.CallCount) ∧
      st.CallCount = ((Calls.map fun c => (st.heap c).CallName).toFinset.card : Int) ∧
      ∀ c ∈ Calls, ∀ d ∈ Calls,
        (Calls.map fun c => (st.heap c).CallName).indexOf (st.heap c).CallName <
            (Calls.map fun c => (st.heap c).CallName).indexOf (st.heap d).CallName →
          (st.heap c).CallID < (st.heap d).CallID := by
  obtain ⟨_, _, heap2, s, _, _, _, hs, hval⟩ := init_some h
  obtain ⟨hnames, _, _, _, hvals, hkeysNd, hkeys, hids, hord⟩ := initNames_namesInv hs
  have hheap : st.heap = s.heap := by rw [hval]
  have hcount : st.CallCount = (s.CallID.length : Int) := by rw [hval]
  have hfam : (fun c => (st.heap c).CallName) = fun p => (heap2 p).CallName := by
    funext p
    rw [hheap]
    exact (hnames p).2
  rw [hfam, hheap, hcount]
  have hfam2 : ∀ p, (s.heap p).CallName = (heap2 p).CallName := fun p => (hnames p).2
  have hids2 : ∀ c ∈ Calls, mapGet s.CallID (heap2 c).CallName = some (s.heap c).CallID :=
    hids
  have hget : ∀ c ∈ Calls, mapGet s.CallID (s.heap c).CallName = some (s.heap c).CallID := by
    intro c hc
    rw [hfam2 c]
    exact hids2 c hc
  refine ⟨?_, ?_, ?_, ?_⟩
  · intro c hc d hd
    constructor
    · intro heq
      have h1 := mapGet_mem _ _ _ (hget c hc)
      have h2 := mapGet_mem _ _ _ (hget d hd)
      rw [heq] at h1
      have hnd : (s.CallID.map Prod.snd).Nodup := by
        rw [hvals]; exact range_ofNat_nodup _
      have := List.inj_on_of_nodup_map hnd h1 h2 rfl
      exact congrArg Prod.fst this
    · intro heq
      have h1 := hget c hc
      rw [heq, hget d hd] at h1
      exact (Option.some.inj h1).symm
  · intro n
    constructor
    · rintro ⟨c, hc, hn⟩
      rw [← hn]
      exact mapGet_range_lt s.CallID _ _ hvals (hget c hc)
    · rintro ⟨h0, hlt⟩
      obtain ⟨i, hi⟩ := Int.eq_ofNat_of_zero_le h0
      have hilt : i < s.CallID.length := by
        rw [hi] at hlt
        exact Int.ofNat_lt.mp hlt
      have hmem : Int.ofNat i ∈ s.CallID.map Prod.snd := by
        rw [hvals]
        exact List.mem_map.mpr ⟨i, List.mem_range.mpr hilt, rfl⟩
      obtain ⟨e, he, hev⟩ := List.mem_map.mp hmem
      have hkey : e.1 ∈ Calls.map fun p => (heap2 p).CallName :=
        (hkeys e.1).mp (List.mem_map.mpr ⟨e, he, rfl⟩)
      obtain ⟨c, hc, hce⟩ := List.mem_map.mp hkey
      refine ⟨c, hc, ?_⟩
      have hce2 : (heap2 c).CallName = e.1 := hce
      have h1 := hids2 c hc
      rw [hce2, mapGet_of_mem s.CallID e.1 e.2 hkeysNd he] at h1
      rw [← Option.some.inj h1, hev, hi]
      rfl
  · have hset : (Calls.map fun p => (heap2 p).CallName).toFinset =
        (s.CallID.map Prod.fst).toFinset := by
      ext k
      rw [List.mem_toFinset, List.mem_toFinset, hkeys k]
    rw [hset, List.toFinset_card_of_nodup hkeysNd, List.length_map]
  · intro c hc d hd hlt
    rw [hfam2 c, hfam2 d] at hlt
    exact hord _ _ _ _ hlt (List.mem_map_of_mem _ hd) (hids2 c hc) (hids2 d hd)

set_option maxRecDepth 100000 in
/-- C12, on a registry with `open`, `read` and `openat`, the first and the
last of the family `open`: the family `open` has index 0, `read` index 1, and
`CallCount` is 2. -/
theorem init_family_index_witness :
    (init [0, 1, 2] famHeap).map (fun st =>
        ((st.heap 0).CallID, (st.heap 1).CallID, (st.heap 2).CallID, st.CallCount)) =
        some (0, 1, 0, 2) ∧
      ∃ st, init [0, 1, 2] famHeap = some st ∧
        ((st.heap 0).CallID = (st.heap 2).CallID ↔
          (st.heap 0).CallName = (st.heap 2).CallName) ∧
        ((∃ c ∈ ([0, 1, 2] : List CallPtr), (st.heap c).CallID = 1) ↔
          (0 : Int) ≤ 1 ∧ 1 < st.CallCount) := by
  refine ⟨by decide, ?_⟩
  have hsome : (init [0, 1, 2] famHeap).isSome = true := by decide
  obtain ⟨st, hst⟩ := Option.isSome_iff_exists.mp hsome
  obtain ⟨h1, h2, _, _⟩ := init_family_index [0, 1, 2] famHeap st hst
  exact ⟨st, hst, h1 0 (by decide) 2 (by decide), h2 1⟩

/-- C13. After a successful `init`, for every kind of `ResourceKinds()` and
every subkind of `ResourceSubkinds(kind)`, the cached list
`ResourceConstructors(kind, subkind)`, which `initResources` fills before the
layout, is `ResourceCtors(kind, subkind, false)` on the calls after `init`:
the same calls in the same order. -/
theorem init_cache_eq (Calls : List CallPtr) (heap : Heap) (st : InitState)
    (h : init Calls heap = some st) (kind : ResourceKind) (hkind : kind ∈ ResourceKinds)
    (sks : List ResourceSubkind) (hsks : ResourceSubkinds kind = some sks)
    (sk : ResourceSubkind) (hsk : sk ∈ sks) :
    ResourceConstructors st.ctors kind sk = ResourceCtors Calls st.heap kind sk false := by
  obtain ⟨hsame, _⟩ := init_same h
  obtain ⟨ctors, _, _, s, hres, _, _, _, hval⟩ := init_some h
  have hctors : st.ctors = ctors := by rw [hval]
  rw [resourceCtors_same Calls hsame, hctors]
  unfold initResources at hres
  obtain ⟨sks2, hsks2, hget⟩ := (initKinds_get Calls heap ResourceKinds [] ctors hres kind).1 hkind
  rw [hsks] at hsks2
  rw [← Option.some.inj hsks2] at hget
  unfold ResourceConstructors
  rw [hget]
  simp only
  rw [initSubkinds_get, if_pos hsk]
  rfl

set_option maxRecDepth 100000 in
/-- C13, on the registry of `Fstat` and `Open`: the cache for file descriptors
of files is `Open`, as the lookup on the laid-out calls. -/
theorem init_cache_eq_witness :
    ResFD ∈ ResourceKinds ∧ FdFile ∈ (ResourceSubkinds ResFD).getD [] ∧
      (init [0, 1] initHeap).map
          (fun st => ResourceConstructors st.ctors ResFD FdFile) = some [1] ∧
      ∃ st, init [0, 1] initHeap = some st ∧
        ResourceConstructors st.ctors ResFD FdFile =
          ResourceCtors [0, 1] st.heap ResFD FdFile false := by
  refine ⟨by decide, by decide, by decide, ?_⟩
  have hsome : (init [0, 1] initHeap).isSome = true := by decide
  obtain ⟨st, hst⟩ := Option.isSome_iff_exists.mp hsome
  exact ⟨st, hst,
    init_cache_eq [0, 1] initHeap st hst ResFD (by decide) _ rfl FdFile (by decide)⟩

/-- C15. When `rec` succeeds on a type, every struct reachable in its result
through pointer targets, array elements and struct fields, the result itself
included, has `padded` true and a `Size()`; on a struct, `rec` first lays out
the fields, so that `addAlignment` is applied to fields whose reachable
structs are laid out; and after a successful `init` every struct reachable
from the arguments and the return type of a call of the registry is laid
out. -/
theorem rec_bottom_up (t t2 : Typ) (h : rec t = some t2) :
    (∀ s ∈ reachableTypes t2, LaidOut s) ∧
      (∀ (c : TypeCommon) (fs : List Typ) (p : Bool), t = Typ.StructType c fs p →
        ∃ fs2 out, recList fs = some fs2 ∧ (∀ s ∈ reachableOfList fs2, LaidOut s) ∧
          addAlignment { toTypeCommon := c, Fields := fs2, padded := p } = some out ∧
          t2 = out.toTyp) ∧
      ∀ (Calls : List CallPtr) (heap : Heap) (st : InitState), init Calls heap = some st →
        ∀ c ∈ Calls, CallLaidOut (st.heap c) := by
  refine ⟨rec_laidOut t t2 h, ?_, ?_⟩
  · intro c fs p ht
    rw [ht] at h
    obtain ⟨fs2, out, hl, ha, ht2⟩ := rec_struct h
    exact ⟨fs2, out, hl, recList_laidOut fs fs2 hl, ha, ht2⟩
  · intro Calls heap st hst
    exact (init_same hst).2

/-- C15, on a struct with a nested struct behind a pointer: both are laid out
by `rec`, the inner one with one byte of padding, the outer one with three. -/
theorem rec_bottom_up_witness :
    rec exNested = some exNestedLaid ∧ (∀ s ∈ reachableTypes exNestedLaid, LaidOut s) ∧
      Typ.Size exNested = none ∧ Typ.Size exNestedLaid = some 16 :=
  ⟨rfl, (rec_bottom_up exNested exNestedLaid rfl).1, by decide, by decide⟩

end Sys
